import Mathlib

/-!
Verification development for the tailwindcss-namespace engine
(`src/index.ts`).  The TypeScript source is shallowly embedded: JS strings
become `String`/`List Char`, JS `Map`/`Set` (insertion ordered) become
association lists / duplicate-free lists, 32-bit arithmetic becomes `Nat`
arithmetic modulo `2^32`, and the stateful resolver becomes explicit state
passing over `RState`.
-/

namespace TwNs

/-! ### JS string primitives -/

/-- The character class matched by `\s` in JS regular expressions. -/
def jsSpace (c : Char) : Bool :=
  c = ' ' || c = '\t' || c = '\n' ||
  c.toNat = 11 || c.toNat = 12 || c.toNat = 13 ||
  c.toNat = 0xa0 || c.toNat = 0x1680 ||
  (0x2000 ≤ c.toNat && c.toNat ≤ 0x200a) ||
  c.toNat = 0x2028 || c.toNat = 0x2029 || c.toNat = 0x202f ||
  c.toNat = 0x205f || c.toNat = 0x3000 || c.toNat = 0xfeff

/-- Helper for `jsSplitWs`: accumulates the current (reversed) token.
Structural recursion on a fuel argument (kept at least the list length)
so that the kernel can evaluate it. -/
def jsSplitWsGo : Nat → List Char → List Char → List String
  | 0, _, acc => [String.mk acc.reverse]
  | _ + 1, [], acc => [String.mk acc.reverse]
  | fuel + 1, c :: t, acc =>
    if jsSpace c then
      String.mk acc.reverse :: jsSplitWsGo fuel (t.dropWhile jsSpace) []
    else
      jsSplitWsGo fuel t (c :: acc)

/-- JS `str.split(/\s+/)`: splits on maximal whitespace runs; a leading or
trailing whitespace run contributes an empty-string element. -/
def jsSplitWs (s : String) : List String := jsSplitWsGo s.data.length s.data []

/-- JS `str.split(/\s+/).filter(Boolean)`: the whitespace-separated tokens
of `s` (empty strings are falsy and dropped). -/
def tokensOf (s : String) : List String := (jsSplitWs s).filter (fun t => t ≠ "")

/-- JS string comparison `a < b`: lexicographic on code units. -/
def strLtChars : List Char → List Char → Bool
  | [], [] => false
  | [], _ :: _ => true
  | _ :: _, [] => false
  | a :: as, b :: bs =>
    if a.toNat < b.toNat then true
    else if b.toNat < a.toNat then false
    else strLtChars as bs

/-- JS string comparison `a <= b`. -/
def strLeB (a b : String) : Bool := !(strLtChars b.data a.data)

/-- Sorted insertion with respect to `strLeB`. -/
def orderedInsertStr (x : String) : List String → List String
  | [] => [x]
  | y :: ys => if strLeB x y then x :: y :: ys else y :: orderedInsertStr x ys

/-- JS `Array.prototype.sort()` on an array of strings: lexicographic
comparison on code units (insertion sort; JS's sort is stable, and
stability is irrelevant here because equal strings are identical). -/
def jsSortStrings : List String → List String
  | [] => []
  | x :: xs => orderedInsertStr x (jsSortStrings xs)

/-- JS `Array.prototype.join(sep)`. -/
def joinSep (sep : String) : List String → String
  | [] => ""
  | [x] => x
  | x :: xs => x ++ sep ++ joinSep sep xs

/-- First `n` characters of a string (JS `substring(0, n)`). -/
def strTake (s : String) (n : Nat) : String := String.mk (s.data.take n)

/-- `normalizeClassString` from `src/index.ts`:
`classStr.split(/\s+/).filter(Boolean).sort().join(" ")`. -/
def normalizeClassString (classStr : String) : String :=
  joinSep " " (jsSortStrings (tokensOf classStr))

/-- Head character class of `/^[a-zA-Z_-][a-zA-Z0-9_-]*$/`. -/
def identHead (c : Char) : Bool :=
  (('a' ≤ c && c ≤ 'z') || ('A' ≤ c && c ≤ 'Z')) || c = '_' || c = '-'

/-- Tail character class of `/^[a-zA-Z_-][a-zA-Z0-9_-]*$/`. -/
def identTail (c : Char) : Bool :=
  identHead c || ('0' ≤ c && c ≤ '9')

/-- `isValidCssIdentifier` from `src/index.ts`:
`/^[a-zA-Z_-][a-zA-Z0-9_-]*$/.test(str)`. -/
def isValidCssIdentifier (str : String) : Bool :=
  match str.data with
  | [] => false
  | c :: t => identHead c && t.all identTail

/-- Decimal digit character (for `n < 10`). -/
def decChar (n : Nat) : Char := Char.ofNat (48 + n)

/-- Decimal digit list of a natural number, most significant first.
Structural recursion on a fuel argument (any fuel at least `n` works). -/
def natDigitsGo : Nat → Nat → List Char
  | 0, n => [decChar (n % 10)]
  | fuel + 1, n =>
    if n < 10 then [decChar n]
    else natDigitsGo fuel (n / 10) ++ [decChar (n % 10)]

/-- Rendering of a natural number in a JS template literal (`${version}`). -/
def natDecimal (n : Nat) : String := String.mk (natDigitsGo n n)

/-! ### JS `Map` and `Set` (insertion-ordered) -/

/-- `Map.prototype.get` on an insertion-ordered association list. -/
def mget {α β : Type} [DecidableEq α] : List (α × β) → α → Option β
  | [], _ => none
  | (k', v) :: t, k => if k' = k then some v else mget t k

/-- `Map.prototype.set`: updates an existing key in place, else appends. -/
def mset {α β : Type} [DecidableEq α] : List (α × β) → α → β → List (α × β)
  | [], k, v => [(k, v)]
  | (k', v') :: t, k, v =>
    if k' = k then (k, v) :: t else (k', v') :: mset t k v

/-- `Map.prototype.delete`: removes the entry for a key, if present. -/
def mdel {α β : Type} [DecidableEq α] : List (α × β) → α → List (α × β)
  | [], _ => []
  | (k', v') :: t, k => if k' = k then t else (k', v') :: mdel t k

/-- `Set.prototype.add`: appends an element not already present. -/
def sadd {α : Type} [DecidableEq α] (s : List α) (x : α) : List α :=
  if x ∈ s then s else s ++ [x]

/-! ### MD5 (`crypto.createHash("md5")`), on `Nat` modulo `2^32` -/

/-- Truncation to 32 bits. -/
def w32 (n : Nat) : Nat := n % 4294967296

/-- Generic bitwise combination of the low `k` bits of two naturals. -/
def bitCombine (f : Nat → Nat → Nat) : Nat → Nat → Nat → Nat
  | 0, _, _ => 0
  | k + 1, x, y => f (x % 2) (y % 2) + 2 * bitCombine f k (x / 2) (y / 2)

/-- 32-bit bitwise AND. -/
def andN (x y : Nat) : Nat :=
  bitCombine (fun a b => if a = 1 && b = 1 then 1 else 0) 32 x y

/-- 32-bit bitwise OR. -/
def orN (x y : Nat) : Nat :=
  bitCombine (fun a b => if a = 1 || b = 1 then 1 else 0) 32 x y

/-- 32-bit bitwise XOR. -/
def xorN (x y : Nat) : Nat :=
  bitCombine (fun a b => if a = b then 0 else 1) 32 x y

/-- 32-bit bitwise complement. -/
def notN (x : Nat) : Nat := 4294967295 - w32 x

/-- 32-bit left rotation (defined for `x < 2^32`, `s ≤ 32`). -/
def rotl (x s : Nat) : Nat := w32 (x * 2 ^ s + x / 2 ^ (32 - s))

/-- Round function F. -/
def md5F (b c d : Nat) : Nat := orN (andN b c) (andN (notN b) d)

/-- Round function G. -/
def md5G (b c d : Nat) : Nat := orN (andN d b) (andN (notN d) c)

/-- Round function H. -/
def md5H (b c d : Nat) : Nat := xorN b (xorN c d)

/-- Round function I. -/
def md5I (b c d : Nat) : Nat := xorN c (orN b (notN d))

/-- The 64 MD5 sine-derived constants. -/
def md5K : List Nat :=
  [0xd76aa478, 0xe8c7b756, 0x242070db, 0xc1bdceee,
   0xf57c0faf, 0x4787c62a, 0xa8304613, 0xfd469501,
   0x698098d8, 0x8b44f7af, 0xffff5bb1, 0x895cd7be,
   0x6b901122, 0xfd987193, 0xa679438e, 0x49b40821,
   0xf61e2562, 0xc040b340, 0x265e5a51, 0xe9b6c7aa,
   0xd62f105d, 0x02441453, 0xd8a1e681, 0xe7d3fbc8,
   0x21e1cde6, 0xc33707d6, 0xf4d50d87, 0x455a14ed,
   0xa9e3e905, 0xfcefa3f8, 0x676f02d9, 0x8d2a4c8a,
   0xfffa3942, 0x8771f681, 0x6d9d6122, 0xfde5380c,
   0xa4beea44, 0x4bdecfa9, 0xf6bb4b60, 0xbebfbc70,
   0x289b7ec6, 0xeaa127fa, 0xd4ef3085, 0x04881d05,
   0xd9d4d039, 0xe6db99e5, 0x1fa27cf8, 0xc4ac5665,
   0xf4292244, 0x432aff97, 0xab9423a7, 0xfc93a039,
   0x655b59c3, 0x8f0ccc92, 0xffeff47d, 0x85845dd1,
   0x6fa87e4f, 0xfe2ce6e0, 0xa3014314, 0x4e0811a1,
   0xf7537e82, 0xbd3af235, 0x2ad7d2bb, 0xeb86d391]

/-- The per-step left-rotation amounts. -/
def md5Shift (i : Nat) : Nat :=
  (([[7, 12, 17, 22], [5, 9, 14, 20], [4, 11, 16, 23], [6, 10, 15, 21]] :
      List (List Nat)).getD (i / 16) []).getD (i % 4) 0

/-- The message-word index used at step `i`. -/
def md5GIdx (i : Nat) : Nat :=
  if i < 16 then i
  else if i < 32 then (5 * i + 1) % 16
  else if i < 48 then (3 * i + 5) % 16
  else (7 * i) % 16

/-- Little-endian byte list (length `k`) of a natural number. -/
def leBytes : Nat → Nat → List Nat
  | 0, _ => []
  | k + 1, n => n % 256 :: leBytes k (n / 256)

/-- Little-endian 32-bit word from (up to) four bytes. -/
def leWord (bs : List Nat) : Nat := bs.foldr (fun b acc => b + 256 * acc) 0

/-- One MD5 compression step. -/
def md5Step (m : Nat → Nat) (abcd : Nat × Nat × Nat × Nat) (i : Nat) :
    Nat × Nat × Nat × Nat :=
  let a := abcd.1
  let b := abcd.2.1
  let c := abcd.2.2.1
  let d := abcd.2.2.2
  let f := if i < 16 then md5F b c d
           else if i < 32 then md5G b c d
           else if i < 48 then md5H b c d
           else md5I b c d
  let tmp := w32 (a + f + md5K.getD i 0 + m (md5GIdx i))
  (d, w32 (b + rotl tmp (md5Shift i)), b, c)

/-- MD5 compression of one 64-byte chunk. -/
def md5Chunk (st : Nat × Nat × Nat × Nat) (chunk : List Nat) :
    Nat × Nat × Nat × Nat :=
  let m := fun j => leWord ((chunk.drop (4 * j)).take 4)
  let r := (List.range 64).foldl (md5Step m) st
  (w32 (st.1 + r.1), w32 (st.2.1 + r.2.1),
   w32 (st.2.2.1 + r.2.2.1), w32 (st.2.2.2 + r.2.2.2))

/-- Splits a byte list into 64-byte chunks (fuel-based structural
recursion; any fuel at least the list length works). -/
def chunksOf64Go : Nat → List Nat → List (List Nat)
  | 0, _ => []
  | fuel + 1, l =>
    if l = [] then [] else l.take 64 :: chunksOf64Go fuel (l.drop 64)

/-- Splits a byte list into 64-byte chunks. -/
def chunksOf64 (l : List Nat) : List (List Nat) := chunksOf64Go l.length l

/-- MD5 padding: `0x80`, zeros to 56 mod 64, then the 64-bit bit length. -/
def md5Pad (msg : List Nat) : List Nat :=
  let len := msg.length
  let zeros := (119 - len % 64) % 64
  msg ++ [0x80] ++ List.replicate zeros 0 ++
    leBytes 8 ((len * 8) % 18446744073709551616)

/-- The 16-byte MD5 digest of a byte list. -/
def md5Digest (msg : List Nat) : List Nat :=
  let r := (chunksOf64 (md5Pad msg)).foldl md5Chunk
    (0x67452301, 0xefcdab89, 0x98badcfe, 0x10325476)
  leBytes 4 r.1 ++ leBytes 4 r.2.1 ++ leBytes 4 r.2.2.1 ++ leBytes 4 r.2.2.2

/-- UTF-8 encoding of one character (Node's default string encoding). -/
def utf8Encode (c : Char) : List Nat :=
  let n := c.toNat
  if n < 0x80 then [n]
  else if n < 0x800 then [0xc0 + n / 64, 0x80 + n % 64]
  else if n < 0x10000 then
    [0xe0 + n / 4096, 0x80 + n / 64 % 64, 0x80 + n % 64]
  else
    [0xf0 + n / 262144, 0x80 + n / 4096 % 64, 0x80 + n / 64 % 64, 0x80 + n % 64]

/-- UTF-8 bytes of a string. -/
def utf8Bytes (s : String) : List Nat := s.data.flatMap utf8Encode

/-- Lowercase hex digit character (for `n < 16`). -/
def hexChar (n : Nat) : Char :=
  if n < 10 then Char.ofNat (48 + n) else Char.ofNat (87 + n)

/-- Two lowercase hex characters of a byte. -/
def byteHex (b : Nat) : List Char := [hexChar (b / 16 % 16), hexChar (b % 16)]

/-- `crypto.createHash("md5").update(s).digest("hex")`. -/
def md5Hex (s : String) : String :=
  String.mk ((md5Digest (utf8Bytes s)).flatMap byteHex)

/-! ### The namespace resolver (`processClassValue`) -/

/-- The resolver's process-wide tables: `namespaceVersions` (base
namespace to highest issued version) and `namespaceToClasses` (base or
versioned namespace to its set of canonical utility strings). -/
structure RState where
  namespaceVersions : List (String × Nat)
  namespaceToClasses : List (String × List String)
deriving Repr, DecidableEq

/-- The empty tables present at process startup. -/
def emptyRState : RState := ⟨[], []⟩

/-- `processClassValue` from `src/index.ts`: returns
`(normalizedClasses, generatedClassName, updated tables)`. -/
def processClassValue (st : RState) (classValue : String)
    (nsHint : Option String) : String × String × RState :=
  let normalizedClasses := normalizeClassString classValue
  match nsHint with
  | none => (normalizedClasses, "tw-" ++ strTake (md5Hex normalizedClasses) 6, st)
  | some ns =>
    if !isValidCssIdentifier ns then
      (normalizedClasses, "tw-" ++ strTake (md5Hex normalizedClasses) 6, st)
    else
      match mget st.namespaceToClasses ns with
      | none =>
        (normalizedClasses, ns,
         ⟨mset st.namespaceVersions ns 0,
          mset st.namespaceToClasses ns [normalizedClasses]⟩)
      | some existingClasses =>
        if normalizedClasses ∈ existingClasses then
          (normalizedClasses, ns, st)
        else
          let highestVersion := (mget st.namespaceVersions ns).getD 0
          match (List.range' 1 highestVersion).find? (fun version =>
              normalizedClasses ∈
                (mget st.namespaceToClasses
                  (ns ++ "-" ++ natDecimal version)).getD []) with
          | some matchedVersion =>
            (normalizedClasses, ns ++ "-" ++ natDecimal matchedVersion, st)
          | none =>
            let newVersion := (mget st.namespaceVersions ns).getD 0 + 1
            let newVersionedNamespace := ns ++ "-" ++ natDecimal newVersion
            (normalizedClasses, newVersionedNamespace,
             ⟨mset st.namespaceVersions ns newVersion,
              mset st.namespaceToClasses newVersionedNamespace
                [normalizedClasses]⟩)

/-! ### The source scanner (`processFile`)

The three regular expressions of `src/index.ts` are embedded as
deterministic matchers: in each of them every greedy sub-pattern
(`\s+`, `\s*`, `[^"']+`) is followed by a character it can never match,
so the regex engine's backtracking can never change the outcome and the
greedy matcher is exact.  `exec` loops with `lastIndex` become a scan
that tries each position in order and jumps over a found match. -/

/-- Opening brace character. -/
def obrace : Char := Char.ofNat 123

/-- Closing brace character. -/
def cbrace : Char := Char.ofNat 125

/-- Double-quote character. -/
def dqc : Char := Char.ofNat 34

/-- Single-quote character. -/
def sqc : Char := Char.ofNat 39

/-- The character class `["']`. -/
def isQuote (c : Char) : Bool := c = dqc || c = sqc

/-- Consumes an exact literal, returning the rest. -/
def dropLit : List Char → List Char → Option (List Char)
  | [], rest => some rest
  | _ :: _, [] => none
  | c :: cs, r :: rs => if r = c then dropLit cs rs else none

/-- The capture groups of a class-attribute match:
(match prefix, class value, match suffix). -/
def MParts : Type := List Char × List Char × List Char

/-- Total length of a class-attribute match. -/
def mpartsLen (p : MParts) : Nat :=
  p.1.length + p.2.1.length + p.2.2.length

/-- Matcher for `(\s+class\s*=\s*["'])([^"']+)(["'])` anchored at the
current position. -/
def matchClassAttrAt (l : List Char) : Option MParts :=
  let sp1 := l.takeWhile jsSpace
  if sp1 = [] then none else
  match dropLit "class".data (l.dropWhile jsSpace) with
  | none => none
  | some r2 =>
    let sp2 := r2.takeWhile jsSpace
    match r2.dropWhile jsSpace with
    | '=' :: r4 =>
      let sp3 := r4.takeWhile jsSpace
      match r4.dropWhile jsSpace with
      | q1 :: r6 =>
        if isQuote q1 then
          let val := r6.takeWhile (fun c => !isQuote c)
          if val = [] then none else
          match r6.dropWhile (fun c => !isQuote c) with
          | q2 :: _ =>
            some (sp1 ++ "class".data ++ sp2 ++ ['='] ++ sp3 ++ [q1], val, [q2])
          | [] => none
        else none
      | [] => none
    | _ => none

/-- Matcher for `(\s+className\s*=\s*\{["'])([^"']+)(["']\})` anchored at
the current position. -/
def matchJsxAt (l : List Char) : Option MParts :=
  let sp1 := l.takeWhile jsSpace
  if sp1 = [] then none else
  match dropLit "className".data (l.dropWhile jsSpace) with
  | none => none
  | some r2 =>
    let sp2 := r2.takeWhile jsSpace
    match r2.dropWhile jsSpace with
    | '=' :: r4 =>
      let sp3 := r4.takeWhile jsSpace
      match r4.dropWhile jsSpace with
      | b :: q1 :: r6 =>
        if b = obrace && isQuote q1 then
          let val := r6.takeWhile (fun c => !isQuote c)
          if val = [] then none else
          match r6.dropWhile (fun c => !isQuote c) with
          | q2 :: r7 =>
            match r7 with
            | b2 :: _ =>
              if b2 = cbrace then
                some (sp1 ++ "className".data ++ sp2 ++ ['='] ++ sp3 ++
                        [b, q1], val, [q2, b2])
              else none
            | [] => none
          | [] => none
        else none
      | _ => none
    | _ => none

/-- Matcher for `tw-namespace\s*=\s*["']([^"']*)["']`, returning
(match length, attribute value). -/
def matchNamespaceAt (l : List Char) : Option (Nat × String) :=
  match dropLit "tw-namespace".data l with
  | none => none
  | some r1 =>
    let sp1 := r1.takeWhile jsSpace
    match r1.dropWhile jsSpace with
    | '=' :: r2 =>
      let sp2 := r2.takeWhile jsSpace
      match r2.dropWhile jsSpace with
      | q1 :: r3 =>
        if isQuote q1 then
          let val := r3.takeWhile (fun c => !isQuote c)
          match r3.dropWhile (fun c => !isQuote c) with
          | _ :: _ =>
            some ("tw-namespace".length + sp1.length + 1 + sp2.length + 1 +
                    val.length + 1, String.mk val)
          | [] => none
        else none
      | [] => none
    | _ => none

/-- Matcher for the removal regex `\s*tw-namespace\s*=\s*["'][^"']*["']`,
returning the match length. -/
def matchStripAt (l : List Char) : Option Nat :=
  let sp := l.takeWhile jsSpace
  match matchNamespaceAt (l.dropWhile jsSpace) with
  | some (len, _) => some (sp.length + len)
  | none => none

/-- One global-regex scan (`while ((match = re.exec(code)) !== null)`):
tries each position in order, emits `(index, payload)` for each match and
continues after it.  Fuel-based structural recursion; fuel at least the
list length is sufficient since every step consumes at least one
character. -/
def scanAllGo {π : Type} (m : List Char → Option π) (lenOf : π → Nat) :
    Nat → Nat → List Char → List (Nat × π)
  | 0, _, _ => []
  | fuel + 1, pos, rem =>
    match rem with
    | [] => []
    | _ :: t =>
      match m rem with
      | some p =>
        (pos, p) :: scanAllGo m lenOf fuel (pos + lenOf p) (rem.drop (lenOf p))
      | none => scanAllGo m lenOf fuel (pos + 1) t

/-- All matches of a global regex over a text. -/
def scanAll {π : Type} (m : List Char → Option π) (lenOf : π → Nat)
    (l : List Char) : List (Nat × π) :=
  scanAllGo m lenOf l.length 0 l

/-- Stable insertion into a list sorted by first component. -/
def insertByIdx (x : Nat × String) :
    List (Nat × String) → List (Nat × String)
  | [] => [x]
  | y :: ys => if x.1 ≤ y.1 then x :: y :: ys else y :: insertByIdx x ys

/-- `namespaces.sort((a, b) => a.index - b.index)` (stable). -/
def sortByIdx : List (Nat × String) → List (Nat × String)
  | [] => []
  | x :: xs => insertByIdx x (sortByIdx xs)

/-- `findNamespaceForPosition` from `src/index.ts`: the value of the
namespace occurrence with the greatest index strictly below `position`
(the loop walks the sorted list backwards). -/
def findNamespaceForPosition (namespaces : List (Nat × String))
    (position : Nat) : Option String :=
  (namespaces.reverse.find? (fun nv => nv.1 < position)).map (fun nv => nv.2)

/-- `ClassMapping` from `src/index.ts` (`namespace` is a Lean keyword, so
that field is called `nsHint` here). -/
structure ClassMapping where
  originalClasses : String
  normalizedClasses : String
  generatedClassName : String
  nsHint : Option String
  sourceFile : String
deriving Repr, DecidableEq

/-- Accumulator of the replacement loops in `processFile`. -/
structure PassAcc where
  lastIndex : Nat
  res : List Char
  mappings : List ClassMapping
  changed : Bool
  st : RState
deriving Repr

/-- `code.substring(a, b)` on a character list. -/
def listSub (l : List Char) (a b : Nat) : List Char := (l.drop a).take (b - a)

/-- The skip test of the first loop:
`!classValue.trim() || classValue.includes("{")`. -/
def skipPlain (val : List Char) : Bool := val.all jsSpace || val.contains obrace

/-- The skip test of the JSX loop: `!classValue.trim()`. -/
def skipJsx (val : List Char) : Bool := val.all jsSpace

/-- One iteration of a replacement loop of `processFile` (the
`CLASS_ATTR_REGEX` and `JSX_CLASS_REGEX` loops are identical except for
their skip test, passed here as `skip`). -/
def passStep (skip : List Char → Bool) (code : List Char)
    (namespaces : List (Nat × String)) (id : String) (acc : PassAcc)
    (m : Nat × MParts) : PassAcc :=
  let matchIndex := m.1
  let pre := m.2.1
  let classValue := m.2.2.1
  let suf := m.2.2.2
  if skip classValue then acc
  else
    let nsHint := findNamespaceForPosition namespaces matchIndex
    let r := processClassValue acc.st (String.mk classValue) nsHint
    { lastIndex := matchIndex + mpartsLen m.2,
      res := acc.res ++ listSub code acc.lastIndex matchIndex ++
        pre ++ r.2.1.data ++ suf,
      mappings := acc.mappings ++
        [⟨String.mk classValue, r.1, r.2.1, nsHint, id⟩],
      changed := true,
      st := r.2.2 }

/-- Removal of a list of (position, length) spans from a text
(the global replacement by the empty string). -/
def removeGo (l : List Char) : Nat → List (Nat × Nat) → List Char
  | cursor, [] => l.drop cursor
  | cursor, (pos, len) :: rest => listSub l cursor pos ++ removeGo l (pos + len) rest

/-- `modifiedCode.replace(/\s*tw-namespace\s*=\s*["'][^"']*["']/g, "")`. -/
def stripAll (l : List Char) : List Char :=
  removeGo l 0 (scanAll matchStripAt (fun n => n) l)

/-- `processFile` from `src/index.ts`: returns
`(processedCode, changed, mappings, updated resolver tables)`. -/
def processFile (st : RState) (code : String) (id : String) :
    String × Bool × List ClassMapping × RState :=
  let codeL := code.data
  let namespaces := sortByIdx
    ((scanAll matchNamespaceAt (fun p => p.1) codeL).map
      (fun m => (m.1, m.2.2)))
  let a1 := (scanAll matchClassAttrAt mpartsLen codeL).foldl
    (passStep skipPlain codeL namespaces id) ⟨0, [], [], false, st⟩
  let modified1 := a1.res ++ codeL.drop a1.lastIndex
  if a1.changed then
    let a2 := (scanAll matchJsxAt mpartsLen modified1).foldl
      (passStep skipJsx modified1 namespaces id)
      ⟨0, [], a1.mappings, true, a1.st⟩
    let modified2 := a2.res ++ modified1.drop a2.lastIndex
    (String.mk (stripAll modified2), true, a2.mappings, a2.st)
  else
    (String.mk modified1, false, a1.mappings, a1.st)

/-! ### The stylesheet generator -/

/-- `FileMapping` from `src/index.ts`. -/
structure FileMapping where
  sourceFile : String
  cssFile : String
  mappings : List ClassMapping
deriving Repr, DecidableEq

/-- JS `str.split(sep)` for a one-character separator: helper. -/
def splitCharGo (sep : Char) : List Char → List Char → List String
  | [], acc => [String.mk acc.reverse]
  | c :: t, acc =>
    if c = sep then String.mk acc.reverse :: splitCharGo sep t []
    else splitCharGo sep t (c :: acc)

/-- JS `str.split(sep)` for a one-character separator. -/
def splitChar (sep : Char) (s : String) : List String :=
  splitCharGo sep s.data []

/-- The `@apply` body lines of one rule:
`for (const cls of classes) css += "  @apply " + cls + ";\n"`. -/
def applyLines : List String → String
  | [] => ""
  | u :: t => "  @apply " ++ u ++ ";\n" ++ applyLines t

/-- The loop body of `generateStandardCss`: emit one rule per distinct
generated class name (first occurrence wins). -/
def generateStandardCssStep (acc : List String × String) (cm : ClassMapping) :
    List String × String :=
  if cm.generatedClassName ∈ acc.1 then acc
  else
    (acc.1 ++ [cm.generatedClassName],
     acc.2 ++ "." ++ cm.generatedClassName ++ " \x7b\n" ++
       applyLines (tokensOf cm.originalClasses) ++ "\x7d\n\n")

/-- `generateStandardCss` from `src/index.ts`: one rule per distinct
generated class name (first occurrence wins), applying the
whitespace-split tokens of its `originalClasses`. -/
def generateStandardCss (mapping : FileMapping) : String :=
  (mapping.mappings.foldl generateStandardCssStep ([], "")).2

/-- The first loop body of the optimized generators: record the class's
utility list and add the class to each utility's user set. -/
def optCollect
    (acc : List (String × List String) × List (String × List String))
    (cm : ClassMapping) :
    List (String × List String) × List (String × List String) :=
  let className := cm.generatedClassName
  let utilities := tokensOf cm.originalClasses
  let defs := mset acc.2 className utilities
  let u2c := utilities.foldl
    (fun u2c u => mset u2c u (sadd ((mget u2c u).getD []) className))
    acc.1
  (u2c, defs)

/-- The grouping loop body: push the utility into the bucket keyed by the
sorted comma-joined list of classes using it. -/
def optGroup (g : List (String × List String))
    (entry : String × List String) : List (String × List String) :=
  let classKey := joinSep "," (jsSortStrings entry.2)
  mset g classKey (((mget g classKey).getD []) ++ [entry.1])

/-- The first output loop body: emit a combined rule for every group with
at least two classes and one utility, marking its (class, utility) pairs
as processed. -/
def optEmitGroup (acc : String × List String)
    (entry : String × List String) : String × List String :=
  let classes := (splitChar ',' entry.1).filter (fun c => c ≠ "")
  if classes.length ≤ 1 || entry.2.length = 0 then acc
  else
    (acc.1 ++ joinSep ", " (classes.map (fun c => "." ++ c)) ++ " \x7b\n" ++
       applyLines entry.2 ++ "\x7d\n\n",
     classes.foldl
       (fun pr className =>
         entry.2.foldl (fun pr u => sadd pr (className ++ ":" ++ u)) pr)
       acc.2)

/-- The second output loop body: emit a per-class rule for utilities not
covered by an emitted group. -/
def optRemainder (processedUtilityClasses : List String) (css : String)
    (entry : String × List String) : String :=
  let remainingUtilities := entry.2.filter
    (fun u => (entry.1 ++ ":" ++ u) ∉ processedUtilityClasses)
  if remainingUtilities.length > 0 then
    css ++ "." ++ entry.1 ++ " \x7b\n" ++
      applyLines remainingUtilities ++ "\x7d\n\n"
  else css

/-- The shared body of `generateOptimizedCss` and
`generateGlobalOptimizedCss` (the two functions of `src/index.ts` run the
same algorithm; the global one runs it over all files' mappings). -/
def optimizedCore (ms : List ClassMapping) : String :=
  let maps := ms.foldl optCollect ([], [])
  let utilityGroups := maps.1.foldl optGroup []
  let r1 := utilityGroups.foldl optEmitGroup ("", [])
  maps.2.foldl (optRemainder r1.2) r1.1

/-- `generateOptimizedCss` from `src/index.ts`. -/
def generateOptimizedCss (mapping : FileMapping) : String :=
  optimizedCore mapping.mappings

/-- `generateGlobalOptimizedCss` from `src/index.ts`: the same grouping
computed over the union of all files' mappings. -/
def generateGlobalOptimizedCss (mappings : List (String × FileMapping)) :
    String :=
  "/* Generated by tailwindcss-namespace with global optimization */\n\n" ++
    optimizedCore ((mappings.map (fun e => e.2.mappings)).flatten)

/-- `generateCssContent` from `src/index.ts`. -/
def generateCssContent (mappings : List (String × FileMapping))
    (optimize : Bool) : String :=
  mappings.foldl
    (fun content e =>
      content ++ "/* Styles for " ++ e.1 ++ " */\n\n" ++
        (if optimize then generateOptimizedCss e.2
         else generateStandardCss e.2))
    "/* Generated by tailwindcss-namespace */\n\n"

/-- Position just past the first `*/` of a character list, if any. -/
def findClose : List Char → Option Nat
  | '*' :: '/' :: _ => some 2
  | _ :: t => (findClose t).map (fun n => n + 1)
  | [] => none

/-- `content.replace(/\/\*[\s\S]*?\*\//g, "")`: removes each lazily
matched comment span (fuel-based; fuel at least the length suffices). -/
def stripCommentsGo : Nat → List Char → List Char
  | 0, l => l
  | _ + 1, [] => []
  | fuel + 1, '/' :: t =>
    match t with
    | '*' :: t2 =>
      (match findClose t2 with
       | some n => stripCommentsGo fuel (t2.drop n)
       | none => '/' :: '*' :: t2)
    | _ => '/' :: stripCommentsGo fuel t
  | fuel + 1, c :: t => c :: stripCommentsGo fuel t

/-- JS line terminators (where a multiline `^` can match after). -/
def isLineTerm (c : Char) : Bool :=
  c = '\n' || c = '\r' || c.toNat = 0x2028 || c.toNat = 0x2029

/-- Index of the last `\r` or `\n` in a list, if any. -/
def lastCrlfIdx : List Char → Option Nat
  | [] => none
  | c :: t =>
    match lastCrlfIdx t with
    | some i => some (i + 1)
    | none => if c = '\r' || c = '\n' then some 0 else none

/-- `content.replace(/^\s*[\r\n]/gm, "")`: at each line start, the match
is the whitespace run up to and including its last `\r`/`\n` (the greedy
`\s*` backtracks to leave one line-terminator for `[\r\n]`). -/
def stripEmptyLinesGo : Nat → Bool → List Char → List Char
  | 0, _, l => l
  | _ + 1, _, [] => []
  | fuel + 1, atStart, c :: t =>
    if atStart then
      match lastCrlfIdx ((c :: t).takeWhile jsSpace) with
      | some i => stripEmptyLinesGo fuel true ((c :: t).drop (i + 1))
      | none => c :: stripEmptyLinesGo fuel (isLineTerm c) t
    else c :: stripEmptyLinesGo fuel (isLineTerm c) t

/-- `getContentLengthExcludingComments` from `src/index.ts`. -/
def getContentLengthExcludingComments (content : String) : Nat :=
  let noComments := stripCommentsGo content.data.length content.data
  (stripEmptyLinesGo noComments.length true noComments).length

/-- The `optimizeCss === "auto"` branch of `updateCssFiles`: computes the
three candidate stylesheets, measures them with
`getContentLengthExcludingComments`, and keeps the smallest (ties prefer
global-optimized, then component-optimized, then standard).  Returns the
selected main stylesheet content and the selected mode.  (The
`cleanupNamespaceVersions` call at the top of `updateCssFiles` mutates
only the resolver tables, which none of the generation functions read.) -/
def updateCssFilesAuto (fileMappings : List (String × FileMapping)) :
    String × String :=
  let optimizedMainCssContent := generateCssContent fileMappings true
  let standardMainCssContent := generateCssContent fileMappings false
  let globalOptimizedCssContent := generateGlobalOptimizedCss fileMappings
  let optimizedLength :=
    getContentLengthExcludingComments optimizedMainCssContent
  let standardLength :=
    getContentLengthExcludingComments standardMainCssContent
  let globalOptimizedLength :=
    getContentLengthExcludingComments globalOptimizedCssContent
  if globalOptimizedLength ≤ optimizedLength &&
      globalOptimizedLength ≤ standardLength then
    (globalOptimizedCssContent, "global-optimized")
  else if optimizedLength ≤ standardLength then
    (optimizedMainCssContent, "component-optimized")
  else
    (standardMainCssContent, "standard")

/-! ### Rebuild pass (`cleanupNamespaceVersions`) and the mapping store -/

/-- Decimal digit test (`\d`). -/
def isDigitCh (c : Char) : Bool := 48 ≤ c.toNat && c.toNat ≤ 57

/-- `parseInt(digits, 10)` for a digit list. -/
def digitsToNat (l : List Char) : Nat :=
  l.foldl (fun acc c => acc * 10 + (c.toNat - 48)) 0

/-- `generatedClassName.match(new RegExp("^" + namespace + "-(\\d+)$"))`:
`namespace` passes `isValidCssIdentifier` at every call site, so its
characters are all regex-literal and the regex matches exactly the
strings `namespace ++ "-" ++ digits`.  Returns the parsed version. -/
def matchVersionSuffix (ns gcn : String) : Option Nat :=
  match dropLit ns.data gcn.data with
  | some ('-' :: ds) =>
    if ds ≠ [] && ds.all isDigitCh then some (digitsToNat ds) else none
  | _ => none

/-- The first-pass accumulator of `cleanupNamespaceVersions`:
`allNamespaces` and `allVersionedNamespaces`. -/
def CleanAcc : Type :=
  List (String × List String) × List (String × List (Nat × List String))

/-- The first-pass loop body of `cleanupNamespaceVersions`: classify one
mapping with a valid namespace as versioned (generated name matches
`^ns-(\d+)$`) or base, and record its normalized classes. -/
def cleanupClassify (acc : CleanAcc) (cm : ClassMapping) : CleanAcc :=
  match cm.nsHint with
  | none => acc
  | some ns =>
    if !isValidCssIdentifier ns then acc
    else
      match matchVersionSuffix ns cm.generatedClassName with
      | some version =>
        let vm := (mget acc.2 ns).getD []
        let vs := (mget vm version).getD []
        (acc.1,
         mset acc.2 ns (mset vm version (sadd vs cm.normalizedClasses)))
      | none =>
        (mset acc.1 ns
          (sadd ((mget acc.1 ns).getD []) cm.normalizedClasses),
         acc.2)

/-- First pass over one file's mappings. -/
def cleanupCollect (acc : CleanAcc) (e : String × FileMapping) : CleanAcc :=
  e.2.mappings.foldl cleanupClassify acc

/-- Second-pass inner loop: add one namespace's versioned entries. -/
def cleanupAddVersioned (ns : String) (st : RState)
    (ve : Nat × List String) : RState :=
  ⟨st.namespaceVersions,
   mset st.namespaceToClasses (ns ++ "-" ++ natDecimal ve.1) ve.2⟩

/-- The second-pass loop body of `cleanupNamespaceVersions`: rebuild one
base namespace, its version counter (`Math.max` of collected versions)
and its versioned entries. -/
def cleanupRebuildStep
    (allVersionedNamespaces : List (String × List (Nat × List String)))
    (st : RState) (entry : String × List String) : RState :=
  let ns := entry.1
  let t1 := mset st.namespaceToClasses ns entry.2
  let maxVersion :=
    match mget allVersionedNamespaces ns with
    | some vm => (vm.map (fun ve => ve.1)).foldl max 0
    | none => 0
  let st1 : RState := ⟨mset st.namespaceVersions ns maxVersion, t1⟩
  match mget allVersionedNamespaces ns with
  | some vm => vm.foldl (cleanupAddVersioned ns) st1
  | none => st1

/-- `cleanupNamespaceVersions` from `src/index.ts`: clears the resolver
tables and rebuilds them from the live `FileMapping`s only.  First pass:
classify every mapping with a valid namespace as base or versioned and
collect its normalized classes; second pass: rebuild
`namespaceToClasses` and `namespaceVersions` from the collected data. -/
def cleanupNamespaceVersions (fileMappings : List (String × FileMapping)) :
    RState :=
  let acc := fileMappings.foldl cleanupCollect ([], [])
  acc.1.foldl (cleanupRebuildStep acc.2) (⟨[], []⟩ : RState)

/-- A `ClassMapping` of a currently-live `FileMapping`. -/
def liveMapping (fms : List (String × FileMapping))
    (cm : ClassMapping) : Prop :=
  ∃ e ∈ fms, cm ∈ e.2.mappings

/-- A normalized class string backed, for base namespace `ns`, by a live
mapping that the rebuild pass classifies as base. -/
def backsBase (fms : List (String × FileMapping)) (ns nc : String) : Prop :=
  ∃ cm, liveMapping fms cm ∧ cm.nsHint = some ns ∧
    isValidCssIdentifier ns = true ∧
    matchVersionSuffix ns cm.generatedClassName = none ∧
    cm.normalizedClasses = nc

/-- A normalized class string backed, for version `v` of base namespace
`ns`, by a live mapping that the rebuild pass classifies as versioned. -/
def backsVer (fms : List (String × FileMapping)) (ns : String) (v : Nat)
    (nc : String) : Prop :=
  ∃ cm, liveMapping fms cm ∧ cm.nsHint = some ns ∧
    isValidCssIdentifier ns = true ∧
    matchVersionSuffix ns cm.generatedClassName = some v ∧
    cm.normalizedClasses = nc

/-- Backedness invariant of the first-pass accumulator. -/
def accBacked (fms : List (String × FileMapping)) (acc : CleanAcc) : Prop :=
  (∀ p ∈ acc.1, p.2 ≠ [] ∧ ∀ nc ∈ p.2, backsBase fms p.1 nc) ∧
  (∀ p ∈ acc.2, ∀ q ∈ p.2, q.2 ≠ [] ∧ ∀ nc ∈ q.2, backsVer fms p.1 q.1 nc)

/-- Backedness invariant of the rebuilt tables. -/
def stBacked (fms : List (String × FileMapping)) (st : RState) : Prop :=
  (∀ p ∈ st.namespaceToClasses,
    (∀ nc ∈ p.2, backsBase fms p.1 nc) ∨
    ∃ ns v, p.1 = ns ++ "-" ++ natDecimal v ∧
      ∀ nc ∈ p.2, backsVer fms ns v nc) ∧
  (∀ p ∈ st.namespaceVersions, ∃ nc, backsBase fms p.1 nc)

/-- `getCssFilePathForSource` from `src/index.ts` (path glue): same
directory, basename with `.css` in place of the extension. -/
def getCssFilePathForSource (sourceFile : String) : String :=
  String.mk (cssPathData sourceFile.data) ++ ".css"
where
  /-- Index of the last occurrence of a character. -/
  lastIdxOfCh (c : Char) : List Char → Option Nat
    | [] => none
    | x :: t =>
      match lastIdxOfCh c t with
      | some i => some (i + 1)
      | none => if x = c then some 0 else none
  /-- Directory part plus extension-stripped basename. -/
  cssPathData (d : List Char) : List Char :=
    let split := match lastIdxOfCh '/' d with
      | some i => (d.take (i + 1), d.drop (i + 1))
      | none => ([], d)
    let stem := match lastIdxOfCh '.' split.2 with
      | some i => if i = 0 then split.2 else split.2.take i
      | none => split.2
    split.1 ++ stem

/-- whether a string starts with another. -/
def strStartsWith (s pre : String) : Bool := (dropLit pre.data s.data).isSome

/-- The process-wide engine state: resolver tables plus the
`fileMappings` store. -/
structure Store where
  rs : RState
  fms : List (String × FileMapping)
deriving Repr, DecidableEq

/-- The startup state. -/
def emptyStore : Store := ⟨emptyRState, []⟩

/-- `updateCssFiles`'s effect on engine state: a rebuild pass (it returns
immediately when the store is empty, otherwise its first action is
`cleanupNamespaceVersions`; the rest of the function only writes CSS). -/
def updateOp (s : Store) : Store :=
  ⟨if s.fms = [] then s.rs else cleanupNamespaceVersions s.fms, s.fms⟩

/-- The `transform` hook: scan a file; when it changed, store the new
`FileMapping` and run `updateCssFiles`. -/
def scanOp (s : Store) (code id relId : String) : Store :=
  let r := processFile s.rs code id
  if r.2.1 then
    let fms1 := mset s.fms relId
      ⟨relId, getCssFilePathForSource relId, r.2.2.1⟩
    ⟨if fms1 = [] then r.2.2.2 else cleanupNamespaceVersions fms1, fms1⟩
  else ⟨r.2.2.2, s.fms⟩

/-- The watcher `unlink` handler: drop the file's mapping and run
`updateCssFiles`. -/
def unlinkOp (s : Store) (relId : String) : Store :=
  if (mget s.fms relId).isSome then
    let fms1 := mdel s.fms relId
    ⟨if fms1 = [] then s.rs else cleanupNamespaceVersions fms1, fms1⟩
  else s

/-- The watcher `unlinkDir` handler: drop every mapping whose key starts
with the removed directory path and run `updateCssFiles`. -/
def unlinkDirOp (s : Store) (dir : String) : Store :=
  let fms1 := s.fms.filter (fun e => !(strStartsWith e.1 dir))
  ⟨if fms1 = [] then s.rs else cleanupNamespaceVersions fms1, fms1⟩

/-- Engine states reachable by any sequence of scans, removals and
rebuild passes from startup. -/
inductive ReachStore : Store → Prop
  | init : ReachStore emptyStore
  | scan (s : Store) (code id relId : String) :
      ReachStore s → ReachStore (scanOp s code id relId)
  | unlink (s : Store) (relId : String) :
      ReachStore s → ReachStore (unlinkOp s relId)
  | unlinkDir (s : Store) (dir : String) :
      ReachStore s → ReachStore (unlinkDirOp s dir)
  | update (s : Store) : ReachStore s → ReachStore (updateOp s)

/-- Resolver states reachable by resolver calls alone from empty tables. -/
inductive ReachResolver : RState → Prop
  | init : ReachResolver emptyRState
  | step (st : RState) (v : String) (h : Option String) :
      ReachResolver st → ReachResolver (processClassValue st v h).2.2

/-- Decidable version-density check: for every base namespace in the
version counter, every version `1..highestVersion` has a
versioned-namespace table entry. -/
def versionsDense (st : RState) : Bool :=
  st.namespaceVersions.all (fun e =>
    (List.range' 1 e.2).all (fun v =>
      (mget st.namespaceToClasses (e.1 ++ "-" ++ natDecimal v)).isSome))

/-! ### A spec-shaped reformulation of the scanner

Following §4.3 and the design note of §9 of the specification, the scan
is restated as: collect the occurrence list, filter out skipped
occurrences, resolve them in order, and apply the resulting
(position, length, replacement) edits to the text in one final pass.
`processFileSpecShape` is the second, spec-following definition; the
refinement theorem for the amended C3 proves it equal to `processFile`. -/

/-- Resolves a filtered occurrence list in source order, threading the
resolver state; returns the recorded `ClassMapping`s and final state. -/
def resolveOccs (st : RState) (namespaces : List (Nat × String))
    (id : String) : List (Nat × MParts) → List ClassMapping × RState
  | [] => ([], st)
  | m :: rest =>
    let nsHint := findNamespaceForPosition namespaces m.1
    let r := processClassValue st (String.mk m.2.2.1) nsHint
    let tail := resolveOccs r.2.2 namespaces id rest
    (⟨String.mk m.2.2.1, r.1, r.2.1, nsHint, id⟩ :: tail.1, tail.2)

/-- The (position, length, replacement) edit of each occurrence: the
resolved name spliced between the preserved delimiters. -/
def editsOf : List (Nat × MParts) → List ClassMapping →
    List (Nat × Nat × List Char)
  | occ :: occs, cm :: cms =>
    (occ.1, mpartsLen occ.2,
     occ.2.1 ++ cm.generatedClassName.data ++ occ.2.2.2) :: editsOf occs cms
  | _, _ => []

/-- Applies an ascending list of (position, length, replacement) edits,
starting from a cursor. -/
def applyEditsGo (l : List Char) : Nat → List (Nat × Nat × List Char) →
    List Char
  | cursor, [] => l.drop cursor
  | cursor, (pos, len, rep) :: rest =>
    listSub l cursor pos ++ rep ++ applyEditsGo l (pos + len) rest

/-- Applies a list of edits in one pass. -/
def applyEdits (l : List Char) (es : List (Nat × Nat × List Char)) :
    List Char :=
  applyEditsGo l 0 es

/-- The plain-class occurrences that the first loop processes. -/
def plainOccs (codeL : List Char) : List (Nat × MParts) :=
  (scanAll matchClassAttrAt mpartsLen codeL).filter
    (fun m => !skipPlain m.2.2.1)

/-- The `className` occurrences that the second loop processes. -/
def jsxOccs (codeL : List Char) : List (Nat × MParts) :=
  (scanAll matchJsxAt mpartsLen codeL).filter
    (fun m => !skipJsx m.2.2.1)

/-- The spec-shaped scan: occurrence lists, an ordered resolution fold,
and a single edit-splicing pass per attribute syntax. -/
def processFileSpecShape (st : RState) (code : String) (id : String) :
    String × Bool × List ClassMapping × RState :=
  let codeL := code.data
  let namespaces := sortByIdx
    ((scanAll matchNamespaceAt (fun p => p.1) codeL).map
      (fun m => (m.1, m.2.2)))
  let occs1 := plainOccs codeL
  let r1 := resolveOccs st namespaces id occs1
  if occs1.isEmpty then (String.mk codeL, false, [], st)
  else
    let code1 := applyEdits codeL (editsOf occs1 r1.1)
    let occs2 := jsxOccs code1
    let r2 := resolveOccs r1.2 namespaces id occs2
    let code2 := applyEdits code1 (editsOf occs2 r2.1)
    (String.mk (stripAll code2), true, r1.1 ++ r2.1, r2.2)

/-! ### Recovering (generated name, utility) pairs from a stylesheet

A line-oriented parser for the emitted rule format
`<selectors> {`, `  @apply <utility>;`, `}`: the associations that a
reader of the stylesheet can reconstruct. -/

/-- Splits a character list into lines at `\n`. -/
def lineSplit : List Char → List (List Char)
  | [] => [[]]
  | c :: t =>
    if c = '\n' then [] :: lineSplit t
    else
      match lineSplit t with
      | [] => [[c]]
      | l :: ls => (c :: l) :: ls

/-- Splits a selector list on the two-character separator `, `. -/
def splitSelGo : List Char → List Char → List (List Char)
  | [], acc => [acc.reverse]
  | [c], acc => [(c :: acc).reverse]
  | c :: s :: t2, acc =>
    if c = ',' ∧ s = ' ' then acc.reverse :: splitSelGo t2 []
    else splitSelGo (s :: t2) (c :: acc)

/-- Drops the leading `.` of a selector. -/
def dropDot : List Char → List Char
  | '.' :: t => t
  | l => l

/-- The selector text of a rule-opening line (one ending in ` {`). -/
def selLineParts (l : List Char) : Option (List Char) :=
  match l.reverse with
  | b :: s :: rest => if b = obrace ∧ s = ' ' then some rest.reverse else none
  | _ => none

/-- The utility of an `  @apply <utility>;` line. -/
def applyLineParts (l : List Char) : Option (List Char) :=
  match dropLit "  @apply ".data l with
  | some r =>
    match r.reverse with
    | b :: rest => if b = ';' then some rest.reverse else none
    | [] => none
  | none => none

/-- Line-by-line recovery of (generated name, utility) pairs. -/
def parsePairsLines : List (List Char) → List String → List (String × String)
  | [], _ => []
  | line :: rest, cur =>
    match applyLineParts line with
    | some u => cur.map (fun c => (c, String.mk u)) ++ parsePairsLines rest cur
    | none =>
      match selLineParts line with
      | some sel =>
        parsePairsLines rest
          ((splitSelGo sel []).map (fun s => String.mk (dropDot s)))
      | none =>
        if line = [cbrace] then parsePairsLines rest []
        else parsePairsLines rest cur

/-- The set of (generated name, utility) associations recoverable by
parsing a stylesheet. -/
def parseApplyPairs (css : String) : List (String × String) :=
  parsePairsLines (lineSplit css.data) []

/-- Boolean mutual-containment test for two pair lists (equality of the
recovered association sets). -/
def pairSetEqB (a b : List (String × String)) : Bool :=
  a.all (fun p => p ∈ b) && b.all (fun p => p ∈ a)

/-- A rendered rule: the selector class names (without the leading dot)
and the utilities applied in its body. -/
abbrev Rule : Type := List String × List String

/-- The text of one emitted rule, as both generators write it. -/
def renderRule (r : Rule) : String :=
  joinSep ", " (r.1.map (fun c => "." ++ c)) ++ " \x7b\n" ++
    applyLines r.2 ++ "\x7d\n\n"

/-- The text of a list of rules. -/
def renderRules : List Rule → String
  | [] => ""
  | r :: t => renderRule r ++ renderRules t

/-- The (generated name, utility) pairs a rule associates, in the order
the parser recovers them. -/
def pairsOfRule (r : Rule) : List (String × String) :=
  r.2.flatMap (fun u => r.1.map (fun c => (c, u)))

/-- The characters of one `  @apply <utility>;` line. -/
def applyLineChars (u : String) : List Char :=
  ("  @apply " ++ u ++ ";").data

/-- The characters of a rule's selector list (before ` \x7b`). -/
def selLineChars (sels : List String) : List Char :=
  (joinSep ", " (sels.map (fun c => "." ++ c))).data

/-- The lines a rendered rule contributes to the split stylesheet. -/
def ruleLines (r : Rule) : List (List Char) :=
  (selLineChars r.1 ++ [' ', obrace]) :: r.2.map applyLineChars ++
    [[cbrace], []]

/-- Well-formedness of a rule: a nonempty selector list whose names are
comma- and newline-free, and newline-free utilities. -/
def wfRule (r : Rule) : Prop :=
  r.1 ≠ [] ∧ (∀ c ∈ r.1, ',' ∉ c.data ∧ '\n' ∉ c.data) ∧
    ∀ u ∈ r.2, '\n' ∉ u.data

/-- The rules `generateStandardCss` emits: one per distinct generated
name, first occurrence winning. -/
def stdRulesGo : List String → List ClassMapping → List Rule
  | _, [] => []
  | seen, cm :: t =>
    if cm.generatedClassName ∈ seen then stdRulesGo seen t
    else ([cm.generatedClassName], tokensOf cm.originalClasses) ::
      stdRulesGo (seen ++ [cm.generatedClassName]) t

/-- The seen-name accumulator of the standard generator's loop. -/
def stdNamesGo : List String → List ClassMapping → List String
  | seen, [] => seen
  | seen, cm :: t =>
    if cm.generatedClassName ∈ seen then stdNamesGo seen t
    else stdNamesGo (seen ++ [cm.generatedClassName]) t

/-- The rule a utility group emits, if its guard passes. -/
def groupRuleOf (entry : String × List String) : Option Rule :=
  let classes := (splitChar ',' entry.1).filter (fun c => c ≠ "")
  if classes.length ≤ 1 || entry.2.length = 0 then none
  else some (classes, entry.2)

/-- The processed-set effect of one group-emission step. -/
def prStep (pr : List String) (entry : String × List String) :
    List String :=
  let classes := (splitChar ',' entry.1).filter (fun c => c ≠ "")
  if classes.length ≤ 1 || entry.2.length = 0 then pr
  else classes.foldl
    (fun pr className =>
      entry.2.foldl (fun pr u => sadd pr (className ++ ":" ++ u)) pr)
    pr

/-- The rule the remainder loop emits for one class, if any. -/
def remRuleOf (pr : List String) (entry : String × List String) :
    Option Rule :=
  let remainingUtilities := entry.2.filter
    (fun u => (entry.1 ++ ":" ++ u) ∉ pr)
  if remainingUtilities.length > 0 then some ([entry.1], remainingUtilities)
  else none

/-- The two maps the optimized generator collects. -/
def optMaps (ms : List ClassMapping) :
    List (String × List String) × List (String × List String) :=
  ms.foldl optCollect ([], [])

/-- The utility groups of the optimized generator. -/
def optGroups (ms : List ClassMapping) : List (String × List String) :=
  (optMaps ms).1.foldl optGroup []

/-- The final processed `class:utility` set of the optimized generator. -/
def optPrF (ms : List ClassMapping) : List String :=
  (optGroups ms).foldl prStep []

/-- The rules the optimized generator emits: group rules, then remainder
rules. -/
def optRules (ms : List ClassMapping) : List Rule :=
  (optGroups ms).filterMap groupRuleOf ++
    (optMaps ms).2.filterMap (remRuleOf (optPrF ms))

/-- A file mapping with two mappings sharing a generated name but
disagreeing on utilities. -/
def c7FmBad : FileMapping :=
  ⟨"f", "g", [⟨"x", "x", "a", none, "f"⟩, ⟨"y", "y", "a", none, "f"⟩]⟩

/-- A file mapping with two distinct names sharing the utility `a`. -/
def c7FmW : FileMapping :=
  ⟨"f", "g", [⟨"a b", "a b", "x", none, "f"⟩, ⟨"a c", "a c", "y", none, "f"⟩]⟩

/-- The mapping list's intended associations: a pair (c, u) for every
mapping with generated name c and u among its utility tokens. -/
def semMem (ms : List ClassMapping) (c u : String) : Prop :=
  ∃ cm ∈ ms, cm.generatedClassName = c ∧ u ∈ tokensOf cm.originalClasses

/-- The current state after the first two `btn` resolutions of the C1
scenario (used to state the scenario without deep nesting). -/
def btnState1 : RState :=
  (processClassValue emptyRState "bg-blue-500 p-2" (some "btn")).2.2

/-- State after the second `btn` resolution of the C1 scenario. -/
def btnState2 : RState :=
  (processClassValue btnState1 "bg-red-500 p-2" (some "btn")).2.2

/-- Density of issued versions: whenever the version counter records a
highest version for a base namespace, every version `1..highestVersion`
has a versioned-namespace table entry. -/
def denseProp (st : RState) : Prop :=
  ∀ ns h, mget st.namespaceVersions ns = some h →
    ∀ v, 1 ≤ v → v ≤ h →
      (mget st.namespaceToClasses (ns ++ "-" ++ natDecimal v)).isSome = true

/-- Every namespace in the version counter is in the class table. -/
def versKeyProp (st : RState) : Prop :=
  ∀ ns h, mget st.namespaceVersions ns = some h →
    (mget st.namespaceToClasses ns).isSome = true

/-- The engine state of the C8 counterexample: three scans issuing
`btn` (base), `btn-1`, `btn-2` across three files, then deletion of the
file backing `btn-1` (whose handler runs the rebuild pass). -/
def c8Trace : Store :=
  unlinkOp
    (scanOp
      (scanOp
        (scanOp emptyStore
          " tw-namespace=\"btn\" class=\"bg-blue-500 p-2\"" "f1" "f1")
        " tw-namespace=\"btn\" class=\"bg-red-500 p-2\"" "f2" "f2")
      " tw-namespace=\"btn\" class=\"m-1 p-2\"" "f3" "f3")
    "f2"

/-- The hash-fallback guard of `processClassValue`:
`!namespace || !isValidCssIdentifier(namespace)`. -/
def hintInvalid : Option String → Bool
  | none => true
  | some h => !isValidCssIdentifier h

end TwNs

namespace TwNs

/-! ## Supporting lemmas -/

/-- Case analysis of the `"auto"` selection: exactly one branch of
`updateCssFilesAuto` fires, in the evaluation order of the source. -/
theorem updateAutoCases (fms : List (String × FileMapping)) :
    ((getContentLengthExcludingComments (generateGlobalOptimizedCss fms) ≤
        getContentLengthExcludingComments (generateCssContent fms true)) ∧
     (getContentLengthExcludingComments (generateGlobalOptimizedCss fms) ≤
        getContentLengthExcludingComments (generateCssContent fms false)) ∧
     updateCssFilesAuto fms =
       (generateGlobalOptimizedCss fms, "global-optimized")) ∨
    ((¬ (getContentLengthExcludingComments (generateGlobalOptimizedCss fms) ≤
          getContentLengthExcludingComments (generateCssContent fms true) ∧
        getContentLengthExcludingComments (generateGlobalOptimizedCss fms) ≤
          getContentLengthExcludingComments (generateCssContent fms false))) ∧
     (getContentLengthExcludingComments (generateCssContent fms true) ≤
        getContentLengthExcludingComments (generateCssContent fms false)) ∧
     updateCssFilesAuto fms =
       (generateCssContent fms true, "component-optimized")) ∨
    ((¬ (getContentLengthExcludingComments (generateGlobalOptimizedCss fms) ≤
          getContentLengthExcludingComments (generateCssContent fms true) ∧
        getContentLengthExcludingComments (generateGlobalOptimizedCss fms) ≤
          getContentLengthExcludingComments (generateCssContent fms false))) ∧
     (¬ (getContentLengthExcludingComments (generateCssContent fms true) ≤
          getContentLengthExcludingComments (generateCssContent fms false))) ∧
     updateCssFilesAuto fms =
       (generateCssContent fms false, "standard")) := by
  by_cases h1 :
      getContentLengthExcludingComments (generateGlobalOptimizedCss fms) ≤
        getContentLengthExcludingComments (generateCssContent fms true)
  · by_cases h2 :
        getContentLengthExcludingComments (generateGlobalOptimizedCss fms) ≤
          getContentLengthExcludingComments (generateCssContent fms false)
    · exact Or.inl ⟨h1, h2, by unfold updateCssFilesAuto; simp [h1, h2]⟩
    · by_cases h3 :
          getContentLengthExcludingComments (generateCssContent fms true) ≤
            getContentLengthExcludingComments (generateCssContent fms false)
      · exact Or.inr (Or.inl ⟨fun hh => h2 hh.2, h3,
          by unfold updateCssFilesAuto; simp [h1, h2, h3]⟩)
      · exact Or.inr (Or.inr ⟨fun hh => h2 hh.2, h3,
          by unfold updateCssFilesAuto; simp [h1, h2, h3]⟩)
  · by_cases h3 :
        getContentLengthExcludingComments (generateCssContent fms true) ≤
          getContentLengthExcludingComments (generateCssContent fms false)
    · exact Or.inr (Or.inl ⟨fun hh => h1 hh.1, h3,
        by unfold updateCssFilesAuto; simp [h1, h3]⟩)
    · exact Or.inr (Or.inr ⟨fun hh => h1 hh.1, h3,
        by unfold updateCssFilesAuto; simp [h1, h3]⟩)

/-- `find?` over `range' a b` returns the first element satisfying the
predicate. -/
theorem findRangeSome {p : Nat → Bool} :
    ∀ (b a v : Nat), a ≤ v → v < a + b → p v = true →
    (∀ w, a ≤ w → w < v → p w = false) →
    (List.range' a b).find? p = some v := by
  intro b
  induction b with
  | zero => intro a v h1 h2 _ _; omega
  | succ n ih =>
    intro a v h1 h2 hp hlow
    rw [List.range'_succ a n 1]
    by_cases hav : a = v
    · subst hav
      simp [List.find?_cons, hp]
    · have hlt : a < v := lt_of_le_of_ne h1 hav
      have hfa : p a = false := hlow a (le_refl a) hlt
      rw [List.find?_cons_of_neg _ (by simp [hfa])]
      exact ih (a + 1) v (by omega) (by omega) hp
        (fun w hw1 hw2 => hlow w (by omega) hw2)

/-- Hex digit characters lie in the identifier-tail class. -/
theorem hexCharTail : ∀ n, n < 16 → identTail (hexChar n) = true := by decide

/-- Every character of an `md5Hex` digest is an identifier-tail
character. -/
theorem md5HexTail (s : String) :
    ∀ c ∈ (md5Hex s).data, identTail c = true := by
  intro c hc
  have hc' : c ∈ (md5Digest (utf8Bytes s)).flatMap byteHex := hc
  rcases List.mem_flatMap.mp hc' with ⟨b, _, hcb⟩
  simp only [byteHex, List.mem_cons, List.mem_singleton] at hcb
  rcases hcb with h | h | h
  · rw [h]; exact hexCharTail _ (Nat.mod_lt _ (by omega))
  · rw [h]; exact hexCharTail _ (Nat.mod_lt _ (by omega))
  · cases h

/-- Hash-generated names are valid CSS identifiers. -/
theorem validIdentTwHash (s : String) (n : Nat) :
    isValidCssIdentifier ("tw-" ++ strTake (md5Hex s) n) = true := by
  have hdata : ("tw-" ++ strTake (md5Hex s) n).data =
      't' :: 'w' :: '-' :: (md5Hex s).data.take n := by
    rw [String.data_append]
    rfl
  rw [isValidCssIdentifier, hdata]
  simp only [List.all_cons, Bool.and_eq_true]
  refine ⟨by decide, by decide, by decide, ?_⟩
  rw [List.all_eq_true]
  intro c hc
  exact md5HexTail s c (List.mem_of_mem_take hc)

/-- Decimal digit characters lie in the identifier-tail class. -/
theorem decCharTail : ∀ n, n < 10 → identTail (decChar n) = true := by decide

/-- Every character of `natDecimal` is an identifier-tail character. -/
theorem natDigitsGoTail :
    ∀ (fuel n : Nat), ∀ c ∈ natDigitsGo fuel n, identTail c = true := by
  intro fuel
  induction fuel with
  | zero =>
    intro n c hc
    simp only [natDigitsGo, List.mem_singleton] at hc
    rw [hc]; exact decCharTail _ (Nat.mod_lt _ (by omega))
  | succ f ih =>
    intro n c hc
    rw [natDigitsGo] at hc
    by_cases h : n < 10
    · rw [if_pos h] at hc
      simp only [List.mem_singleton] at hc
      rw [hc]; exact decCharTail _ h
    · rw [if_neg h] at hc
      rcases List.mem_append.mp hc with h1 | h1
      · exact ih _ c h1
      · simp only [List.mem_singleton] at h1
        rw [h1]; exact decCharTail _ (Nat.mod_lt _ (by omega))

/-- Appending `-<digits>` to a valid CSS identifier keeps it valid. -/
theorem validIdentVersioned (ns : String) (v : Nat)
    (h : isValidCssIdentifier ns = true) :
    isValidCssIdentifier (ns ++ "-" ++ natDecimal v) = true := by
  rcases hd : ns.data with _ | ⟨c, t⟩
  · rw [isValidCssIdentifier, hd] at h
    cases h
  · have hdata : (ns ++ "-" ++ natDecimal v).data =
        c :: (t ++ '-' :: natDigitsGo v v) := by
      rw [String.data_append, String.data_append, hd]
      simp [natDecimal]
    rw [isValidCssIdentifier, hd] at h
    rw [isValidCssIdentifier, hdata]
    simp only [Bool.and_eq_true] at h ⊢
    refine ⟨h.1, ?_⟩
    rw [List.all_append, Bool.and_eq_true]
    refine ⟨h.2, ?_⟩
    simp only [List.all_cons, Bool.and_eq_true]
    refine ⟨by decide, ?_⟩
    rw [List.all_eq_true]
    intro c' hc'
    exact natDigitsGoTail v v c' hc'

/-- `mset` then `mget` at the same key. -/
theorem mgetMsetSelf {α β : Type} [DecidableEq α] (m : List (α × β))
    (k : α) (v : β) : mget (mset m k v) k = some v := by
  induction m with
  | nil => simp [mset, mget]
  | cons e t ih =>
    by_cases h : e.1 = k
    · simp [mset, mget, h]
    · simp [mset, mget, h, ih]

/-- `mset` then `mget` at a different key. -/
theorem mgetMsetNe {α β : Type} [DecidableEq α] (m : List (α × β))
    (k k' : α) (v : β) (h : k ≠ k') :
    mget (mset m k v) k' = mget m k' := by
  induction m with
  | nil => simp [mset, mget, h]
  | cons e t ih =>
    by_cases he : e.1 = k
    · simp [mset, mget, he, h]
    · simp only [mset, he, if_false, mget]
      by_cases he' : e.1 = k'
      · simp [he']
      · simp [he', ih]

/-- `mset` never removes a key. -/
theorem mgetMsetIsSome {α β : Type} [DecidableEq α] (m : List (α × β))
    (k k' : α) (v : β) (h : (mget m k').isSome = true) :
    (mget (mset m k v) k').isSome = true := by
  by_cases he : k = k'
  · subst he
    rw [mgetMsetSelf]
    rfl
  · rw [mgetMsetNe m k k' v he]
    exact h

/-- One resolver call preserves density and the counter-key invariant
and never decreases a version counter. -/
theorem resolverStepInv (st : RState) (v : String) (h : Option String)
    (hd : denseProp st) (hk : versKeyProp st) :
    denseProp (processClassValue st v h).2.2 ∧
    versKeyProp (processClassValue st v h).2.2 ∧
    (∀ ns n, mget st.namespaceVersions ns = some n →
      ∃ n', mget (processClassValue st v h).2.2.namespaceVersions ns = some n' ∧
        n ≤ n') := by
  have keep : ∀ st' : RState, st' = st →
      denseProp st' ∧ versKeyProp st' ∧
      (∀ ns n, mget st.namespaceVersions ns = some n →
        ∃ n', mget st'.namespaceVersions ns = some n' ∧ n ≤ n') := by
    rintro st' rfl
    exact ⟨hd, hk, fun ns n hh => ⟨n, hh, le_refl n⟩⟩
  cases h with
  | none => exact keep _ rfl
  | some ns =>
    rcases hv : isValidCssIdentifier ns with _ | _
    · have : (processClassValue st v (some ns)).2.2 = st := by
        simp [processClassValue, hv]
      exact keep _ this
    · rcases hb : mget st.namespaceToClasses ns with _ | base
      · have hres : (processClassValue st v (some ns)).2.2 =
            ⟨mset st.namespaceVersions ns 0,
             mset st.namespaceToClasses ns [normalizeClassString v]⟩ := by
          simp [processClassValue, hv, hb]
        rw [hres]
        refine ⟨?_, ?_, ?_⟩
        · intro ns' h' hv' w hw1 hw2
          by_cases he : ns = ns'
          · subst he
            rw [mgetMsetSelf] at hv'
            cases hv'
            omega
          · rw [mgetMsetNe _ _ _ _ he] at hv'
            exact mgetMsetIsSome _ _ _ _ (hd ns' h' hv' w hw1 hw2)
        · intro ns' h' hv'
          by_cases he : ns = ns'
          · subst he
            rw [mgetMsetSelf]
            rfl
          · rw [mgetMsetNe _ _ _ _ he] at hv'
            rw [mgetMsetNe _ _ _ _ he]
            exact hk ns' h' hv'
        · intro ns' n hn
          by_cases he : ns = ns'
          · subst he
            have hsome := hk ns n hn
            rw [hb] at hsome
            cases hsome
          · rw [mgetMsetNe _ _ _ _ he]
            exact ⟨n, hn, le_refl n⟩
      · by_cases hm : normalizeClassString v ∈ base
        · have : (processClassValue st v (some ns)).2.2 = st := by
            simp [processClassValue, hv, hb, hm]
          exact keep _ this
        · rcases hf : (List.range' 1
              ((mget st.namespaceVersions ns).getD 0)).find?
              (fun version => decide (normalizeClassString v ∈
                (mget st.namespaceToClasses
                  (ns ++ "-" ++ natDecimal version)).getD [])) with _ | mv
          · have hres : (processClassValue st v (some ns)).2.2 =
                ⟨mset st.namespaceVersions ns
                   ((mget st.namespaceVersions ns).getD 0 + 1),
                 mset st.namespaceToClasses
                   (ns ++ "-" ++ natDecimal
                     ((mget st.namespaceVersions ns).getD 0 + 1))
                   [normalizeClassString v]⟩ := by
              simp [processClassValue, hv, hb, hm, hf]
            rw [hres]
            refine ⟨?_, ?_, ?_⟩
            · intro ns' h' hv' w hw1 hw2
              by_cases he : ns = ns'
              · subst he
                rw [mgetMsetSelf] at hv'
                cases hv'
                by_cases hw : w = (mget st.namespaceVersions ns).getD 0 + 1
                · subst hw
                  rw [mgetMsetSelf]
                  rfl
                · have hwle : w ≤ (mget st.namespaceVersions ns).getD 0 := by
                    omega
                  rcases hg : mget st.namespaceVersions ns with _ | n0
                  · rw [hg] at hwle
                    simp at hwle
                    omega
                  · rw [hg] at hwle
                    exact mgetMsetIsSome _ _ _ _ (hd ns n0 hg w hw1 hwle)
              · rw [mgetMsetNe _ _ _ _ he] at hv'
                exact mgetMsetIsSome _ _ _ _ (hd ns' h' hv' w hw1 hw2)
            · intro ns' h' hv'
              by_cases he : ns = ns'
              · subst he
                apply mgetMsetIsSome
                rw [hb]
                rfl
              · rw [mgetMsetNe _ _ _ _ he] at hv'
                exact mgetMsetIsSome _ _ _ _ (hk ns' h' hv')
            · intro ns' n hn
              by_cases he : ns = ns'
              · subst he
                refine ⟨(mget st.namespaceVersions ns).getD 0 + 1,
                  mgetMsetSelf _ _ _, ?_⟩
                rw [hn]
                simp
              · rw [mgetMsetNe _ _ _ _ he]
                exact ⟨n, hn, le_refl n⟩
          · have : (processClassValue st v (some ns)).2.2 = st := by
              simp [processClassValue, hv, hb, hm, hf]
            exact keep _ this

/-- Resolver-reachable states are dense and carry the counter-key
invariant. -/
theorem reachResolverInv (st : RState) (hr : ReachResolver st) :
    denseProp st ∧ versKeyProp st := by
  induction hr with
  | init =>
    constructor
    · intro ns h hv
      cases hv
    · intro ns h hv
      cases hv
  | step st v h _ ih =>
    exact ⟨(resolverStepInv st v h ih.1 ih.2).1,
           (resolverStepInv st v h ih.1 ih.2).2.1⟩

/-- Members of `mset m k v` are members of `m` or the new entry. -/
theorem memMset {α β : Type} [DecidableEq α] :
    ∀ (m : List (α × β)) (k : α) (v : β) (p : α × β),
      p ∈ mset m k v → p ∈ m ∨ p = (k, v) := by
  intro m k v p hp
  induction m with
  | nil =>
    simp only [mset, List.mem_singleton] at hp
    exact Or.inr hp
  | cons e t ih =>
    by_cases he : e.1 = k
    · rw [mset, if_pos he] at hp
      rcases List.mem_cons.mp hp with h | h
      · exact Or.inr h
      · exact Or.inl (List.mem_cons_of_mem e h)
    · rw [mset, if_neg he] at hp
      rcases List.mem_cons.mp hp with h | h
      · exact Or.inl (h ▸ List.mem_cons_self e t)
      · rcases ih h with h' | h'
        · exact Or.inl (List.mem_cons_of_mem e h')
        · exact Or.inr h'

/-- A successful `mget` exhibits a member. -/
theorem mgetMem {α β : Type} [DecidableEq α] :
    ∀ (m : List (α × β)) (k : α) (v : β), mget m k = some v → (k, v) ∈ m := by
  intro m k v hm
  induction m with
  | nil => cases hm
  | cons e t ih =>
    rw [mget] at hm
    by_cases he : e.1 = k
    · rw [if_pos he] at hm
      cases hm
      have hek : (k, e.2) = e := by rw [← he]
      rw [hek]
      exact List.mem_cons_self e t
    · rw [if_neg he] at hm
      exact List.mem_cons_of_mem e (ih hm)

/-- Members of `sadd s y` are members of `s` or equal to `y`. -/
theorem memSadd {α : Type} [DecidableEq α] (s : List α) (x y : α)
    (hx : x ∈ sadd s y) : x ∈ s ∨ x = y := by
  rw [sadd] at hx
  by_cases hy : y ∈ s
  · rw [if_pos hy] at hx
    exact Or.inl hx
  · rw [if_neg hy] at hx
    rcases List.mem_append.mp hx with h | h
    · exact Or.inl h
    · exact Or.inr (List.mem_singleton.mp h)

/-- `sadd` never yields the empty list. -/
theorem saddNeNil {α : Type} [DecidableEq α] (s : List α) (y : α) :
    sadd s y ≠ [] := by
  rw [sadd]
  by_cases hy : y ∈ s
  · rw [if_pos hy]
    exact List.ne_nil_of_mem hy
  · rw [if_neg hy]
    simp

/-- One first-pass classification step preserves backedness. -/
theorem cleanupClassifyInv (fms : List (String × FileMapping))
    (cm : ClassMapping) (hcm : liveMapping fms cm) (acc : CleanAcc)
    (ha : accBacked fms acc) : accBacked fms (cleanupClassify acc cm) := by
  rcases hns : cm.nsHint with _ | ns
  · rw [cleanupClassify, hns]
    exact ha
  · rw [cleanupClassify, hns]
    rcases hv : isValidCssIdentifier ns with _ | _
    · simpa [hv] using ha
    · simp only [hv, Bool.not_true, Bool.false_eq_true, if_false]
      rcases hm : matchVersionSuffix ns cm.generatedClassName with _ | ver
      · refine ⟨?_, ha.2⟩
        intro p hp
        rcases memMset _ _ _ _ hp with h | h
        · exact ha.1 p h
        · subst h
          refine ⟨saddNeNil _ _, ?_⟩
          intro nc hnc
          rcases memSadd _ _ _ hnc with h' | h'
          · rcases hg : mget acc.1 ns with _ | s0
            · rw [hg] at h'
              cases h'
            · rw [hg] at h'
              exact (ha.1 (ns, s0) (mgetMem _ _ _ hg)).2 nc h'
          · exact ⟨cm, hcm, hns, hv, hm, h' ▸ rfl⟩
      · refine ⟨ha.1, ?_⟩
        intro p hp q hq
        rcases memMset _ _ _ _ hp with h | h
        · exact ha.2 p h q hq
        · subst h
          rcases memMset _ _ _ _ hq with h' | h'
          · rcases hg : mget acc.2 ns with _ | vm
            · rw [hg] at h'
              cases h'
            · rw [hg] at h'
              exact ha.2 (ns, vm) (mgetMem _ _ _ hg) q h'
          · subst h'
            refine ⟨saddNeNil _ _, ?_⟩
            intro nc hnc
            rcases memSadd _ _ _ hnc with h' | h'
            · rcases hg : mget acc.2 ns with _ | vm
              · rw [hg] at h'
                simp [mget] at h' 
              · rw [hg] at h'
                simp only [Option.getD_some] at h'
                rcases hg2 : mget vm ver with _ | vs
                · rw [hg2] at h'
                  simp at h'
                · rw [hg2] at h'
                  simp only [Option.getD_some] at h'
                  exact (ha.2 (ns, vm) (mgetMem _ _ _ hg) (ver, vs)
                    (mgetMem _ _ _ hg2)).2 nc h'
            · exact ⟨cm, hcm, hns, hv, hm, h' ▸ rfl⟩

/-- The first pass over a list of mappings preserves backedness. -/
theorem cleanupClassifyFold (fms : List (String × FileMapping)) :
    ∀ (ms : List ClassMapping) (acc : CleanAcc),
      (∀ cm ∈ ms, liveMapping fms cm) → accBacked fms acc →
      accBacked fms (ms.foldl cleanupClassify acc) := by
  intro ms
  induction ms with
  | nil => intro acc _ ha; exact ha
  | cons cm t ih =>
    intro acc hl ha
    exact ih _ (fun x hx => hl x (List.mem_cons_of_mem cm hx))
      (cleanupClassifyInv fms cm (hl cm (List.mem_cons_self cm t)) acc ha)

/-- The first pass over the live files preserves backedness. -/
theorem cleanupCollectFold (fms : List (String × FileMapping)) :
    ∀ (l : List (String × FileMapping)) (acc : CleanAcc),
      (∀ e ∈ l, e ∈ fms) → accBacked fms acc →
      accBacked fms (l.foldl cleanupCollect acc) := by
  intro l
  induction l with
  | nil => intro acc _ ha; exact ha
  | cons e t ih =>
    intro acc hl ha
    refine ih _ (fun x hx => hl x (List.mem_cons_of_mem e hx)) ?_
    rw [cleanupCollect]
    exact cleanupClassifyFold fms e.2.mappings acc
      (fun cm hcm => ⟨e, hl e (List.mem_cons_self e t), hcm⟩) ha

/-- Adding one namespace's versioned entries preserves backedness of the
rebuilt tables. -/
theorem cleanupAddVersionedFold (fms : List (String × FileMapping))
    (ns : String) :
    ∀ (vm : List (Nat × List String)) (st : RState),
      (∀ q ∈ vm, q.2 ≠ [] ∧ ∀ nc ∈ q.2, backsVer fms ns q.1 nc) →
      stBacked fms st → stBacked fms (vm.foldl (cleanupAddVersioned ns) st) := by
  intro vm
  induction vm with
  | nil => intro st _ hs; exact hs
  | cons q t ih =>
    intro st hq hs
    refine ih _ (fun x hx => hq x (List.mem_cons_of_mem q hx)) ?_
    refine ⟨?_, hs.2⟩
    intro p hp
    rcases memMset _ _ _ _ hp with h | h
    · exact hs.1 p h
    · subst h
      exact Or.inr ⟨ns, q.1, rfl, (hq q (List.mem_cons_self q t)).2⟩

/-- One rebuild step preserves backedness of the rebuilt tables. -/
theorem cleanupRebuildStepInv (fms : List (String × FileMapping))
    (allVer : List (String × List (Nat × List String)))
    (hver : ∀ p ∈ allVer, ∀ q ∈ p.2, q.2 ≠ [] ∧
      ∀ nc ∈ q.2, backsVer fms p.1 q.1 nc)
    (entry : String × List String)
    (hent : entry.2 ≠ [] ∧ ∀ nc ∈ entry.2, backsBase fms entry.1 nc)
    (st : RState) (hs : stBacked fms st) :
    stBacked fms (cleanupRebuildStep allVer st entry) := by
  rw [cleanupRebuildStep]
  have hst1 : stBacked fms
      ⟨mset st.namespaceVersions entry.1
        (match mget allVer entry.1 with
         | some vm => (vm.map (fun ve => ve.1)).foldl max 0
         | none => 0),
       mset st.namespaceToClasses entry.1 entry.2⟩ := by
    constructor
    · intro p hp
      rcases memMset _ _ _ _ hp with h | h
      · exact hs.1 p h
      · subst h
        exact Or.inl hent.2
    · intro p hp
      rcases memMset _ _ _ _ hp with h | h
      · exact hs.2 p h
      · subst h
        rcases hl : entry.2 with _ | ⟨nc, rest⟩
        · exact absurd hl hent.1
        · exact ⟨nc, hent.2 nc (hl ▸ List.mem_cons_self nc rest)⟩
  rcases hg : mget allVer entry.1 with _ | vm
  · simpa [hg] using hst1
  · simp only [hg]
    refine cleanupAddVersionedFold fms entry.1 vm _ ?_ ?_
    · exact hver (entry.1, vm) (mgetMem _ _ _ hg)
    · simpa [hg] using hst1

/-- The whole rebuild fold yields backed tables. -/
theorem cleanupRebuildFold (fms : List (String × FileMapping))
    (allVer : List (String × List (Nat × List String)))
    (hver : ∀ p ∈ allVer, ∀ q ∈ p.2, q.2 ≠ [] ∧
      ∀ nc ∈ q.2, backsVer fms p.1 q.1 nc) :
    ∀ (l : List (String × List String)) (st : RState),
      (∀ e ∈ l, e.2 ≠ [] ∧ ∀ nc ∈ e.2, backsBase fms e.1 nc) →
      stBacked fms st →
      stBacked fms (l.foldl (cleanupRebuildStep allVer) st) := by
  intro l
  induction l with
  | nil => intro st _ hs; exact hs
  | cons e t ih =>
    intro st hl hs
    exact ih _ (fun x hx => hl x (List.mem_cons_of_mem e hx))
      (cleanupRebuildStepInv fms allVer hver e
        (hl e (List.mem_cons_self e t)) st hs)

/-- Fold fusion for the replacement loops of `processFile`: running one
loop over the match list equals filtering out skipped matches, resolving
the remainder in order, and splicing the resulting edits in one final
pass (the explicit (range, replacement)-edit formulation of §9). -/
theorem passFoldSpec (skip : List Char → Bool) (code : List Char)
    (namespaces : List (Nat × String)) (id : String) :
    ∀ (occs : List (Nat × MParts)) (acc : PassAcc),
      (occs.foldl (passStep skip code namespaces id) acc).res ++
          code.drop
            (occs.foldl (passStep skip code namespaces id) acc).lastIndex =
        acc.res ++ applyEditsGo code acc.lastIndex
          (editsOf (occs.filter (fun m => !skip m.2.2.1))
            (resolveOccs acc.st namespaces id
              (occs.filter (fun m => !skip m.2.2.1))).1) ∧
      (occs.foldl (passStep skip code namespaces id) acc).mappings =
        acc.mappings ++ (resolveOccs acc.st namespaces id
          (occs.filter (fun m => !skip m.2.2.1))).1 ∧
      (occs.foldl (passStep skip code namespaces id) acc).st =
        (resolveOccs acc.st namespaces id
          (occs.filter (fun m => !skip m.2.2.1))).2 ∧
      (occs.foldl (passStep skip code namespaces id) acc).changed =
        (acc.changed || !(occs.filter (fun m => !skip m.2.2.1)).isEmpty) := by
  intro occs
  induction occs with
  | nil =>
    intro acc
    simp [resolveOccs, editsOf, applyEditsGo]
  | cons m t ih =>
    intro acc
    rw [List.foldl_cons]
    by_cases hs : skip m.2.2.1
    · have hstep : passStep skip code namespaces id acc m = acc := by
        simp [passStep, hs]
      have hfil : (m :: t).filter (fun m => !skip m.2.2.1) =
          t.filter (fun m => !skip m.2.2.1) := by
        simp [List.filter_cons, hs]
      rw [hstep, hfil]
      exact ih acc
    · have hstep : passStep skip code namespaces id acc m =
          ⟨m.1 + mpartsLen m.2,
           acc.res ++ listSub code acc.lastIndex m.1 ++ m.2.1 ++
             (processClassValue acc.st (String.mk m.2.2.1)
               (findNamespaceForPosition namespaces m.1)).2.1.data ++
             m.2.2.2,
           acc.mappings ++
             [⟨String.mk m.2.2.1,
               (processClassValue acc.st (String.mk m.2.2.1)
                 (findNamespaceForPosition namespaces m.1)).1,
               (processClassValue acc.st (String.mk m.2.2.1)
                 (findNamespaceForPosition namespaces m.1)).2.1,
               findNamespaceForPosition namespaces m.1, id⟩],
           true,
           (processClassValue acc.st (String.mk m.2.2.1)
             (findNamespaceForPosition namespaces m.1)).2.2⟩ := by
        simp [passStep, hs]
      have hfil : (m :: t).filter (fun m => !skip m.2.2.1) =
          m :: t.filter (fun m => !skip m.2.2.1) := by
        simp [List.filter_cons, hs]
      rw [hstep, hfil]
      have hres : resolveOccs acc.st namespaces id
          (m :: t.filter (fun m => !skip m.2.2.1)) =
          (⟨String.mk m.2.2.1,
            (processClassValue acc.st (String.mk m.2.2.1)
              (findNamespaceForPosition namespaces m.1)).1,
            (processClassValue acc.st (String.mk m.2.2.1)
              (findNamespaceForPosition namespaces m.1)).2.1,
            findNamespaceForPosition namespaces m.1, id⟩ ::
            (resolveOccs (processClassValue acc.st (String.mk m.2.2.1)
                (findNamespaceForPosition namespaces m.1)).2.2 namespaces id
              (t.filter (fun m => !skip m.2.2.1))).1,
           (resolveOccs (processClassValue acc.st (String.mk m.2.2.1)
               (findNamespaceForPosition namespaces m.1)).2.2 namespaces id
             (t.filter (fun m => !skip m.2.2.1))).2) := by
        rw [resolveOccs]
      rw [hres]
      rcases ih ⟨m.1 + mpartsLen m.2,
        acc.res ++ listSub code acc.lastIndex m.1 ++ m.2.1 ++
          (processClassValue acc.st (String.mk m.2.2.1)
            (findNamespaceForPosition namespaces m.1)).2.1.data ++ m.2.2.2,
        acc.mappings ++
          [⟨String.mk m.2.2.1,
            (processClassValue acc.st (String.mk m.2.2.1)
              (findNamespaceForPosition namespaces m.1)).1,
            (processClassValue acc.st (String.mk m.2.2.1)
              (findNamespaceForPosition namespaces m.1)).2.1,
            findNamespaceForPosition namespaces m.1, id⟩],
        true,
        (processClassValue acc.st (String.mk m.2.2.1)
          (findNamespaceForPosition namespaces m.1)).2.2⟩ with
        ⟨ih1, ih2, ih3, ih4⟩
      refine ⟨?_, ?_, ?_, ?_⟩
      · rw [ih1]
        simp only [editsOf, applyEditsGo]
        simp [List.append_assoc]
      · rw [ih2]
        simp [List.append_assoc]
      · rw [ih3]
      · rw [ih4]
        simp

/-- The scanner equals its spec-shaped reformulation: filtered occurrence
lists, an ordered resolution fold, and single-pass edit splicing. -/
theorem processFileSpecEq (st : RState) (code : String) (id : String) :
    processFile st code id = processFileSpecShape st code id := by
  obtain ⟨h1res, h1maps, h1st, h1ch⟩ := passFoldSpec skipPlain code.data
    (sortByIdx ((scanAll matchNamespaceAt (fun p => p.1) code.data).map
      (fun m => (m.1, m.2.2)))) id
    (scanAll matchClassAttrAt mpartsLen code.data) ⟨0, [], [], false, st⟩
  rw [Bool.false_or] at h1ch
  rcases hE : ((scanAll matchClassAttrAt mpartsLen code.data).filter
      (fun m => !skipPlain m.2.2.1)).isEmpty with _ | _
  · -- at least one plain occurrence was rewritten
    rw [hE] at h1ch
    simp only [Bool.not_false] at h1ch
    obtain ⟨h2res, h2maps, h2st, _⟩ := passFoldSpec skipJsx
      ((List.foldl (passStep skipPlain code.data
          (sortByIdx ((scanAll matchNamespaceAt (fun p => p.1) code.data).map
            (fun m => (m.1, m.2.2)))) id)
          ⟨0, [], [], false, st⟩
          (scanAll matchClassAttrAt mpartsLen code.data)).res ++
        code.data.drop
          (List.foldl (passStep skipPlain code.data
            (sortByIdx ((scanAll matchNamespaceAt (fun p => p.1) code.data).map
              (fun m => (m.1, m.2.2)))) id)
            ⟨0, [], [], false, st⟩
            (scanAll matchClassAttrAt mpartsLen code.data)).lastIndex)
      (sortByIdx ((scanAll matchNamespaceAt (fun p => p.1) code.data).map
        (fun m => (m.1, m.2.2)))) id
      (scanAll matchJsxAt mpartsLen
        ((List.foldl (passStep skipPlain code.data
            (sortByIdx ((scanAll matchNamespaceAt (fun p => p.1) code.data).map
              (fun m => (m.1, m.2.2)))) id)
            ⟨0, [], [], false, st⟩
            (scanAll matchClassAttrAt mpartsLen code.data)).res ++
          code.data.drop
            (List.foldl (passStep skipPlain code.data
              (sortByIdx ((scanAll matchNamespaceAt (fun p => p.1)
                code.data).map (fun m => (m.1, m.2.2)))) id)
              ⟨0, [], [], false, st⟩
              (scanAll matchClassAttrAt mpartsLen code.data)).lastIndex))
      ⟨0, [],
       (List.foldl (passStep skipPlain code.data
         (sortByIdx ((scanAll matchNamespaceAt (fun p => p.1) code.data).map
           (fun m => (m.1, m.2.2)))) id)
         ⟨0, [], [], false, st⟩
         (scanAll matchClassAttrAt mpartsLen code.data)).mappings,
       true,
       (List.foldl (passStep skipPlain code.data
         (sortByIdx ((scanAll matchNamespaceAt (fun p => p.1) code.data).map
           (fun m => (m.1, m.2.2)))) id)
         ⟨0, [], [], false, st⟩
         (scanAll matchClassAttrAt mpartsLen code.data)).st⟩
    simp only [processFile, processFileSpecShape, plainOccs, jsxOccs,
      applyEdits]
    rw [h1ch, hE]
    simp only [eq_self_iff_true, if_true, Bool.false_eq_true, if_false]
    rw [h2res, h2maps, h2st, h1res, h1maps, h1st]
    simp only [List.nil_append]
  · -- no plain occurrence: nothing is rewritten
    rw [hE] at h1ch
    simp only [Bool.not_true] at h1ch
    have hnil : (scanAll matchClassAttrAt mpartsLen code.data).filter
        (fun m => !skipPlain m.2.2.1) = [] := by
      simpa using hE
    rw [hnil] at h1res h1maps h1st
    simp only [resolveOccs, editsOf, applyEditsGo, List.drop_zero,
      List.append_nil] at h1res h1maps h1st
    simp only [processFile, processFileSpecShape, plainOccs, jsxOccs,
      applyEdits]
    rw [h1ch, hE]
    simp only [eq_self_iff_true, if_true, Bool.false_eq_true, if_false]
    rw [h1res, h1maps, h1st]
    simp only [List.nil_append]

/-- `changed` is true exactly when the plain-class occurrence list,
filtered by the non-empty brace-free condition, is non-empty. -/
theorem processFileChanged (st : RState) (code : String) (id : String) :
    (processFile st code id).2.1 = !(plainOccs code.data).isEmpty := by
  rw [processFileSpecEq]
  show (let codeL := code.data
    let namespaces := sortByIdx
      ((scanAll matchNamespaceAt (fun p => p.1) codeL).map
        (fun m => (m.1, m.2.2)))
    let occs1 := plainOccs codeL
    let r1 := resolveOccs st namespaces id occs1
    if occs1.isEmpty then (String.mk codeL, false, [], st)
    else
      let code1 := applyEdits codeL (editsOf occs1 r1.1)
      let occs2 := jsxOccs code1
      let r2 := resolveOccs r1.2 namespaces id occs2
      let code2 := applyEdits code1 (editsOf occs2 r2.1)
      (String.mk (stripAll code2), true, r1.1 ++ r2.1, r2.2)).2.1 = _
  rcases hE : (plainOccs code.data).isEmpty with _ | _
  · simp only [hE, Bool.false_eq_true, if_false, Bool.not_false]
  · simp only [hE, if_true, Bool.not_true]

/-! Supporting lemmas for the stylesheet-equivalence claim. -/

/-- Tokens produced by the whitespace split contain no whitespace. -/
theorem jsSplitWsGoNoWs :
    ∀ (fuel : Nat) (l acc : List Char),
      (∀ ch ∈ acc, jsSpace ch = false) →
      ∀ t ∈ jsSplitWsGo fuel l acc, ∀ ch ∈ t.data, jsSpace ch = false := by
  intro fuel
  induction fuel with
  | zero =>
    intro l acc hacc t ht ch hch
    simp only [jsSplitWsGo, List.mem_singleton] at ht
    subst ht
    exact hacc ch (List.mem_reverse.mp hch)
  | succ f ih =>
    intro l acc hacc t ht ch hch
    cases l with
    | nil =>
      simp only [jsSplitWsGo, List.mem_singleton] at ht
      subst ht
      exact hacc ch (List.mem_reverse.mp hch)
    | cons c l' =>
      rw [jsSplitWsGo] at ht
      rcases hsp : jsSpace c with _ | _
      · rw [if_neg (by simp [hsp])] at ht
        exact ih l' (c :: acc)
          (fun x hx => by
            rcases List.mem_cons.mp hx with h | h
            · exact h ▸ hsp
            · exact hacc x h) t ht ch hch
      · rw [if_pos (by simp [hsp])] at ht
        rcases List.mem_cons.mp ht with h | h
        · subst h
          exact hacc ch (List.mem_reverse.mp hch)
        · exact ih _ [] (by intro x hx; cases hx) t h ch hch

/-- Utility tokens contain no whitespace characters. -/
theorem tokensNoWs (s : String) :
    ∀ u ∈ tokensOf s, ∀ ch ∈ u.data, jsSpace ch = false := by
  intro u hu ch hch
  have hmem : u ∈ jsSplitWs s := List.mem_of_mem_filter hu
  exact jsSplitWsGoNoWs s.data.length s.data [] (by intro x hx; cases hx)
    u hmem ch hch

/-- Identifier-head characters are identifier-tail characters. -/
theorem identHeadTail (ch : Char) (h : identHead ch = true) :
    identTail ch = true := by
  simp [identTail, h]

/-- Every character of a valid CSS identifier is in the tail class. -/
theorem validIdentChars (c : String) (h : isValidCssIdentifier c = true) :
    ∀ ch ∈ c.data, identTail ch = true := by
  intro ch hch
  rcases hd : c.data with _ | ⟨a, t⟩
  · rw [isValidCssIdentifier, hd] at h
    cases h
  · rw [isValidCssIdentifier, hd] at h
    rw [hd] at hch
    rw [Bool.and_eq_true] at h
    rcases h with ⟨h1, h2⟩
    rcases List.mem_cons.mp hch with h' | h'
    · exact h' ▸ identHeadTail a h1
    · exact List.all_eq_true.mp h2 ch h'

/-- A valid CSS identifier is non-empty. -/
theorem validIdentNeNil (c : String) (h : isValidCssIdentifier c = true) :
    c.data ≠ [] := by
  intro hd
  rw [isValidCssIdentifier, hd] at h
  cases h

/-- `strLtChars` is irreflexive. -/
theorem strLtIrrefl : ∀ l : List Char, strLtChars l l = false := by
  intro l
  induction l with
  | nil => rfl
  | cons a t ih => simp [strLtChars, ih]

/-- `strLtChars` is asymmetric. -/
theorem strLtAsymm : ∀ a b : List Char,
    strLtChars a b = true → strLtChars b a = false := by
  intro a
  induction a with
  | nil =>
    intro b h
    cases b with
    | nil => cases h
    | cons c t => rfl
  | cons x xs ih =>
    intro b h
    cases b with
    | nil => cases h
    | cons y ys =>
      rw [strLtChars] at h ⊢
      by_cases h1 : x.toNat < y.toNat
      · rw [if_neg (by omega), if_pos h1]
      · rw [if_neg h1] at h
        by_cases h2 : y.toNat < x.toNat
        · rw [if_pos h2] at h
          cases h
        · rw [if_neg h2] at h
          rw [if_neg h2, if_neg h1]
          exact ih ys h

/-- Two lists neither of which is below the other are equal. -/
theorem strLtConnex : ∀ a b : List Char,
    strLtChars a b = false → strLtChars b a = false → a = b := by
  intro a
  induction a with
  | nil =>
    intro b h1 _
    cases b with
    | nil => rfl
    | cons c t => cases h1
  | cons x xs ih =>
    intro b h1 h2
    cases b with
    | nil => cases h2
    | cons y ys =>
      rw [strLtChars] at h1 h2
      by_cases hxy : x.toNat < y.toNat
      · rw [if_pos hxy] at h1
        cases h1
      · by_cases hyx : y.toNat < x.toNat
        · rw [if_pos hyx] at h2
          cases h2
        · rw [if_neg hxy, if_neg hyx] at h1
          rw [if_neg hyx, if_neg hxy] at h2
          have hx : x = y := by
            have hn : x.toNat = y.toNat := by omega
            rw [← Char.ofNat_toNat x, hn, Char.ofNat_toNat]
          rw [hx, ih ys h1 h2]

/-- `strLtChars` is transitive. -/
theorem strLtTrans : ∀ a b c : List Char,
    strLtChars a b = true → strLtChars b c = true →
    strLtChars a c = true := by
  intro a
  induction a with
  | nil =>
    intro b c h1 h2
    cases b with
    | nil => cases h1
    | cons y ys =>
      cases c with
      | nil => cases h2
      | cons z zs => rfl
  | cons x xs ih =>
    intro b c h1 h2
    cases b with
    | nil => cases h1
    | cons y ys =>
      cases c with
      | nil => cases h2
      | cons z zs =>
        rw [strLtChars] at h1 h2 ⊢
        by_cases hxy : x.toNat < y.toNat
        · by_cases hyz : y.toNat < z.toNat
          · rw [if_pos (by omega)]
          · rw [if_neg hyz] at h2
            by_cases hzy : z.toNat < y.toNat
            · rw [if_pos hzy] at h2
              cases h2
            · have : y.toNat = z.toNat := by omega
              rw [if_pos (by omega)]
        · rw [if_neg hxy] at h1
          by_cases hyx : y.toNat < x.toNat
          · rw [if_pos hyx] at h1
            cases h1
          · rw [if_neg hyx] at h1
            by_cases hyz : y.toNat < z.toNat
            · rw [if_pos (by omega)]
            · rw [if_neg hyz] at h2
              by_cases hzy : z.toNat < y.toNat
              · rw [if_pos hzy] at h2
                cases h2
              · rw [if_neg hzy] at h2
                rw [if_neg (by omega), if_neg (by omega)]
                exact ih ys zs h1 h2

/-- Totality of `strLeB`. -/
theorem strLeTotal (a b : String) :
    strLeB a b = true ∨ strLeB b a = true := by
  rw [strLeB, strLeB]
  rcases h : strLtChars b.data a.data with _ | _
  · left; rfl
  · right
    rw [strLtAsymm b.data a.data h]
    rfl

/-- Antisymmetry of `strLeB`. -/
theorem strLeAntisymm (a b : String) (h1 : strLeB a b = true)
    (h2 : strLeB b a = true) : a = b := by
  rw [strLeB, Bool.not_eq_true'] at h1 h2
  cases a with
  | mk da =>
    cases b with
    | mk db =>
      simp only at h1 h2
      rw [strLtConnex da db h2 h1]

/-- Transitivity of `strLeB`. -/
theorem strLeTrans (a b c : String) (h1 : strLeB a b = true)
    (h2 : strLeB b c = true) : strLeB a c = true := by
  rw [strLeB, Bool.not_eq_true'] at h1 h2 ⊢
  rcases h : strLtChars c.data a.data with _ | _
  · rfl
  · exfalso
    by_cases hab : strLtChars a.data b.data = true
    · have hcb : strLtChars c.data b.data = true :=
        strLtTrans c.data a.data b.data h hab
      rw [h2] at hcb
      cases hcb
    · have hab' : strLtChars a.data b.data = false := by simpa using hab
      have heq : a.data = b.data := strLtConnex a.data b.data hab' h1
      rw [heq] at h
      rw [h2] at h
      cases h

/-- `orderedInsertStr` permutes the inserted element in. -/
theorem orderedInsertPerm (x : String) :
    ∀ l : List String, List.Perm (orderedInsertStr x l) (x :: l) := by
  intro l
  induction l with
  | nil => rfl
  | cons y ys ih =>
    rw [orderedInsertStr]
    by_cases h : strLeB x y = true
    · rw [if_pos h]
    · rw [if_neg h]
      exact (ih.cons y).trans (List.Perm.swap x y ys)

/-- `jsSortStrings` is a permutation of its input. -/
theorem jsSortPerm : ∀ l : List String, List.Perm (jsSortStrings l) l := by
  intro l
  induction l with
  | nil => rfl
  | cons x xs ih =>
    rw [jsSortStrings]
    exact (orderedInsertPerm x (jsSortStrings xs)).trans (ih.cons x)

/-- `orderedInsertStr` preserves sortedness. -/
theorem orderedInsertSorted (x : String) :
    ∀ l : List String, List.Sorted (fun a b => strLeB a b = true) l →
      List.Sorted (fun a b => strLeB a b = true) (orderedInsertStr x l) := by
  intro l
  induction l with
  | nil =>
    intro _
    exact List.sorted_singleton x
  | cons y ys ih =>
    intro hs
    rw [orderedInsertStr]
    rcases List.sorted_cons.mp hs with ⟨hy, hys⟩
    by_cases h : strLeB x y = true
    · rw [if_pos h]
      refine List.sorted_cons.mpr ⟨?_, hs⟩
      intro b hb
      rcases List.mem_cons.mp hb with h' | h'
      · exact h' ▸ h
      · exact strLeTrans x y b h (hy b h')
    · rw [if_neg h]
      refine List.sorted_cons.mpr ⟨?_, ih hys⟩
      intro b hb
      have hb2 : b ∈ x :: ys := (orderedInsertPerm x ys).mem_iff.mp hb
      rcases List.mem_cons.mp hb2 with h' | h'
      · rw [h']
        rcases strLeTotal x y with h'' | h''
        · exact absurd h'' h
        · exact h''
      · exact hy b h'

/-- `jsSortStrings` sorts. -/
theorem jsSortSorted : ∀ l : List String,
    List.Sorted (fun a b => strLeB a b = true) (jsSortStrings l) := by
  intro l
  induction l with
  | nil => exact List.sorted_nil
  | cons x xs ih =>
    rw [jsSortStrings]
    exact orderedInsertSorted x (jsSortStrings xs) ih

/-- Duplicate-free lists with the same members sort identically (the
canonical group key of the optimizer). -/
theorem jsSortEqOfSetEq (l₁ l₂ : List String) (h1 : l₁.Nodup)
    (h2 : l₂.Nodup) (h : ∀ a, a ∈ l₁ ↔ a ∈ l₂) :
    jsSortStrings l₁ = jsSortStrings l₂ := by
  haveI : IsAntisymm String (fun a b => strLeB a b = true) :=
    ⟨strLeAntisymm⟩
  have hp : List.Perm l₁ l₂ := by
    rw [List.perm_ext_iff_of_nodup h1 h2]
    exact h
  exact List.eq_of_perm_of_sorted
    (((jsSortPerm l₁).trans hp).trans (jsSortPerm l₂).symm)
    (jsSortSorted l₁) (jsSortSorted l₂)

/-- Splitting at a separator-free chunk followed by the separator. -/
theorem splitCharGoAppend (sep : Char) :
    ∀ (c : List Char), sep ∉ c → ∀ rest acc,
      splitCharGo sep (c ++ sep :: rest) acc =
        String.mk (acc.reverse ++ c) :: splitCharGo sep rest [] := by
  intro c
  induction c with
  | nil =>
    intro _ rest acc
    simp [splitCharGo]
  | cons x xs ih =>
    intro hx rest acc
    have hxsep : x ≠ sep := fun h => hx (h ▸ List.mem_cons_self x xs)
    rw [List.cons_append, splitCharGo, if_neg hxsep,
      ih (fun h => hx (List.mem_cons_of_mem x h)) rest (x :: acc)]
    simp

/-- Splitting a separator-free chunk. -/
theorem splitCharGoLast (sep : Char) :
    ∀ (c : List Char), sep ∉ c → ∀ acc,
      splitCharGo sep c acc = [String.mk (acc.reverse ++ c)] := by
  intro c
  induction c with
  | nil =>
    intro _ acc
    simp [splitCharGo]
  | cons x xs ih =>
    intro hx acc
    have hxsep : x ≠ sep := fun h => hx (h ▸ List.mem_cons_self x xs)
    rw [splitCharGo, if_neg hxsep,
      ih (fun h => hx (List.mem_cons_of_mem x h)) (x :: acc)]
    simp

/-- `split(",")` inverts `join(",")` on comma-free names. -/
theorem splitCharJoin :
    ∀ names : List String, names ≠ [] →
      (∀ n ∈ names, ',' ∉ n.data) →
      splitChar ',' (joinSep "," names) = names := by
  intro names
  induction names with
  | nil => intro h; cases h rfl
  | cons x xs ih =>
    intro _ hspec
    cases xs with
    | nil =>
      rw [joinSep, splitChar, splitCharGoLast ','
        x.data (hspec x (List.mem_cons_self x [])) []]
      simp
    | cons y ys =>
      have hdata : (x ++ "," ++ joinSep "," (y :: ys)).data =
          x.data ++ ',' :: (joinSep "," (y :: ys)).data := by
        rw [String.data_append, String.data_append]
        have hc : ("," : String).data = [','] := rfl
        rw [hc, List.append_assoc]
        rfl
      rw [joinSep, splitChar, hdata, splitCharGoAppend ','
        x.data (hspec x (List.mem_cons_self x (y :: ys)))]
      rw [show splitCharGo ',' (joinSep "," (y :: ys)).data [] =
        splitChar ',' (joinSep "," (y :: ys)) from rfl]
      rw [ih (List.cons_ne_nil y ys)
        (fun n hn => hspec n (List.mem_cons_of_mem x hn))]
      simp
      exact List.cons_ne_nil y ys

/-- Strings with equal character lists are equal. -/
theorem strDataEq (a b : String) (h : a.data = b.data) : a = b :=
  congrArg String.mk h

/-- `splitSelGo` over a non-comma head accumulates it. -/
theorem splitSelGoCons (x : Char) (t acc : List Char) (hx : x ≠ ',') :
    splitSelGo (x :: t) acc = splitSelGo t (x :: acc) := by
  cases t with
  | nil => rfl
  | cons s t2 =>
    rw [splitSelGo, if_neg (fun hc => hx hc.1)]

/-- `splitSelGo` splits at `, `. -/
theorem splitSelGoComma (t2 acc : List Char) :
    splitSelGo (',' :: ' ' :: t2) acc = acc.reverse :: splitSelGo t2 [] := by
  rw [splitSelGo, if_pos ⟨rfl, rfl⟩]

/-- Selector-list split at a comma-free chunk followed by `, `. -/
theorem splitSelGoAppend :
    ∀ (c : List Char), ',' ∉ c → ∀ rest acc,
      splitSelGo (c ++ ',' :: ' ' :: rest) acc =
        (acc.reverse ++ c) :: splitSelGo rest [] := by
  intro c
  induction c with
  | nil =>
    intro _ rest acc
    rw [List.nil_append, splitSelGoComma]
    simp
  | cons x xs ih =>
    intro hx rest acc
    have hxc : x ≠ ',' := fun h => hx (h ▸ List.mem_cons_self x xs)
    rw [List.cons_append, splitSelGoCons x _ acc hxc,
      ih (fun h => hx (List.mem_cons_of_mem x h)) rest (x :: acc)]
    simp

/-- Selector-list split of a comma-free chunk. -/
theorem splitSelGoLast :
    ∀ (c : List Char), ',' ∉ c → ∀ acc,
      splitSelGo c acc = [acc.reverse ++ c] := by
  intro c
  induction c with
  | nil =>
    intro _ acc
    simp [splitSelGo]
  | cons x xs ih =>
    intro hx acc
    have hxc : x ≠ ',' := fun h => hx (h ▸ List.mem_cons_self x xs)
    rw [splitSelGoCons x xs acc hxc,
      ih (fun h => hx (List.mem_cons_of_mem x h)) (x :: acc)]
    simp

/-- `String.mk` of a string's data gives the string back. -/
theorem strMkData : ∀ s : String, String.mk s.data = s := by
  intro s
  cases s
  rfl

/-- `lineSplit` takes a newline-free chunk as its first line. -/
theorem lineSplitChunk : ∀ (l : List Char), '\n' ∉ l → ∀ rest,
    lineSplit (l ++ '\n' :: rest) = l :: lineSplit rest := by
  intro l
  induction l with
  | nil =>
    intro _ rest
    rw [List.nil_append, lineSplit, if_pos rfl]
  | cons c t ih =>
    intro hc rest
    have hcn : c ≠ '\n' := fun h => hc (h ▸ List.mem_cons_self c t)
    rw [List.cons_append, lineSplit, if_neg hcn,
      ih (fun h => hc (List.mem_cons_of_mem c h)) rest]

/-- Splitting the rendered selector list recovers the selectors. -/
theorem splitSelJoin : ∀ ss : List String, ss ≠ [] →
    (∀ x ∈ ss, ',' ∉ x.data) →
    splitSelGo (joinSep ", " ss).data [] = ss.map String.data := by
  intro ss
  induction ss with
  | nil => intro h; cases h rfl
  | cons x xs ih =>
    intro _ hc
    cases xs with
    | nil =>
      rw [joinSep, splitSelGoLast x.data (hc x (List.mem_cons_self x [])) []]
      simp
    | cons y ys =>
      have hd : (joinSep ", " (x :: y :: ys)).data =
          x.data ++ ',' :: ' ' :: (joinSep ", " (y :: ys)).data := by
        rw [joinSep]
        · have h2 : (", " : String).data = [',', ' '] := rfl
          simp [String.data_append, h2]
        · exact List.cons_ne_nil y ys
      rw [hd, splitSelGoAppend x.data (hc x (List.mem_cons_self x (y :: ys)))
        (joinSep ", " (y :: ys)).data [],
        ih (List.cons_ne_nil y ys)
          (fun z hz => hc z (List.mem_cons_of_mem x hz))]
      simp

/-- `dropLit` of a literal prefix succeeds with the remainder. -/
theorem dropLitPrefix : ∀ (p r : List Char), dropLit p (p ++ r) = some r := by
  intro p
  induction p with
  | nil => intro r; rfl
  | cons c t ih =>
    intro r
    rw [List.cons_append, dropLit, if_pos rfl, ih]

/-- Parsing an `  @apply` line recovers its utility. -/
theorem applyLinePartsRender (u : String) :
    applyLineParts (applyLineChars u) = some u.data := by
  have hd : applyLineChars u = "  @apply ".data ++ (u.data ++ [';']) := by
    have h1 : (";" : String).data = [';'] := rfl
    simp [applyLineChars, String.data_append, h1]
  rw [applyLineParts, hd, dropLitPrefix]
  simp

/-- A line whose last character is not a brace is not a rule opener. -/
theorem selLinePartsNotBrace (l : List Char) (b : Char) (X : List Char)
    (hb : b ≠ obrace) (hl : l.reverse = b :: X) : selLineParts l = none := by
  rw [selLineParts, hl]
  cases X with
  | nil => rfl
  | cons s rest => exact if_neg (fun h => hb h.1)

/-- An `  @apply` line is not a rule-opening line. -/
theorem selLinePartsApply (u : String) :
    selLineParts (applyLineChars u) = none := by
  apply selLinePartsNotBrace (applyLineChars u) ';'
    (u.data.reverse ++ "  @apply ".data.reverse) (by decide)
  have hd : applyLineChars u = "  @apply ".data ++ (u.data ++ [';']) := by
    have h1 : (";" : String).data = [';'] := rfl
    simp [applyLineChars, String.data_append, h1]
  rw [hd]
  simp

/-- Parsing a rendered selector line recovers the selector text. -/
theorem selLinePartsRender (sels : List String) :
    selLineParts (selLineChars sels ++ [' ', obrace]) =
      some (selLineChars sels) := by
  have hrev : (selLineChars sels ++ [' ', obrace]).reverse =
      obrace :: ' ' :: (selLineChars sels).reverse := by
    simp
  rw [selLineParts, hrev]
  show (if obrace = obrace ∧ ' ' = ' ' then
    some (selLineChars sels).reverse.reverse else none) =
    some (selLineChars sels)
  rw [if_pos ⟨rfl, rfl⟩]
  simp

/-- A line not starting with a space is not an `  @apply` line. -/
theorem applyLinePartsNotSpace (l : List Char) (c : Char) (t : List Char)
    (hl : l = c :: t) (hc : c ≠ ' ') : applyLineParts l = none := by
  have hpre : ("  @apply " : String).data = ' ' :: " @apply ".data := rfl
  rw [applyLineParts, hl, hpre, dropLit, if_neg hc]

/-- The rendered selector line of a nonempty selector list starts with a
dot. -/
theorem selLineCharsHead (x : String) (xs : List String) :
    ∃ t, selLineChars (x :: xs) = '.' :: t := by
  cases xs with
  | nil =>
    refine ⟨x.data, ?_⟩
    rw [selLineChars, List.map_cons, List.map_nil, joinSep]
    simp [String.data_append]
  | cons y ys =>
    refine ⟨x.data ++ [',', ' '] ++
      (joinSep ", " ((y :: ys).map (fun c => "." ++ c))).data, ?_⟩
    rw [selLineChars, List.map_cons, joinSep]
    · have h2 : (", " : String).data = [',', ' '] := rfl
      simp [String.data_append, h2]
    · exact List.cons_ne_nil _ _

/-- One step of the line parser, with the branching exposed. -/
theorem parsePairsStep (line : List Char) (rest : List (List Char))
    (cur : List String) :
    parsePairsLines (line :: rest) cur =
      match applyLineParts line with
      | some u => cur.map (fun c => (c, String.mk u)) ++
          parsePairsLines rest cur
      | none =>
        match selLineParts line with
        | some sel => parsePairsLines rest
            ((splitSelGo sel []).map (fun s => String.mk (dropDot s)))
        | none =>
          if line = [cbrace] then parsePairsLines rest []
          else parsePairsLines rest cur := rfl

/-- Parsing a block of `  @apply` lines pairs each utility with every
current selector class. -/
theorem parseApplyBlock : ∀ (us : List String) (rest : List (List Char))
    (cur : List String),
    parsePairsLines (us.map applyLineChars ++ rest) cur =
      us.flatMap (fun u => cur.map (fun c => (c, u))) ++
        parsePairsLines rest cur := by
  intro us
  induction us with
  | nil => intro rest cur; simp
  | cons u t ih =>
    intro rest cur
    rw [List.map_cons, List.cons_append, parsePairsLines,
      applyLinePartsRender]
    show cur.map (fun c => (c, String.mk u.data)) ++
      parsePairsLines (t.map applyLineChars ++ rest) cur = _
    rw [ih]
    simp [strMkData]

/-- The empty line and the closing-brace line parse as expected. -/
theorem parseCloseLines (rest : List (List Char)) (cur : List String) :
    parsePairsLines ([cbrace] :: [] :: rest) cur = parsePairsLines rest [] := by
  rw [parsePairsLines,
    applyLinePartsNotSpace [cbrace] cbrace [] rfl (by decide),
    show selLineParts [cbrace] = none from by decide]
  show (if [cbrace] = [cbrace] then parsePairsLines ([] :: rest) []
    else parsePairsLines ([] :: rest) cur) = _
  rw [if_pos rfl, parsePairsLines,
    show applyLineParts [] = none from by decide,
    show selLineParts [] = none from by decide]
  show (if ([] : List Char) = [cbrace] then parsePairsLines rest []
    else parsePairsLines rest []) = _
  rw [if_neg (by decide)]

/-- Parsing the lines of one well-formed rule yields its pairs and
leaves the parser reset. -/
theorem parseRuleLines (r : Rule) (hne : r.1 ≠ [])
    (hcf : ∀ c ∈ r.1, ',' ∉ c.data) (rest : List (List Char))
    (cur : List String) :
    parsePairsLines (ruleLines r ++ rest) cur =
      pairsOfRule r ++ parsePairsLines rest [] := by
  obtain ⟨x, xs, hx⟩ : ∃ x xs, r.1 = x :: xs := by
    rcases h : r.1 with _ | ⟨x, xs⟩
    · exact absurd h hne
    · exact ⟨x, xs, rfl⟩
  obtain ⟨t, ht⟩ := selLineCharsHead x xs
  have hcur : (splitSelGo (selLineChars r.1) []).map
      (fun s => String.mk (dropDot s)) = r.1 := by
    rw [selLineChars,
      splitSelJoin (r.1.map (fun c => "." ++ c))
        (by rw [hx]; exact List.cons_ne_nil _ _)
        (by
          intro z hz
          rcases List.mem_map.mp hz with ⟨c, hcm, hcz⟩
          rw [← hcz]
          have hdz : ("." ++ c).data = '.' :: c.data := by
            simp [String.data_append]
          rw [hdz]
          intro hmem
          rw [List.mem_cons] at hmem
          rcases hmem with h1 | h2
          · exact absurd h1 (by decide)
          · exact hcf c hcm h2)]
    rw [List.map_map, List.map_map]
    have : (fun c => String.mk (dropDot (String.data ("." ++ c)))) =
        fun c : String => c := by
      funext c
      have hdz : ("." ++ c).data = '.' :: c.data := by
        simp [String.data_append]
      rw [hdz]
      show String.mk c.data = c
      exact strMkData c
    calc r.1.map (fun c => String.mk (dropDot (String.data ("." ++ c))))
        = r.1.map (fun c => c) := by rw [this]
      _ = r.1 := List.map_id _
  rw [ruleLines, List.cons_append, List.cons_append,
    parsePairsStep (selLineChars r.1 ++ [' ', obrace])
      ((List.map applyLineChars r.2 ++ [[cbrace], []]) ++ rest) cur,
    applyLinePartsNotSpace (selLineChars r.1 ++ [' ', obrace]) '.'
      (t ++ [' ', obrace]) (by rw [hx, ht]; rfl) (by decide),
    selLinePartsRender r.1]
  show parsePairsLines ((List.map applyLineChars r.2 ++ [[cbrace], []]) ++
      rest)
    ((splitSelGo (selLineChars r.1) []).map
      (fun s => String.mk (dropDot s))) = _
  rw [hcur, List.append_assoc, parseApplyBlock,
    show ([[cbrace], []] : List (List Char)) ++ rest =
      [cbrace] :: [] :: rest from rfl,
    parseCloseLines]
  rfl

/-- An `  @apply` line of a newline-free utility is newline-free. -/
theorem nlNotInApplyLine (u : String) (hu : '\n' ∉ u.data) :
    '\n' ∉ applyLineChars u := by
  intro h
  have hd : applyLineChars u = "  @apply ".data ++ (u.data ++ [';']) := by
    have h1 : (";" : String).data = [';'] := rfl
    simp [applyLineChars, String.data_append, h1]
  rw [hd] at h
  rcases List.mem_append.mp h with h1 | h2
  · exact absurd h1 (by decide)
  · rcases List.mem_append.mp h2 with h3 | h4
    · exact hu h3
    · exact absurd h4 (by decide)

/-- A rendered selector line of newline-free names is newline-free. -/
theorem nlNotInSelLine : ∀ (sels : List String),
    (∀ c ∈ sels, '\n' ∉ c.data) → '\n' ∉ selLineChars sels := by
  intro sels
  induction sels with
  | nil => intro _ h; exact absurd h (by decide)
  | cons x xs ih =>
    intro hc h
    cases xs with
    | nil =>
      rw [selLineChars, List.map_cons, List.map_nil, joinSep] at h
      have hdz : ("." ++ x).data = '.' :: x.data := by
        simp [String.data_append]
      rw [hdz, List.mem_cons] at h
      rcases h with h1 | h2
      · exact absurd h1 (by decide)
      · exact hc x (List.mem_cons_self x []) h2
    | cons y ys =>
      rw [selLineChars, List.map_cons, joinSep] at h
      · have h2 : (", " : String).data = [',', ' '] := rfl
        have hdz : ("." ++ x).data = '.' :: x.data := by
          simp [String.data_append]
        rw [String.data_append, String.data_append, hdz, h2] at h
        rcases List.mem_append.mp h with h3 | h4
        · rcases List.mem_append.mp h3 with h5 | h6
          · rw [List.mem_cons] at h5
            rcases h5 with h7 | h8
            · exact absurd h7 (by decide)
            · exact hc x (List.mem_cons_self x (y :: ys)) h8
          · exact absurd h6 (by decide)
        · exact ih (fun c hcm => hc c (List.mem_cons_of_mem x hcm))
            (by rw [selLineChars, List.map_cons]; exact h4)
      · exact List.cons_ne_nil _ _

/-- `lineSplit` over a rendered `@apply` block. -/
theorem lineSplitApplyBlock : ∀ (us : List String),
    (∀ u ∈ us, '\n' ∉ u.data) → ∀ rest,
    lineSplit ((applyLines us).data ++ rest) =
      us.map applyLineChars ++ lineSplit rest := by
  intro us
  induction us with
  | nil =>
    intro _ rest
    show lineSplit (("" : String).data ++ rest) = lineSplit rest
    rfl
  | cons u t ih =>
    intro hu rest
    have hd : (applyLines (u :: t)).data ++ rest =
        applyLineChars u ++ '\n' :: ((applyLines t).data ++ rest) := by
      rw [applyLines]
      have h1 : (";\n" : String).data = [';', '\n'] := rfl
      have h2 : applyLineChars u = "  @apply ".data ++ (u.data ++ [';']) := by
        have h3 : (";" : String).data = [';'] := rfl
        simp [applyLineChars, String.data_append, h3]
      rw [String.data_append, String.data_append, String.data_append, h1, h2]
      simp
    rw [hd, lineSplitChunk (applyLineChars u)
      (nlNotInApplyLine u (hu u (List.mem_cons_self u t))) _,
      ih (fun z hz => hu z (List.mem_cons_of_mem u hz)) rest,
      List.map_cons, List.cons_append]

/-- `lineSplit` over one rendered rule. -/
theorem lineSplitRule (r : Rule) (hr : wfRule r) (rest : List Char) :
    lineSplit ((renderRule r).data ++ rest) = ruleLines r ++ lineSplit rest := by
  obtain ⟨hne, hsel, hus⟩ := hr
  have hd : (renderRule r).data ++ rest =
      (selLineChars r.1 ++ [' ', obrace]) ++ '\n' ::
        ((applyLines r.2).data ++
          (cbrace :: '\n' :: '\n' :: rest)) := by
    rw [renderRule]
    have h1 : (" \x7b\n" : String).data = [' ', obrace, '\n'] := rfl
    have h2 : ("\x7d\n\n" : String).data = [cbrace, '\n', '\n'] := rfl
    rw [String.data_append, String.data_append, String.data_append, h1, h2,
      selLineChars]
    simp
  have hnl1 : '\n' ∉ selLineChars r.1 ++ [' ', obrace] := by
    intro h
    rcases List.mem_append.mp h with h1 | h2
    · exact nlNotInSelLine r.1 (fun c hcm => (hsel c hcm).2) h1
    · exact absurd h2 (by decide)
  rw [hd, lineSplitChunk _ hnl1 _, lineSplitApplyBlock r.2 hus _,
    show cbrace :: '\n' :: '\n' :: rest =
      [cbrace] ++ '\n' :: ('\n' :: rest) from rfl,
    lineSplitChunk [cbrace] (by decide) _, lineSplit, if_pos rfl, ruleLines]
  simp

/-- `lineSplit` over a rendered rule list. -/
theorem lineSplitRules : ∀ (rs : List Rule), (∀ r ∈ rs, wfRule r) →
    lineSplit (renderRules rs).data = rs.flatMap ruleLines ++ [[]] := by
  intro rs
  induction rs with
  | nil => intro _; rfl
  | cons r t ih =>
    intro h
    rw [renderRules, String.data_append,
      lineSplitRule r (h r (List.mem_cons_self r t)) _,
      ih (fun z hz => h z (List.mem_cons_of_mem r hz)), List.flatMap_cons]
    simp

/-- Parsing the lines of a well-formed rule list yields its pairs. -/
theorem parseRulesPairs : ∀ (rs : List Rule), (∀ r ∈ rs, wfRule r) →
    ∀ cur, parsePairsLines (rs.flatMap ruleLines ++ [[]]) cur =
      rs.flatMap pairsOfRule := by
  intro rs
  induction rs with
  | nil =>
    intro _ cur
    rw [List.flatMap_nil, List.nil_append, parsePairsStep,
      show applyLineParts [] = none from by decide,
      show selLineParts [] = none from by decide]
    show (if ([] : List Char) = [cbrace] then parsePairsLines [] []
      else parsePairsLines [] cur) = []
    rw [if_neg (by decide)]
    rfl
  | cons r t ih =>
    intro h cur
    rw [List.flatMap_cons, List.append_assoc,
      parseRuleLines r (h r (List.mem_cons_self r t)).1
        (fun c hcm => ((h r (List.mem_cons_self r t)).2.1 c hcm).1) _ cur,
      ih (fun z hz => h z (List.mem_cons_of_mem r hz)) [],
      List.flatMap_cons]

/-- Parsing a rendered well-formed rule list recovers exactly its pairs. -/
theorem parseRenderEq (rs : List Rule) (h : ∀ r ∈ rs, wfRule r) :
    parseApplyPairs (renderRules rs) = rs.flatMap pairsOfRule := by
  rw [parseApplyPairs, lineSplitRules rs h, parseRulesPairs rs h]

/-- A character outside the identifier-tail class is not in a valid
identifier. -/
theorem validIdentNoChar (c : String) (h : isValidCssIdentifier c = true)
    (ch : Char) (hch : identTail ch = false) : ch ∉ c.data := by
  intro hm
  rw [validIdentChars c h ch hm] at hch
  cases hch

/-- Utility tokens are newline-free. -/
theorem tokensNoNl (s : String) : ∀ u ∈ tokensOf s, '\n' ∉ u.data := by
  intro u hu hm
  have := tokensNoWs s u hu '\n' hm
  rw [show jsSpace '\n' = true from by decide] at this
  cases this

/-- The standard generator's fold, described by `stdNamesGo` and
`stdRulesGo`. -/
theorem stdFold : ∀ (ms : List ClassMapping) (seen : List String)
    (css : String),
    ms.foldl generateStandardCssStep (seen, css) =
      (stdNamesGo seen ms, css ++ renderRules (stdRulesGo seen ms)) := by
  intro ms
  induction ms with
  | nil =>
    intro seen css
    rw [List.foldl_nil, stdNamesGo, stdRulesGo, renderRules]
    have h : css ++ "" = css := by
      apply strDataEq
      rw [String.data_append]
      simp [show ("" : String).data = [] from rfl]
    rw [h]
  | cons cm t ih =>
    intro seen css
    rw [List.foldl_cons]
    by_cases hm : cm.generatedClassName ∈ seen
    · show t.foldl generateStandardCssStep
        (if cm.generatedClassName ∈ seen then (seen, css) else _) = _
      rw [if_pos hm, ih, stdNamesGo, if_pos hm, stdRulesGo, if_pos hm]
    · show t.foldl generateStandardCssStep
        (if cm.generatedClassName ∈ seen then (seen, css)
         else (seen ++ [cm.generatedClassName],
           css ++ "." ++ cm.generatedClassName ++ " \x7b\n" ++
             applyLines (tokensOf cm.originalClasses) ++ "\x7d\n\n")) = _
      rw [if_neg hm, ih, stdNamesGo, if_neg hm, stdRulesGo, if_neg hm,
        renderRules]
      congr 1
      apply strDataEq
      rw [renderRule]
      show _ = (css ++ (joinSep ", "
        ([cm.generatedClassName].map (fun c => "." ++ c)) ++ " \x7b\n" ++
        applyLines (tokensOf cm.originalClasses) ++ "\x7d\n\n" ++
        renderRules (stdRulesGo (seen ++ [cm.generatedClassName]) t))).data
      rw [List.map_cons, List.map_nil, joinSep]
      simp [String.data_append]

/-- Every standard rule comes from some mapping. -/
theorem stdRulesGoMem : ∀ (ms : List ClassMapping) (seen : List String)
    (r : Rule), r ∈ stdRulesGo seen ms → ∃ cm ∈ ms,
      r = ([cm.generatedClassName], tokensOf cm.originalClasses) := by
  intro ms
  induction ms with
  | nil => intro seen r h; cases h
  | cons cm t ih =>
    intro seen r h
    rw [stdRulesGo] at h
    by_cases hm : cm.generatedClassName ∈ seen
    · rw [if_pos hm] at h
      rcases ih seen r h with ⟨cm', h1, h2⟩
      exact ⟨cm', List.mem_cons_of_mem cm h1, h2⟩
    · rw [if_neg hm, List.mem_cons] at h
      rcases h with h1 | h2
      · exact ⟨cm, List.mem_cons_self cm t, h1⟩
      · rcases ih _ r h2 with ⟨cm', h3, h4⟩
        exact ⟨cm', List.mem_cons_of_mem cm h3, h4⟩

/-- Standard rules over valid names are well-formed. -/
theorem stdRulesWf (ms : List ClassMapping)
    (hvalid : ∀ cm ∈ ms, isValidCssIdentifier cm.generatedClassName = true)
    (seen : List String) : ∀ r ∈ stdRulesGo seen ms, wfRule r := by
  intro r hr
  rcases stdRulesGoMem ms seen r hr with ⟨cm, hmem, hre⟩
  rw [hre]
  refine ⟨List.cons_ne_nil _ _, ?_, ?_⟩
  · intro c hc
    rw [List.mem_singleton] at hc
    rw [hc]
    exact ⟨validIdentNoChar _ (hvalid cm hmem) ',' (by decide),
      validIdentNoChar _ (hvalid cm hmem) '\n' (by decide)⟩
  · intro u hu
    exact tokensNoNl cm.originalClasses u hu

/-- Pair membership for a single-selector rule. -/
theorem pairsOfSingleton (n : String) (toks : List String)
    (c u : String) :
    (c, u) ∈ pairsOfRule ([n], toks) ↔ c = n ∧ u ∈ toks := by
  rw [pairsOfRule]
  constructor
  · intro h
    rcases List.mem_flatMap.mp h with ⟨a, ha, hmem⟩
    rw [List.map_cons, List.map_nil, List.mem_singleton] at hmem
    rw [Prod.mk.injEq] at hmem
    exact ⟨hmem.1, hmem.2 ▸ ha⟩
  · intro ⟨h1, h2⟩
    refine List.mem_flatMap.mpr ⟨u, h2, ?_⟩
    rw [List.map_cons, List.map_nil, List.mem_singleton, h1]

/-- Pair membership for the standard rule list: one pair per mapping name
and token, names already seen excluded. -/
theorem stdPairsMem : ∀ (ms : List ClassMapping),
    (∀ cm ∈ ms, ∀ cm' ∈ ms,
      cm.generatedClassName = cm'.generatedClassName →
      tokensOf cm.originalClasses = tokensOf cm'.originalClasses) →
    ∀ (seen : List String) (c u : String),
    ((c, u) ∈ (stdRulesGo seen ms).flatMap pairsOfRule ↔
      (c ∉ seen ∧ semMem ms c u)) := by
  intro ms
  induction ms with
  | nil =>
    intro _ seen c u
    simp [stdRulesGo, semMem]
  | cons cm t ih =>
    intro hcons seen c u
    have hconsT : ∀ x ∈ t, ∀ x' ∈ t,
        x.generatedClassName = x'.generatedClassName →
        tokensOf x.originalClasses = tokensOf x'.originalClasses :=
      fun x hx x' hx' => hcons x (List.mem_cons_of_mem cm hx) x'
        (List.mem_cons_of_mem cm hx')
    rw [stdRulesGo]
    by_cases hm : cm.generatedClassName ∈ seen
    · rw [if_pos hm, ih hconsT seen c u]
      constructor
      · intro ⟨h1, cm', h2, h3, h4⟩
        exact ⟨h1, cm', List.mem_cons_of_mem cm h2, h3, h4⟩
      · intro ⟨h1, cm', h2, h3, h4⟩
        rw [List.mem_cons] at h2
        rcases h2 with h5 | h5
        · exact absurd (h3 ▸ h5 ▸ hm) h1
        · exact ⟨h1, cm', h5, h3, h4⟩
    · rw [if_neg hm, List.flatMap_cons, List.mem_append,
        pairsOfSingleton, ih hconsT _ c u]
      have hseen : c ∉ seen ++ [cm.generatedClassName] ↔
          (c ∉ seen ∧ c ≠ cm.generatedClassName) := by
        rw [List.mem_append, List.mem_singleton]
        constructor
        · intro h; exact ⟨fun h1 => h (Or.inl h1), fun h1 => h (Or.inr h1)⟩
        · intro ⟨h1, h2⟩ h3
          rcases h3 with h4 | h4
          · exact h1 h4
          · exact h2 h4
      rw [hseen]
      constructor
      · intro h
        rcases h with ⟨h1, h2⟩ | ⟨⟨h1, h2⟩, cm', h3, h4, h5⟩
        · exact ⟨h1 ▸ hm, cm, List.mem_cons_self cm t, h1.symm, h2⟩
        · exact ⟨h1, cm', List.mem_cons_of_mem cm h3, h4, h5⟩
      · intro ⟨h1, cm', h2, h3, h4⟩
        rw [List.mem_cons] at h2
        rcases h2 with h5 | h5
        · exact Or.inl ⟨(h5 ▸ h3).symm, (h5 ▸ h4 : u ∈ _)⟩
        · by_cases hceq : c = cm.generatedClassName
          · refine Or.inl ⟨hceq, ?_⟩
            have := hcons cm' (List.mem_cons_of_mem cm h5) cm
              (List.mem_cons_self cm t) (h3.trans hceq)
            exact this ▸ h4
          · exact Or.inr ⟨⟨h1, hceq⟩, cm', h5, h3, h4⟩

/-- Membership in `sadd`, both directions. -/
theorem memSaddIff {α : Type} [DecidableEq α] (s : List α) (x y : α) :
    x ∈ sadd s y ↔ x ∈ s ∨ x = y := by
  rw [sadd]
  by_cases hy : y ∈ s
  · rw [if_pos hy]
    constructor
    · exact Or.inl
    · intro h
      rcases h with h1 | h1
      · exact h1
      · exact h1 ▸ hy
  · rw [if_neg hy, List.mem_append, List.mem_singleton]

/-- `sadd` preserves distinctness. -/
theorem saddNodup {α : Type} [DecidableEq α] (s : List α) (y : α)
    (h : s.Nodup) : (sadd s y).Nodup := by
  rw [sadd]
  by_cases hy : y ∈ s
  · rw [if_pos hy]; exact h
  · rw [if_neg hy]
    exact List.Nodup.append h (List.nodup_singleton y)
      (by intro a ha hb; rw [List.mem_singleton] at hb; exact hy (hb ▸ ha))

/-- Membership after folding `sadd` over a list of images. -/
theorem saddFoldMem {α β : Type} [DecidableEq α] (f : β → α) :
    ∀ (l : List β) (s : List α) (x : α),
    (x ∈ l.foldl (fun s b => sadd s (f b)) s ↔ x ∈ s ∨ ∃ b ∈ l, x = f b) := by
  intro l
  induction l with
  | nil => intro s x; simp
  | cons b t ih =>
    intro s x
    rw [List.foldl_cons, ih]
    rw [memSaddIff]
    constructor
    · intro h
      rcases h with (h1 | h1) | h1
      · exact Or.inl h1
      · exact Or.inr ⟨b, List.mem_cons_self b t, h1⟩
      · rcases h1 with ⟨b', h2, h3⟩
        exact Or.inr ⟨b', List.mem_cons_of_mem b h2, h3⟩
    · intro h
      rcases h with h1 | ⟨b', h2, h3⟩
      · exact Or.inl (Or.inl h1)
      · rw [List.mem_cons] at h2
        rcases h2 with h4 | h4
        · exact Or.inl (Or.inr (h4 ▸ h3))
        · exact Or.inr ⟨b', h4, h3⟩

/-- Key presence after `mset`. -/
theorem mgetMsetSomeIff {α β : Type} [DecidableEq α] (m : List (α × β))
    (k k' : α) (v : β) :
    (mget (mset m k v) k').isSome = true ↔
      k' = k ∨ (mget m k').isSome = true := by
  by_cases he : k = k'
  · subst he
    rw [mgetMsetSelf]
    simp
  · rw [mgetMsetNe m k k' v he]
    constructor
    · exact Or.inr
    · intro h
      rcases h with h1 | h1
      · exact absurd h1.symm he
      · exact h1

/-- `mset` preserves distinct keys. -/
theorem msetKeysNodup {α β : Type} [DecidableEq α] :
    ∀ (m : List (α × β)) (k : α) (v : β),
    (m.map Prod.fst).Nodup → ((mset m k v).map Prod.fst).Nodup := by
  intro m
  induction m with
  | nil => intro k v _; simp [mset]
  | cons e t ih =>
    intro k v h
    rw [List.map_cons, List.nodup_cons] at h
    rw [mset]
    by_cases he : e.1 = k
    · rw [if_pos he, List.map_cons, List.nodup_cons]
      exact ⟨he ▸ h.1, h.2⟩
    · rw [if_neg he, List.map_cons, List.nodup_cons]
      refine ⟨?_, ih k v h.2⟩
      intro hmem
      rcases List.mem_map.mp hmem with ⟨p, hp, hpe⟩
      rcases memMset t k v p hp with h1 | h1
      · exact h.1 (hpe ▸ List.mem_map_of_mem Prod.fst h1)
      · exact he ((h1 ▸ hpe : (k, v).1 = e.1).symm)

/-- With distinct keys, membership determines `mget`. -/
theorem memMget {α β : Type} [DecidableEq α] :
    ∀ (m : List (α × β)), (m.map Prod.fst).Nodup →
    ∀ (k : α) (v : β), (k, v) ∈ m → mget m k = some v := by
  intro m
  induction m with
  | nil => intro _ k v h; cases h
  | cons e t ih =>
    intro hnd k v h
    rw [List.map_cons, List.nodup_cons] at hnd
    rw [List.mem_cons] at h
    rcases h with h1 | h1
    · rw [← h1, mget, if_pos rfl]
    · rw [mget]
      by_cases he : e.1 = k
      · exfalso
        apply hnd.1
        rw [he]
        exact List.mem_map_of_mem Prod.fst h1
      · rw [if_neg he]
        exact ih hnd.2 k v h1

/-- Membership in the utility-to-classes map after one mapping's inner
fold. -/
theorem u2cInnerMem (n : String) : ∀ (uts : List String)
    (m : List (String × List String)) (u c : String),
    (c ∈ (mget (uts.foldl
        (fun m u => mset m u (sadd ((mget m u).getD []) n)) m) u).getD [] ↔
      c ∈ (mget m u).getD [] ∨ (u ∈ uts ∧ c = n)) := by
  intro uts
  induction uts with
  | nil => intro m u c; simp
  | cons u0 t ih =>
    intro m u c
    rw [List.foldl_cons, ih]
    by_cases he : u = u0
    · subst he
      rw [mgetMsetSelf, Option.getD_some, memSaddIff]
      constructor
      · intro h
        rcases h with (h1 | h1) | h1
        · exact Or.inl h1
        · exact Or.inr ⟨List.mem_cons_self u t, h1⟩
        · exact Or.inr ⟨List.mem_cons_of_mem u h1.1, h1.2⟩
      · intro h
        rcases h with h1 | ⟨h1, h2⟩
        · exact Or.inl (Or.inl h1)
        · rw [List.mem_cons] at h1
          rcases h1 with h3 | h3
          · exact Or.inl (Or.inr h2)
          · exact Or.inr ⟨h3, h2⟩
    · rw [mgetMsetNe m u0 u _ (fun h => he h.symm)]
      constructor
      · intro h
        rcases h with h1 | ⟨h1, h2⟩
        · exact Or.inl h1
        · exact Or.inr ⟨List.mem_cons_of_mem u0 h1, h2⟩
      · intro h
        rcases h with h1 | ⟨h1, h2⟩
        · exact Or.inl h1
        · rw [List.mem_cons] at h1
          rcases h1 with h3 | h3
          · exact absurd h3 he
          · exact Or.inr ⟨h3, h2⟩

/-- The inner fold preserves distinctness of each class list. -/
theorem u2cInnerNodup (n : String) : ∀ (uts : List String)
    (m : List (String × List String)),
    (∀ u, ((mget m u).getD []).Nodup) →
    ∀ u, ((mget (uts.foldl
      (fun m u => mset m u (sadd ((mget m u).getD []) n)) m) u).getD
        []).Nodup := by
  intro uts
  induction uts with
  | nil => intro m h u; exact h u
  | cons u0 t ih =>
    intro m h u
    rw [List.foldl_cons]
    apply ih
    intro u'
    by_cases he : u' = u0
    · subst he
      rw [mgetMsetSelf, Option.getD_some]
      exact saddNodup _ n (h u')
    · rw [mgetMsetNe m u0 u' _ (fun hx => he hx.symm)]
      exact h u'

/-- The inner fold preserves distinct keys. -/
theorem u2cInnerKeys (n : String) : ∀ (uts : List String)
    (m : List (String × List String)), (m.map Prod.fst).Nodup →
    ((uts.foldl
      (fun m u => mset m u (sadd ((mget m u).getD []) n)) m).map
        Prod.fst).Nodup := by
  intro uts
  induction uts with
  | nil => intro m h; exact h
  | cons u0 t ih =>
    intro m h
    rw [List.foldl_cons]
    exact ih _ (msetKeysNodup m u0 _ h)

/-- The inner fold keeps every class list nonempty. -/
theorem u2cInnerNeNil (n : String) : ∀ (uts : List String)
    (m : List (String × List String)), (∀ p ∈ m, p.2 ≠ []) →
    ∀ p ∈ uts.foldl
      (fun m u => mset m u (sadd ((mget m u).getD []) n)) m, p.2 ≠ [] := by
  intro uts
  induction uts with
  | nil => intro m h; exact h
  | cons u0 t ih =>
    intro m h
    rw [List.foldl_cons]
    apply ih
    intro p hp
    rcases memMset m u0 _ p hp with h1 | h1
    · exact h p h1
    · rw [h1]
      exact saddNeNil _ n

/-- Membership in the utility-to-classes map built by `optCollect`. -/
theorem optCollectU2cMem : ∀ (ms : List ClassMapping)
    (acc : List (String × List String) × List (String × List String))
    (u c : String),
    (c ∈ (mget (ms.foldl optCollect acc).1 u).getD [] ↔
      c ∈ (mget acc.1 u).getD [] ∨
        ∃ cm ∈ ms, cm.generatedClassName = c ∧
          u ∈ tokensOf cm.originalClasses) := by
  intro ms
  induction ms with
  | nil => intro acc u c; simp
  | cons cm t ih =>
    intro acc u c
    rw [List.foldl_cons, ih]
    show c ∈ (mget ((tokensOf cm.originalClasses).foldl
        (fun m u => mset m u (sadd ((mget m u).getD [])
          cm.generatedClassName)) acc.1) u).getD [] ∨ _ ↔ _
    rw [u2cInnerMem]
    constructor
    · intro h
      rcases h with (h1 | ⟨h1, h2⟩) | ⟨cm', h3, h4, h5⟩
      · exact Or.inl h1
      · exact Or.inr ⟨cm, List.mem_cons_self cm t, h2.symm, h1⟩
      · exact Or.inr ⟨cm', List.mem_cons_of_mem cm h3, h4, h5⟩
    · intro h
      rcases h with h1 | ⟨cm', h3, h4, h5⟩
      · exact Or.inl (Or.inl h1)
      · rw [List.mem_cons] at h3
        rcases h3 with h6 | h6
        · exact Or.inl (Or.inr ⟨h6 ▸ h5, (h6 ▸ h4 : cm.generatedClassName = c).symm⟩)
        · exact Or.inr ⟨cm', h6, h4, h5⟩

/-- Key presence in the class-to-utilities map built by `optCollect`. -/
theorem optCollectDefsSome : ∀ (ms : List ClassMapping)
    (acc : List (String × List String) × List (String × List String))
    (c : String),
    ((mget (ms.foldl optCollect acc).2 c).isSome = true ↔
      (mget acc.2 c).isSome = true ∨ ∃ cm ∈ ms,
        cm.generatedClassName = c) := by
  intro ms
  induction ms with
  | nil => intro acc c; simp
  | cons cm t ih =>
    intro acc c
    rw [List.foldl_cons, ih]
    show (mget (mset acc.2 cm.generatedClassName
      (tokensOf cm.originalClasses)) c).isSome = true ∨ _ ↔ _
    rw [mgetMsetSomeIff]
    constructor
    · intro h
      rcases h with (h1 | h1) | ⟨cm', h2, h3⟩
      · exact Or.inr ⟨cm, List.mem_cons_self cm t, h1.symm⟩
      · exact Or.inl h1
      · exact Or.inr ⟨cm', List.mem_cons_of_mem cm h2, h3⟩
    · intro h
      rcases h with h1 | ⟨cm', h2, h3⟩
      · exact Or.inl (Or.inr h1)
      · rw [List.mem_cons] at h2
        rcases h2 with h4 | h4
        · exact Or.inl (Or.inl (h4 ▸ h3).symm)
        · exact Or.inr ⟨cm', h4, h3⟩

/-- Every value of the class-to-utilities map is some mapping's token
list. -/
theorem optCollectDefsVal : ∀ (ms : List ClassMapping)
    (acc : List (String × List String) × List (String × List String))
    (c : String) (us : List String),
    mget (ms.foldl optCollect acc).2 c = some us →
    mget acc.2 c = some us ∨ ∃ cm ∈ ms,
      cm.generatedClassName = c ∧ us = tokensOf cm.originalClasses := by
  intro ms
  induction ms with
  | nil => intro acc c us h; exact Or.inl h
  | cons cm t ih =>
    intro acc c us h
    rw [List.foldl_cons] at h
    rcases ih _ c us h with h1 | ⟨cm', h2, h3, h4⟩
    · have h1' : mget (mset acc.2 cm.generatedClassName
        (tokensOf cm.originalClasses)) c = some us := h1
      by_cases he : cm.generatedClassName = c
      · rw [he, mgetMsetSelf] at h1'
        refine Or.inr ⟨cm, List.mem_cons_self cm t, he, ?_⟩
        exact (Option.some_inj.mp h1').symm
      · rw [mgetMsetNe _ _ _ _ he] at h1'
        exact Or.inl h1'
    · exact Or.inr ⟨cm', List.mem_cons_of_mem cm h2, h3, h4⟩

/-- The utility-to-classes map has distinct class lists. -/
theorem optCollectU2cNodup : ∀ (ms : List ClassMapping)
    (acc : List (String × List String) × List (String × List String)),
    (∀ u, ((mget acc.1 u).getD []).Nodup) →
    ∀ u, ((mget (ms.foldl optCollect acc).1 u).getD []).Nodup := by
  intro ms
  induction ms with
  | nil => intro acc h u; exact h u
  | cons cm t ih =>
    intro acc h u
    rw [List.foldl_cons]
    exact ih _ (u2cInnerNodup cm.generatedClassName
      (tokensOf cm.originalClasses) acc.1 h) u

/-- The utility-to-classes map has distinct keys. -/
theorem optCollectU2cKeys : ∀ (ms : List ClassMapping)
    (acc : List (String × List String) × List (String × List String)),
    (acc.1.map Prod.fst).Nodup →
    (((ms.foldl optCollect acc).1).map Prod.fst).Nodup := by
  intro ms
  induction ms with
  | nil => intro acc h; exact h
  | cons cm t ih =>
    intro acc h
    rw [List.foldl_cons]
    exact ih _ (u2cInnerKeys cm.generatedClassName
      (tokensOf cm.originalClasses) acc.1 h)

/-- Every class list of the utility-to-classes map is nonempty. -/
theorem optCollectU2cNeNil : ∀ (ms : List ClassMapping)
    (acc : List (String × List String) × List (String × List String)),
    (∀ p ∈ acc.1, p.2 ≠ []) →
    ∀ p ∈ (ms.foldl optCollect acc).1, p.2 ≠ [] := by
  intro ms
  induction ms with
  | nil => intro acc h; exact h
  | cons cm t ih =>
    intro acc h
    rw [List.foldl_cons]
    exact ih _ (u2cInnerNeNil cm.generatedClassName
      (tokensOf cm.originalClasses) acc.1 h)

/-- The class-to-utilities map has distinct keys. -/
theorem optCollectDefsKeys : ∀ (ms : List ClassMapping)
    (acc : List (String × List String) × List (String × List String)),
    (acc.2.map Prod.fst).Nodup →
    (((ms.foldl optCollect acc).2).map Prod.fst).Nodup := by
  intro ms
  induction ms with
  | nil => intro acc h; exact h
  | cons cm t ih =>
    intro acc h
    rw [List.foldl_cons]
    exact ih _ (msetKeysNodup acc.2 cm.generatedClassName _ h)

/-- The grouping fold, described as a filter over the entry list. -/
theorem optGroupFold : ∀ (entries : List (String × List String))
    (g : List (String × List String)) (k : String),
    (mget (entries.foldl optGroup g) k).getD [] =
      (mget g k).getD [] ++
        ((entries.filter
          (fun e => joinSep "," (jsSortStrings e.2) == k)).map Prod.fst) := by
  intro entries
  induction entries with
  | nil => intro g k; simp
  | cons e t ih =>
    intro g k
    rw [List.foldl_cons, ih]
    show (mget (mset g (joinSep "," (jsSortStrings e.2))
      ((mget g (joinSep "," (jsSortStrings e.2))).getD [] ++ [e.1])) k).getD
        [] ++ _ = _
    by_cases he : joinSep "," (jsSortStrings e.2) = k
    · rw [he, mgetMsetSelf, Option.getD_some,
        List.filter_cons_of_pos (by simpa using he), List.map_cons, ← he]
      simp
    · rw [mgetMsetNe _ _ _ _ he,
        List.filter_cons_of_neg (by simpa using he)]

/-- The grouping fold preserves distinct keys. -/
theorem optGroupKeys : ∀ (entries : List (String × List String))
    (g : List (String × List String)), (g.map Prod.fst).Nodup →
    ((entries.foldl optGroup g).map Prod.fst).Nodup := by
  intro entries
  induction entries with
  | nil => intro g h; exact h
  | cons e t ih =>
    intro g h
    rw [List.foldl_cons]
    exact ih _ (msetKeysNodup g _ _ h)

/-- Membership after the nested processed-set fold of one group. -/
theorem prClassesFoldMem : ∀ (classes us pr : List String) (x : String),
    (x ∈ classes.foldl
      (fun pr className =>
        us.foldl (fun pr u => sadd pr (className ++ ":" ++ u)) pr) pr ↔
      x ∈ pr ∨ ∃ c ∈ classes, ∃ u ∈ us, x = c ++ ":" ++ u) := by
  intro classes
  induction classes with
  | nil => intro us pr x; simp
  | cons c0 ct ih =>
    intro us pr x
    rw [List.foldl_cons, ih, saddFoldMem (fun u => c0 ++ ":" ++ u) us pr x]
    constructor
    · intro h
      rcases h with (h1 | ⟨u, h2, h3⟩) | ⟨c, h4, u, h5, h6⟩
      · exact Or.inl h1
      · exact Or.inr ⟨c0, List.mem_cons_self c0 ct, u, h2, h3⟩
      · exact Or.inr ⟨c, List.mem_cons_of_mem c0 h4, u, h5, h6⟩
    · intro h
      rcases h with h1 | ⟨c, h4, u, h5, h6⟩
      · exact Or.inl (Or.inl h1)
      · rw [List.mem_cons] at h4
        rcases h4 with h7 | h7
        · exact Or.inl (Or.inr ⟨u, h5, h7 ▸ h6⟩)
        · exact Or.inr ⟨c, h7, u, h5, h6⟩

/-- One processed-set step, relative to the empty set. -/
theorem prStepMemIff (pr : List String) (g : String × List String)
    (x : String) : x ∈ prStep pr g ↔ x ∈ pr ∨ x ∈ prStep [] g := by
  rw [prStep, prStep]
  by_cases hg : ((splitChar ',' g.1).filter
      (fun c => c ≠ "")).length ≤ 1 ∨ g.2.length = 0
  · rw [if_pos (by simpa using hg), if_pos (by simpa using hg)]
    simp
  · rw [if_neg (by simpa using hg), if_neg (by simpa using hg),
      prClassesFoldMem, prClassesFoldMem]
    simp

/-- Membership in the final processed set. -/
theorem prFoldMem : ∀ (gs : List (String × List String))
    (pr : List String) (x : String),
    (x ∈ gs.foldl prStep pr ↔ x ∈ pr ∨ ∃ g ∈ gs, x ∈ prStep [] g) := by
  intro gs
  induction gs with
  | nil => intro pr x; simp
  | cons g t ih =>
    intro pr x
    rw [List.foldl_cons, ih, prStepMemIff]
    constructor
    · intro h
      rcases h with (h1 | h1) | ⟨g', h2, h3⟩
      · exact Or.inl h1
      · exact Or.inr ⟨g, List.mem_cons_self g t, h1⟩
      · exact Or.inr ⟨g', List.mem_cons_of_mem g h2, h3⟩
    · intro h
      rcases h with h1 | ⟨g', h2, h3⟩
      · exact Or.inl (Or.inl h1)
      · rw [List.mem_cons] at h2
        rcases h2 with h4 | h4
        · exact Or.inl (Or.inr (h4 ▸ h3))
        · exact Or.inr ⟨g', h4, h3⟩

/-- First-colon decoding of `class ++ ":" ++ utility` keys. -/
theorem colonInjList : ∀ (a b u u' : List Char), ':' ∉ a → ':' ∉ b →
    a ++ ':' :: u = b ++ ':' :: u' → a = b ∧ u = u' := by
  intro a
  induction a with
  | nil =>
    intro b u u' _ hb h
    cases b with
    | nil =>
      rw [List.nil_append, List.nil_append] at h
      exact ⟨rfl, (List.cons.injEq _ _ _ _ ▸ h).2⟩
    | cons y bs =>
      rw [List.nil_append, List.cons_append] at h
      have hy : ':' = y := (List.cons.injEq _ _ _ _ ▸ h).1
      exact absurd (hy ▸ List.mem_cons_self y bs) hb
  | cons x as ih =>
    intro b u u' ha hb h
    cases b with
    | nil =>
      rw [List.nil_append, List.cons_append] at h
      have hx : x = ':' := (List.cons.injEq _ _ _ _ ▸ h).1
      exact absurd (hx ▸ List.mem_cons_self x as) ha
    | cons y bs =>
      rw [List.cons_append, List.cons_append] at h
      have h1 := List.cons.injEq _ _ _ _ ▸ h
      rcases ih bs u u' (fun hm => ha (List.mem_cons_of_mem x hm))
        (fun hm => hb (List.mem_cons_of_mem y hm)) h1.2 with ⟨h2, h3⟩
      exact ⟨by rw [h1.1, h2], h3⟩

/-- First-colon decoding at the string level. -/
theorem colonKeyInj (c c' u u' : String) (hc : ':' ∉ c.data)
    (hc' : ':' ∉ c'.data) (h : c ++ ":" ++ u = c' ++ ":" ++ u') :
    c = c' ∧ u = u' := by
  have hd : c.data ++ ':' :: u.data = c'.data ++ ':' :: u'.data := by
    have h1 := congrArg String.data h
    rw [String.data_append, String.data_append, String.data_append,
      String.data_append, show (":" : String).data = [':'] from rfl] at h1
    simpa using h1
  rcases colonInjList c.data c'.data u.data u'.data hc hc' hd with ⟨h1, h2⟩
  exact ⟨strDataEq c c' h1, strDataEq u u' h2⟩

/-- The group-emission fold, as rendered rules plus the processed-set
fold. -/
theorem emitFold : ∀ (gs : List (String × List String)) (css : String)
    (pr : List String),
    gs.foldl optEmitGroup (css, pr) =
      (css ++ renderRules (gs.filterMap groupRuleOf), gs.foldl prStep pr) := by
  intro gs
  induction gs with
  | nil =>
    intro css pr
    rw [List.foldl_nil, List.filterMap_nil, renderRules, List.foldl_nil]
    have h : css ++ "" = css := by
      apply strDataEq
      rw [String.data_append]
      simp [show ("" : String).data = [] from rfl]
    rw [h]
  | cons g t ih =>
    intro css pr
    rw [List.foldl_cons, List.foldl_cons, List.filterMap_cons]
    by_cases hg : ((splitChar ',' g.1).filter (fun c => c ≠ "")).length ≤ 1 ∨
        g.2.length = 0
    · have he : optEmitGroup (css, pr) g = (css, pr) := by
        rw [optEmitGroup]
        exact if_pos (by simpa using hg)
      have hn : groupRuleOf g = none := by
        rw [groupRuleOf]
        exact if_pos (by simpa using hg)
      have hp : prStep pr g = pr := by
        rw [prStep]
        exact if_pos (by simpa using hg)
      rw [he, hn, hp, ih]
    · have hb : ¬(((splitChar ',' g.1).filter (fun c => c ≠ "")).length ≤ 1 ||
          g.2.length = 0) = true := by simpa using hg
      have he : optEmitGroup (css, pr) g =
          (css ++ joinSep ", " (((splitChar ',' g.1).filter
              (fun c => c ≠ "")).map (fun c => "." ++ c)) ++ " \x7b\n" ++
            applyLines g.2 ++ "\x7d\n\n",
           prStep pr g) := by
        rw [optEmitGroup, prStep, if_neg hb, if_neg hb]
      have hn : groupRuleOf g =
          some ((splitChar ',' g.1).filter (fun c => c ≠ ""), g.2) := by
        rw [groupRuleOf]
        exact if_neg hb
      rw [he, hn, ih, renderRules]
      congr 1
      apply strDataEq
      rw [renderRule]
      simp [String.data_append]

/-- The remainder fold, as rendered rules. -/
theorem remFold : ∀ (ds : List (String × List String)) (pr : List String)
    (css : String),
    ds.foldl (optRemainder pr) css =
      css ++ renderRules (ds.filterMap (remRuleOf pr)) := by
  intro ds
  induction ds with
  | nil =>
    intro pr css
    rw [List.foldl_nil, List.filterMap_nil, renderRules]
    apply strDataEq
    rw [String.data_append]
    simp [show ("" : String).data = [] from rfl]
  | cons e t ih =>
    intro pr css
    rw [List.foldl_cons, List.filterMap_cons]
    by_cases hg : (e.2.filter (fun u => (e.1 ++ ":" ++ u) ∉ pr)).length > 0
    · have he : optRemainder pr css e =
          css ++ "." ++ e.1 ++ " \x7b\n" ++
            applyLines (e.2.filter (fun u => (e.1 ++ ":" ++ u) ∉ pr)) ++
            "\x7d\n\n" := by
        rw [optRemainder]
        exact if_pos hg
      have hn : remRuleOf pr e =
          some ([e.1], e.2.filter (fun u => (e.1 ++ ":" ++ u) ∉ pr)) := by
        rw [remRuleOf]
        exact if_pos hg
      rw [he, hn, ih, renderRules]
      apply strDataEq
      rw [renderRule, List.map_cons, List.map_nil, joinSep]
      simp [String.data_append]
    · have he : optRemainder pr css e = css := by
        rw [optRemainder]
        exact if_neg hg
      have hn : remRuleOf pr e = none := by
        rw [remRuleOf]
        exact if_neg hg
      rw [he, hn, ih]

/-- Left identity of string append. -/
theorem strNilAppend (str : String) : "" ++ str = str := by
  apply strDataEq
  rw [String.data_append]
  simp [show ("" : String).data = [] from rfl]

/-- `renderRules` distributes over append. -/
theorem renderRulesAppend : ∀ (a b : List Rule),
    renderRules (a ++ b) = renderRules a ++ renderRules b := by
  intro a
  induction a with
  | nil =>
    intro b
    rw [List.nil_append, renderRules, strNilAppend]
  | cons r t ih =>
    intro b
    rw [List.cons_append, renderRules, renderRules, ih]
    apply strDataEq
    simp [String.data_append]

/-- `optimizedCore`, as the rendering of its rule list. -/
theorem optimizedCoreEq (ms : List ClassMapping) :
    optimizedCore ms = renderRules (optRules ms) := by
  show (optMaps ms).2.foldl
    (optRemainder ((optGroups ms).foldl optEmitGroup ("", [])).2)
    ((optGroups ms).foldl optEmitGroup ("", [])).1 = _
  rw [emitFold (optGroups ms) "" []]
  show (optMaps ms).2.foldl (optRemainder (optPrF ms))
    ("" ++ renderRules ((optGroups ms).filterMap groupRuleOf)) = _
  rw [remFold, strNilAppend, optRules, renderRulesAppend]

/-- Pair membership in one rule. -/
theorem pairsOfRuleMem (r : Rule) (c u : String) :
    (c, u) ∈ pairsOfRule r ↔ c ∈ r.1 ∧ u ∈ r.2 := by
  rw [pairsOfRule]
  constructor
  · intro h
    rcases List.mem_flatMap.mp h with ⟨a, ha, hmem⟩
    rcases List.mem_map.mp hmem with ⟨c', hc', he⟩
    rw [Prod.mk.injEq] at he
    exact ⟨he.1 ▸ hc', he.2 ▸ ha⟩
  · intro ⟨h1, h2⟩
    exact List.mem_flatMap.mpr ⟨u, h2, List.mem_map.mpr ⟨c, h1, rfl⟩⟩

/-- A nonempty string is not the empty string. -/
theorem neEmptyOfDataNeNil (str : String) (h : str.data ≠ []) : str ≠ "" := by
  intro he
  rw [he] at h
  exact h rfl

/-- Decoding a group key recovers the sorted class list. -/
theorem groupKeyClasses (S : List String) (hne : S ≠ [])
    (hv : ∀ c ∈ S, isValidCssIdentifier c = true) :
    ((splitChar ',' (joinSep "," (jsSortStrings S))).filter
      (fun c => c ≠ "")) = jsSortStrings S := by
  have hperm := jsSortPerm S
  have hLne : jsSortStrings S ≠ [] := by
    intro h
    exact hne (List.Perm.eq_nil (h ▸ hperm).symm)
  have hLv : ∀ c ∈ jsSortStrings S, isValidCssIdentifier c = true :=
    fun c hc => hv c (hperm.mem_iff.mp hc)
  rw [splitCharJoin (jsSortStrings S) hLne
    (fun n hn => validIdentNoChar n (hLv n hn) ',' (by decide))]
  apply List.filter_eq_self.mpr
  intro a ha
  exact decide_eq_true
    (neEmptyOfDataNeNil a (validIdentNeNil a (hLv a ha)))

/-- Membership in the utility-to-classes map, semantically. -/
theorem optU2cMem (ms : List ClassMapping) (c u : String) :
    c ∈ (mget (optMaps ms).1 u).getD [] ↔ semMem ms c u := by
  rw [optMaps, optCollectU2cMem, semMem]
  show c ∈ (mget ([] : List (String × List String)) u).getD [] ∨ _ ↔ _
  simp [mget]

/-- Key presence in the class-to-utilities map, semantically. -/
theorem optDefsSome (ms : List ClassMapping) (c : String) :
    (mget (optMaps ms).2 c).isSome = true ↔
      ∃ cm ∈ ms, cm.generatedClassName = c := by
  rw [optMaps, optCollectDefsSome]
  show (mget ([] : List (String × List String)) c).isSome = true ∨ _ ↔ _
  simp [mget]

/-- Values of the class-to-utilities map are mapping token lists. -/
theorem optDefsVal (ms : List ClassMapping) (c : String) (us : List String)
    (h : mget (optMaps ms).2 c = some us) :
    ∃ cm ∈ ms, cm.generatedClassName = c ∧
      us = tokensOf cm.originalClasses := by
  rcases optCollectDefsVal ms ([], []) c us h with h1 | h1
  · cases (show (none : Option (List String)) = some us from h1)
  · exact h1

/-- The utility-to-classes map has distinct keys. -/
theorem optU2cKeysNodup (ms : List ClassMapping) :
    ((optMaps ms).1.map Prod.fst).Nodup :=
  optCollectU2cKeys ms ([], []) (by simp)

/-- The class-to-utilities map has distinct keys. -/
theorem optDefsKeysNodup (ms : List ClassMapping) :
    ((optMaps ms).2.map Prod.fst).Nodup :=
  optCollectDefsKeys ms ([], []) (by simp)

/-- The group map has distinct keys. -/
theorem optGroupsKeysNodup (ms : List ClassMapping) :
    ((optGroups ms).map Prod.fst).Nodup :=
  optGroupKeys (optMaps ms).1 [] (by simp)

/-- Class lists in the utility-to-classes map are nonempty. -/
theorem optU2cNeNil (ms : List ClassMapping) :
    ∀ p ∈ (optMaps ms).1, p.2 ≠ [] :=
  optCollectU2cNeNil ms ([], []) (by intro p hp; cases hp)

/-- Class lists in the utility-to-classes map are distinct. -/
theorem optU2cValNodup (ms : List ClassMapping) :
    ∀ u, ((mget (optMaps ms).1 u).getD []).Nodup :=
  optCollectU2cNodup ms ([], []) (by intro u; simp [mget])

/-- A utility-to-classes entry is read back by `mget`. -/
theorem optU2cEntryVal (ms : List ClassMapping) (u : String)
    (S : List String) (h : (u, S) ∈ (optMaps ms).1) :
    mget (optMaps ms).1 u = some S :=
  memMget (optMaps ms).1 (optU2cKeysNodup ms) u S h

/-- Membership in a looked-up class list, semantically. -/
theorem optU2cSomeMem (ms : List ClassMapping) (u : String)
    (S : List String) (h : mget (optMaps ms).1 u = some S) (c : String) :
    c ∈ S ↔ semMem ms c u := by
  have := optU2cMem ms c u
  rw [h] at this
  exact this

/-- A group entry's utility list, as a filter of the utility map. -/
theorem optGroupsVal (ms : List ClassMapping) (k : String)
    (us : List String) (h : (k, us) ∈ optGroups ms) :
    us = ((optMaps ms).1.filter
      (fun e => joinSep "," (jsSortStrings e.2) == k)).map Prod.fst := by
  have hm := memMget (optGroups ms) (optGroupsKeysNodup ms) k us h
  have hf := optGroupFold (optMaps ms).1 [] k
  rw [show (optMaps ms).1.foldl optGroup [] = optGroups ms from rfl, hm,
    Option.getD_some] at hf
  rw [hf]
  simp [mget]

/-- Membership in the first projection of a filtered entry list. -/
theorem memFilterMapFst {β : Type} (l : List (String × β))
    (p : String × β → Bool) (u : String) :
    u ∈ (l.filter p).map Prod.fst ↔
      ∃ S, (u, S) ∈ l ∧ p (u, S) = true := by
  rw [List.mem_map]
  constructor
  · intro h
    rcases h with ⟨e, he, hfst⟩
    obtain ⟨a, b⟩ := e
    rw [List.mem_filter] at he
    exact ⟨b, hfst ▸ he.1, hfst ▸ he.2⟩
  · intro ⟨S, hmem, hp⟩
    exact ⟨(u, S), List.mem_filter.mpr ⟨hmem, hp⟩, rfl⟩

/-- Every utility in a group entry is a utility-map key whose sorted
class list renders to the group's key. -/
theorem optGroupsUtil (ms : List ClassMapping) (k : String)
    (us : List String) (h : (k, us) ∈ optGroups ms) (u : String)
    (hu : u ∈ us) :
    ∃ S, mget (optMaps ms).1 u = some S ∧
      joinSep "," (jsSortStrings S) = k := by
  rw [optGroupsVal ms k us h, memFilterMapFst] at hu
  rcases hu with ⟨S, hmem, hp⟩
  exact ⟨S, optU2cEntryVal ms u S hmem, by simpa using hp⟩

/-- Sorted class lists of utility-map entries decode from the group key
and consist of valid identifiers. -/
theorem optClassesDecode (ms : List ClassMapping)
    (hvalid : ∀ cm ∈ ms, isValidCssIdentifier cm.generatedClassName = true)
    (u : String) (S : List String)
    (h : mget (optMaps ms).1 u = some S) :
    ((splitChar ',' (joinSep "," (jsSortStrings S))).filter
      (fun c => c ≠ "")) = jsSortStrings S := by
  apply groupKeyClasses S
  · exact optU2cNeNil ms (u, S) (mgetMem (optMaps ms).1 u S h)
  · intro c hc
    rcases (optU2cSomeMem ms u S h c).mp hc with ⟨cm, hcm, hname, _⟩
    exact hname ▸ hvalid cm hcm

/-- Names reachable through the utility map are valid and so comma-,
newline- and colon-free. -/
theorem optClassValid (ms : List ClassMapping)
    (hvalid : ∀ cm ∈ ms, isValidCssIdentifier cm.generatedClassName = true)
    (c u : String) (h : semMem ms c u) :
    isValidCssIdentifier c = true := by
  rcases h with ⟨cm, hcm, hname, _⟩
  exact hname ▸ hvalid cm hcm

/-- Utilities reachable through the maps are mapping tokens, hence
newline-free. -/
theorem optUtilNoNl (ms : List ClassMapping) (u : String) (S : List String)
    (h : mget (optMaps ms).1 u = some S) : '\n' ∉ u.data := by
  have hSne : S ≠ [] := optU2cNeNil ms (u, S) (mgetMem (optMaps ms).1 u S h)
  rcases hS : S with _ | ⟨c0, S'⟩
  · exact absurd hS hSne
  · rcases (optU2cSomeMem ms u S h c0).mp
      (hS ▸ List.mem_cons_self c0 S') with ⟨cm, _, _, hu⟩
    exact tokensNoNl cm.originalClasses u hu

/-- Every rule of the optimized generator is well-formed. -/
theorem optRulesWf (ms : List ClassMapping)
    (hvalid : ∀ cm ∈ ms, isValidCssIdentifier cm.generatedClassName = true) :
    ∀ r ∈ optRules ms, wfRule r := by
  intro r hr
  rw [optRules, List.mem_append] at hr
  rcases hr with hg | hrem
  · rcases List.mem_filterMap.mp hg with ⟨g, hgmem, hsome⟩
    obtain ⟨k, us⟩ := g
    by_cases hguard : ((splitChar ',' k).filter
        (fun c => c ≠ "")).length ≤ 1 ∨ us.length = 0
    · have hn : groupRuleOf (k, us) = none := by
        rw [groupRuleOf]
        exact if_pos (by simpa using hguard)
      rw [hn] at hsome
      cases hsome
    · have hn : groupRuleOf (k, us) =
          some ((splitChar ',' k).filter (fun c => c ≠ ""), us) := by
        rw [groupRuleOf]
        exact if_neg (by simpa using hguard)
      rw [hn] at hsome
      have hre : r = ((splitChar ',' k).filter (fun c => c ≠ ""), us) :=
        (Option.some_inj.mp hsome).symm
      rw [not_or] at hguard
      have hlen : 2 ≤ ((splitChar ',' k).filter
          (fun c => c ≠ "")).length := by omega
      have husne : us ≠ [] := by
        intro hx
        exact hguard.2 (by rw [hx]; rfl)
      rcases hus : us with _ | ⟨u0, us'⟩
      · exact absurd hus husne
      rcases optGroupsUtil ms k us hgmem u0
        (hus ▸ List.mem_cons_self u0 us') with ⟨S0, hS0, hk0⟩
      have hdec := optClassesDecode ms hvalid u0 S0 hS0
      rw [hk0] at hdec
      rw [hre]
      refine ⟨?_, ?_, ?_⟩
      · intro hx
        have hx2 : (splitChar ',' k).filter (fun c => c ≠ "") = [] := hx
        rw [hx2] at hlen
        simp at hlen
      · intro c hc
        rw [hdec] at hc
        have hcS : c ∈ S0 := (jsSortPerm S0).mem_iff.mp hc
        have hv := optClassValid ms hvalid c u0
          ((optU2cSomeMem ms u0 S0 hS0 c).mp hcS)
        exact ⟨validIdentNoChar c hv ',' (by decide),
          validIdentNoChar c hv '\n' (by decide)⟩
      · intro u' hu'
        rcases optGroupsUtil ms k us hgmem u' hu' with ⟨S', hS', _⟩
        exact optUtilNoNl ms u' S' hS'
  · rcases List.mem_filterMap.mp hrem with ⟨e, hemem, hsome⟩
    obtain ⟨cn, uses⟩ := e
    by_cases hguard : 0 < (uses.filter
        (fun u => (cn ++ ":" ++ u) ∉ optPrF ms)).length
    · have hn : remRuleOf (optPrF ms) (cn, uses) =
          some ([cn], uses.filter
            (fun u => (cn ++ ":" ++ u) ∉ optPrF ms)) := by
        rw [remRuleOf]
        exact if_pos hguard
      rw [hn] at hsome
      have hre : r = ([cn], uses.filter
          (fun u => (cn ++ ":" ++ u) ∉ optPrF ms)) :=
        (Option.some_inj.mp hsome).symm
      have hdg : mget (optMaps ms).2 cn = some uses :=
        memMget (optMaps ms).2 (optDefsKeysNodup ms) cn uses hemem
      have hv : isValidCssIdentifier cn = true := by
        rcases (optDefsSome ms cn).mp (by rw [hdg]; rfl) with ⟨cm, hcm, hname⟩
        exact hname ▸ hvalid cm hcm
      rcases optDefsVal ms cn uses hdg with ⟨cm', _, _, hus⟩
      rw [hre]
      refine ⟨List.cons_ne_nil _ _, ?_, ?_⟩
      · intro c hc
        rw [List.mem_singleton] at hc
        rw [hc]
        exact ⟨validIdentNoChar cn hv ',' (by decide),
          validIdentNoChar cn hv '\n' (by decide)⟩
      · intro u' hu'
        have : u' ∈ uses := List.mem_of_mem_filter hu'
        rw [hus] at this
        exact tokensNoNl cm'.originalClasses u' this
    · have hn : remRuleOf (optPrF ms) (cn, uses) = none := by
        rw [remRuleOf]
        exact if_neg hguard
      rw [hn] at hsome
      cases hsome

/-- Every utility-map key lands in the group bucket of its sorted class
list. -/
theorem optBucketMem (ms : List ClassMapping) (u : String)
    (S : List String) (h : mget (optMaps ms).1 u = some S) :
    u ∈ (mget (optGroups ms) (joinSep "," (jsSortStrings S))).getD [] := by
  rw [show optGroups ms = (optMaps ms).1.foldl optGroup [] from rfl,
    optGroupFold]
  show u ∈ (mget ([] : List (String × List String))
    (joinSep "," (jsSortStrings S))).getD [] ++ _
  rw [show mget ([] : List (String × List String))
    (joinSep "," (jsSortStrings S)) = none from rfl]
  show u ∈ ([] : List String) ++ _
  rw [List.nil_append, memFilterMapFst]
  exact ⟨S, mgetMem _ u S h, by simp⟩

/-- A processed `class:utility` key forces the utility's group to have at
least two classes. -/
theorem optPrFLen (ms : List ClassMapping)
    (hvalid : ∀ cm ∈ ms, isValidCssIdentifier cm.generatedClassName = true)
    (c u : String) (hcval : isValidCssIdentifier c = true)
    (S : List String) (hS : mget (optMaps ms).1 u = some S)
    (hpr : (c ++ ":" ++ u) ∈ optPrF ms) :
    ¬ ((splitChar ',' (joinSep "," (jsSortStrings S))).filter
      (fun x => x ≠ "")).length ≤ 1 := by
  intro hlen
  rcases (prFoldMem (optGroups ms) [] _).mp hpr with h0 | ⟨g', hgmem, hghit⟩
  · cases h0
  · obtain ⟨k', us'⟩ := g'
    by_cases hguard : ((splitChar ',' k').filter
        (fun x => x ≠ "")).length ≤ 1 ∨ us'.length = 0
    · have hz : prStep [] (k', us') = [] := by
        rw [prStep]
        exact if_pos (by simpa using hguard)
      rw [hz] at hghit
      cases hghit
    · have hstep : prStep [] (k', us') =
          ((splitChar ',' k').filter (fun x => x ≠ "")).foldl
            (fun pr className =>
              us'.foldl (fun pr u => sadd pr (className ++ ":" ++ u)) pr)
            [] := by
        rw [prStep]
        exact if_neg (by simpa using hguard)
      rw [hstep, prClassesFoldMem] at hghit
      rcases hghit with h0 | ⟨c2, hc2, u2, hu2, hkey⟩
      · cases h0
      rcases optGroupsUtil ms k' us' hgmem u2 hu2 with ⟨S2, hS2, hk2⟩
      have hdec2 := optClassesDecode ms hvalid u2 S2 hS2
      rw [hk2] at hdec2
      rw [hdec2] at hc2
      have hc2S : c2 ∈ S2 := (jsSortPerm S2).mem_iff.mp hc2
      have hc2v : isValidCssIdentifier c2 = true :=
        optClassValid ms hvalid c2 u2 ((optU2cSomeMem ms u2 S2 hS2 c2).mp hc2S)
      rcases colonKeyInj c c2 u u2
        (validIdentNoChar c hcval ':' (by decide))
        (validIdentNoChar c2 hc2v ':' (by decide)) hkey with ⟨hceq, hueq⟩
      rw [← hueq] at hS2
      have hSS : S2 = S := Option.some_inj.mp (hS2.symm.trans hS)
      have hk'k : k' = joinSep "," (jsSortStrings S) := by
        rw [← hk2, hSS]
      rw [not_or] at hguard
      rw [hk'k] at hguard
      exact hguard.1 hlen

/-- Pair membership for the optimized rule list is exactly the semantic
association, given valid and consistent names. -/
theorem optPairsMem (ms : List ClassMapping)
    (hvalid : ∀ cm ∈ ms, isValidCssIdentifier cm.generatedClassName = true)
    (hcons : ∀ cm ∈ ms, ∀ cm' ∈ ms,
      cm.generatedClassName = cm'.generatedClassName →
      tokensOf cm.originalClasses = tokensOf cm'.originalClasses)
    (c u : String) :
    ((c, u) ∈ (optRules ms).flatMap pairsOfRule ↔ semMem ms c u) := by
  constructor
  · intro h
    rw [optRules, List.flatMap_append, List.mem_append] at h
    rcases h with h | h
    · rcases List.mem_flatMap.mp h with ⟨r, hrmem, hpair⟩
      rcases List.mem_filterMap.mp hrmem with ⟨g, hgmem, hsome⟩
      obtain ⟨k, us⟩ := g
      by_cases hguard : ((splitChar ',' k).filter
          (fun x => x ≠ "")).length ≤ 1 ∨ us.length = 0
      · have hn : groupRuleOf (k, us) = none := by
          rw [groupRuleOf]
          exact if_pos (by simpa using hguard)
        rw [hn] at hsome
        cases hsome
      · have hn : groupRuleOf (k, us) =
            some ((splitChar ',' k).filter (fun x => x ≠ ""), us) := by
          rw [groupRuleOf]
          exact if_neg (by simpa using hguard)
        rw [hn] at hsome
        rw [← Option.some_inj.mp hsome, pairsOfRuleMem] at hpair
        obtain ⟨hc, hu⟩ := hpair
        rcases optGroupsUtil ms k us hgmem u hu with ⟨S, hS, hkS⟩
        have hdec := optClassesDecode ms hvalid u S hS
        rw [hkS] at hdec
        have hc' : c ∈ jsSortStrings S := by
          rw [← hdec]
          exact hc
        exact (optU2cSomeMem ms u S hS c).mp ((jsSortPerm S).mem_iff.mp hc')
    · rcases List.mem_flatMap.mp h with ⟨r, hrmem, hpair⟩
      rcases List.mem_filterMap.mp hrmem with ⟨e, hemem, hsome⟩
      obtain ⟨cn, uses⟩ := e
      by_cases hguard : 0 < (uses.filter
          (fun x => (cn ++ ":" ++ x) ∉ optPrF ms)).length
      · have hn : remRuleOf (optPrF ms) (cn, uses) =
            some ([cn], uses.filter
              (fun x => (cn ++ ":" ++ x) ∉ optPrF ms)) := by
          rw [remRuleOf]
          exact if_pos hguard
        rw [hn] at hsome
        rw [← Option.some_inj.mp hsome, pairsOfRuleMem] at hpair
        obtain ⟨hc, hu⟩ := hpair
        rw [List.mem_singleton] at hc
        have huses : u ∈ uses := List.mem_of_mem_filter hu
        have hdg : mget (optMaps ms).2 cn = some uses :=
          memMget (optMaps ms).2 (optDefsKeysNodup ms) cn uses hemem
        rcases optDefsVal ms cn uses hdg with ⟨cm', hcm', hname', hus'⟩
        refine ⟨cm', hcm', by rw [hname', hc], ?_⟩
        rw [← hus']
        exact huses
      · have hn : remRuleOf (optPrF ms) (cn, uses) = none := by
          rw [remRuleOf]
          exact if_neg hguard
        rw [hn] at hsome
        cases hsome
  · intro h
    have hcval : isValidCssIdentifier c = true :=
      optClassValid ms hvalid c u h
    rcases hmg : mget (optMaps ms).1 u with _ | S
    · exfalso
      have hx := (optU2cMem ms c u).mpr h
      rw [hmg] at hx
      cases hx
    · have hcS : c ∈ S := (optU2cSomeMem ms u S hmg c).mpr h
      have hdec := optClassesDecode ms hvalid u S hmg
      have hubucket := optBucketMem ms u S hmg
      rcases hgg : mget (optGroups ms) (joinSep "," (jsSortStrings S))
        with _ | usk
      · rw [hgg] at hubucket
        cases hubucket
      · rw [hgg, Option.getD_some] at hubucket
        have hgmem : (joinSep "," (jsSortStrings S), usk) ∈ optGroups ms :=
          mgetMem _ _ usk hgg
        by_cases hlen : ((splitChar ','
            (joinSep "," (jsSortStrings S))).filter
            (fun x => x ≠ "")).length ≤ 1
        · have hnotpr : (c ++ ":" ++ u) ∉ optPrF ms := by
            intro hpr
            exact optPrFLen ms hvalid c u hcval S hmg hpr hlen
          rcases hdefs : mget (optMaps ms).2 c with _ | usc
          · exfalso
            rcases h with ⟨cm, hcm, hname, _⟩
            have hx := (optDefsSome ms c).mpr ⟨cm, hcm, hname⟩
            rw [hdefs] at hx
            cases hx
          · rcases optDefsVal ms c usc hdefs with ⟨cm', hcm', hname', husc⟩
            rcases h with ⟨cm, hcm, hname, hu⟩
            have htok : tokensOf cm.originalClasses =
                tokensOf cm'.originalClasses :=
              hcons cm hcm cm' hcm' (hname.trans hname'.symm)
            have huusc : u ∈ usc := by
              rw [husc, ← htok]
              exact hu
            have hurem : u ∈ usc.filter
                (fun x => (c ++ ":" ++ x) ∉ optPrF ms) :=
              List.mem_filter.mpr ⟨huusc, by simpa using hnotpr⟩
            rw [optRules, List.flatMap_append, List.mem_append]
            right
            apply List.mem_flatMap.mpr
            refine ⟨([c], usc.filter
              (fun x => (c ++ ":" ++ x) ∉ optPrF ms)), ?_, ?_⟩
            · apply List.mem_filterMap.mpr
              refine ⟨(c, usc), mgetMem _ c usc hdefs, ?_⟩
              rw [remRuleOf]
              exact if_pos (List.length_pos.mpr (List.ne_nil_of_mem hurem))
            · rw [pairsOfRuleMem]
              exact ⟨List.mem_singleton.mpr rfl, hurem⟩
        · have huskne : usk.length ≠ 0 := by
            intro hx
            rw [List.length_eq_zero] at hx
            rw [hx] at hubucket
            cases hubucket
          have hrule : groupRuleOf (joinSep "," (jsSortStrings S), usk) =
              some (((splitChar ','
                (joinSep "," (jsSortStrings S))).filter
                (fun x => x ≠ "")), usk) := by
            rw [groupRuleOf]
            exact if_neg (by simpa using not_or.mpr ⟨hlen, huskne⟩)
          rw [optRules, List.flatMap_append, List.mem_append]
          left
          apply List.mem_flatMap.mpr
          refine ⟨_, List.mem_filterMap.mpr
            ⟨(joinSep "," (jsSortStrings S), usk), hgmem, hrule⟩, ?_⟩
          rw [pairsOfRuleMem]
          refine ⟨?_, hubucket⟩
          rw [hdec]
          exact (jsSortPerm S).mem_iff.mpr hcS

/-- Parsing the standard stylesheet recovers the semantic associations. -/
theorem stdParsePairs (m : FileMapping)
    (hvalid : ∀ cm ∈ m.mappings,
      isValidCssIdentifier cm.generatedClassName = true)
    (hcons : ∀ cm ∈ m.mappings, ∀ cm' ∈ m.mappings,
      cm.generatedClassName = cm'.generatedClassName →
      tokensOf cm.originalClasses = tokensOf cm'.originalClasses)
    (c u : String) :
    ((c, u) ∈ parseApplyPairs (generateStandardCss m) ↔
      semMem m.mappings c u) := by
  have hgen : generateStandardCss m =
      renderRules (stdRulesGo [] m.mappings) := by
    rw [generateStandardCss, stdFold]
    exact strNilAppend _
  rw [hgen, parseRenderEq _ (stdRulesWf m.mappings hvalid []),
    stdPairsMem m.mappings hcons [] c u]
  constructor
  · intro h
    exact h.2
  · intro h
    exact ⟨List.not_mem_nil c, h⟩

/-- Parsing the optimized stylesheet recovers the semantic
associations. -/
theorem optParsePairs (m : FileMapping)
    (hvalid : ∀ cm ∈ m.mappings,
      isValidCssIdentifier cm.generatedClassName = true)
    (hcons : ∀ cm ∈ m.mappings, ∀ cm' ∈ m.mappings,
      cm.generatedClassName = cm'.generatedClassName →
      tokensOf cm.originalClasses = tokensOf cm'.originalClasses)
    (c u : String) :
    ((c, u) ∈ parseApplyPairs (generateOptimizedCss m) ↔
      semMem m.mappings c u) := by
  have hgen : generateOptimizedCss m = renderRules (optRules m.mappings) := by
    rw [generateOptimizedCss, optimizedCoreEq]
  rw [hgen, parseRenderEq _ (optRulesWf m.mappings hvalid)]
  exact optPairsMem m.mappings hvalid hcons c u

/-! ## Theorems -/

set_option maxRecDepth 20000 in
/-- **C2** (code bug evidence): `normalizeClassString` sorts but does not
remove duplicate tokens, although both the specification and the
function's own doc comment (`Normalize a class string by sorting and
removing duplicates`) say it deduplicates: `"b a a"` normalizes to
`"a a b"`, not to `normalizeClassString "a b" = "a b"`. -/
theorem c2_normalize_keeps_duplicates :
    normalizeClassString "b a a" = "a a b" ∧
    normalizeClassString "a b" = "a b" ∧
    normalizeClassString "b a a" ≠ normalizeClassString "a b" := by
  decide

/-- **C5**: with an absent or invalid namespace hint, resolution returns
`"tw-"` plus the first six hex characters of the MD5 of the canonical
utility string, leaves the tables unchanged, and is therefore a pure
function of the canonical utilities alone: two calls with the same
canonical utilities and absent/invalid hints agree regardless of table
state or call order. -/
theorem c5_hash_fallback_pure :
    (∀ (st : RState) (v : String) (h : Option String),
      hintInvalid h = true →
      processClassValue st v h =
        (normalizeClassString v,
         "tw-" ++ strTake (md5Hex (normalizeClassString v)) 6, st)) ∧
    (∀ (st1 st2 : RState) (v1 v2 : String) (h1 h2 : Option String),
      hintInvalid h1 = true → hintInvalid h2 = true →
      normalizeClassString v1 = normalizeClassString v2 →
      (processClassValue st1 v1 h1).2.1 = (processClassValue st2 v2 h2).2.1) := by
  constructor
  · intro st v h hh
    cases h with
    | none => simp [processClassValue]
    | some ns =>
      have : isValidCssIdentifier ns = false := by
        simpa [hintInvalid] using hh
      simp [processClassValue, this]
  · intro st1 st2 v1 v2 h1 h2 hh1 hh2 hnorm
    have e1 : processClassValue st1 v1 h1 =
        (normalizeClassString v1,
         "tw-" ++ strTake (md5Hex (normalizeClassString v1)) 6, st1) := by
      cases h1 with
      | none => simp [processClassValue]
      | some ns =>
        have : isValidCssIdentifier ns = false := by
          simpa [hintInvalid] using hh1
        simp [processClassValue, this]
    have e2 : processClassValue st2 v2 h2 =
        (normalizeClassString v2,
         "tw-" ++ strTake (md5Hex (normalizeClassString v2)) 6, st2) := by
      cases h2 with
      | none => simp [processClassValue]
      | some ns =>
        have : isValidCssIdentifier ns = false := by
          simpa [hintInvalid] using hh2
        simp [processClassValue, this]
    rw [e1, e2, hnorm]

set_option maxRecDepth 40000 in
/-- **C5 witness**: a concrete instance — an invalid hint over non-empty
tables hashes the canonical utilities and leaves the state alone. -/
theorem c5_hash_fallback_pure_witness :
    processClassValue ⟨[("btn", 0)], [("btn", ["x"])]⟩ "p-2  bg-red-500"
        (some "bad hint") =
      ("bg-red-500 p-2", "tw-" ++ strTake (md5Hex "bg-red-500 p-2") 6,
       ⟨[("btn", 0)], [("btn", ["x"])]⟩) := by
  have h := c5_hash_fallback_pure.1 ⟨[("btn", 0)], [("btn", ["x"])]⟩
    "p-2  bg-red-500" (some "bad hint") (by decide)
  rw [h]
  decide

/-- **C6**: the `"auto"` optimization mode keeps the candidate whose
comment-and-blank-line-stripped length is the minimum of the three
computed candidates, with ties broken in the order global-optimized,
component-optimized, standard. -/
theorem c6_auto_select_smallest (fms : List (String × FileMapping)) :
    getContentLengthExcludingComments (updateCssFilesAuto fms).1 =
      Nat.min (Nat.min
        (getContentLengthExcludingComments (generateGlobalOptimizedCss fms))
        (getContentLengthExcludingComments (generateCssContent fms true)))
        (getContentLengthExcludingComments (generateCssContent fms false)) ∧
    (getContentLengthExcludingComments (generateGlobalOptimizedCss fms) ≤
        getContentLengthExcludingComments (generateCssContent fms true) →
      getContentLengthExcludingComments (generateGlobalOptimizedCss fms) ≤
        getContentLengthExcludingComments (generateCssContent fms false) →
      updateCssFilesAuto fms =
        (generateGlobalOptimizedCss fms, "global-optimized")) ∧
    (¬ (getContentLengthExcludingComments (generateGlobalOptimizedCss fms) ≤
          getContentLengthExcludingComments (generateCssContent fms true) ∧
        getContentLengthExcludingComments (generateGlobalOptimizedCss fms) ≤
          getContentLengthExcludingComments (generateCssContent fms false)) →
      getContentLengthExcludingComments (generateCssContent fms true) ≤
        getContentLengthExcludingComments (generateCssContent fms false) →
      updateCssFilesAuto fms =
        (generateCssContent fms true, "component-optimized")) ∧
    (¬ (getContentLengthExcludingComments (generateGlobalOptimizedCss fms) ≤
          getContentLengthExcludingComments (generateCssContent fms true) ∧
        getContentLengthExcludingComments (generateGlobalOptimizedCss fms) ≤
          getContentLengthExcludingComments (generateCssContent fms false)) →
      ¬ (getContentLengthExcludingComments (generateCssContent fms true) ≤
          getContentLengthExcludingComments (generateCssContent fms false)) →
      updateCssFilesAuto fms =
        (generateCssContent fms false, "standard")) := by
  rcases updateAutoCases fms with ⟨h1, h2, hv⟩ | ⟨h1, h2, hv⟩ | ⟨h1, h2, hv⟩
  · rw [hv]
    refine ⟨?_, fun _ _ => rfl, fun hn _ => absurd ⟨h1, h2⟩ hn,
      fun hn _ => absurd ⟨h1, h2⟩ hn⟩
    dsimp only
    simp only [Nat.min_def]
    split_ifs <;> omega
  · rw [hv]
    refine ⟨?_, fun ha hb => absurd ⟨ha, hb⟩ h1, fun _ _ => rfl,
      fun _ hn => absurd h2 hn⟩
    dsimp only
    simp only [Nat.min_def]
    rcases not_and_or.mp h1 with h | h <;> split_ifs <;> omega
  · rw [hv]
    refine ⟨?_, fun ha hb => absurd ⟨ha, hb⟩ h1, fun _ hc => absurd hc h2,
      fun _ _ => rfl⟩
    dsimp only
    simp only [Nat.min_def]
    rcases not_and_or.mp h1 with h | h <;> split_ifs <;> omega

set_option maxRecDepth 40000 in
/-- **C6 witness**: a concrete instance — with a single one-mapping file
the global-optimized candidate is (tied-)smallest and is kept. -/
theorem c6_auto_select_smallest_witness :
    updateCssFilesAuto
        [("f", ⟨"f", "f.css",
          [⟨"bg-blue-500 text-white", "bg-blue-500 text-white", "header",
            some "header", "f"⟩]⟩)] =
      (generateGlobalOptimizedCss
        [("f", ⟨"f", "f.css",
          [⟨"bg-blue-500 text-white", "bg-blue-500 text-white", "header",
            some "header", "f"⟩]⟩)], "global-optimized") :=
  (c6_auto_select_smallest _).2.1 (by decide) (by decide)

/-- **C1**: resolver versioning.  (i) The concrete scenario: from empty
tables under hint `"btn"`, `"bg-blue-500 p-2"` resolves to `"btn"`, then
`"bg-red-500 p-2"` to `"btn-1"`, then `"bg-blue-500 p-2"` again to
`"btn"` with the tables unchanged (no new version).  (ii) A canonical set
present in the base namespace set is answered with the bare namespace,
state unchanged.  (iii) A canonical set absent from the base set but
present under version `v` (the lowest such, searching `1..highestVersion`
ascending) is answered with `"{namespace}-{v}"`, state unchanged.
(iv) A canonical set registered nowhere is registered under version
`highestVersion + 1` and answered with that versioned name. -/
theorem c1_resolver_versioning :
    ((processClassValue emptyRState "bg-blue-500 p-2" (some "btn")).2.1 =
        "btn" ∧
     (processClassValue btnState1 "bg-red-500 p-2" (some "btn")).2.1 =
        "btn-1" ∧
     processClassValue btnState2 "bg-blue-500 p-2" (some "btn") =
        ("bg-blue-500 p-2", "btn", btnState2)) ∧
    (∀ (st : RState) (u ns : String) (base : List String),
      isValidCssIdentifier ns = true →
      mget st.namespaceToClasses ns = some base →
      normalizeClassString u ∈ base →
      processClassValue st u (some ns) = (normalizeClassString u, ns, st)) ∧
    (∀ (st : RState) (u ns : String) (base : List String) (v : Nat),
      isValidCssIdentifier ns = true →
      mget st.namespaceToClasses ns = some base →
      normalizeClassString u ∉ base →
      1 ≤ v → v ≤ (mget st.namespaceVersions ns).getD 0 →
      normalizeClassString u ∈
        (mget st.namespaceToClasses (ns ++ "-" ++ natDecimal v)).getD [] →
      (∀ w, 1 ≤ w → w < v →
        normalizeClassString u ∉
          (mget st.namespaceToClasses (ns ++ "-" ++ natDecimal w)).getD []) →
      processClassValue st u (some ns) =
        (normalizeClassString u, ns ++ "-" ++ natDecimal v, st)) ∧
    (∀ (st : RState) (u ns : String) (base : List String),
      isValidCssIdentifier ns = true →
      mget st.namespaceToClasses ns = some base →
      normalizeClassString u ∉ base →
      (∀ w, 1 ≤ w → w ≤ (mget st.namespaceVersions ns).getD 0 →
        normalizeClassString u ∉
          (mget st.namespaceToClasses (ns ++ "-" ++ natDecimal w)).getD []) →
      processClassValue st u (some ns) =
        (normalizeClassString u,
         ns ++ "-" ++ natDecimal ((mget st.namespaceVersions ns).getD 0 + 1),
         ⟨mset st.namespaceVersions ns
            ((mget st.namespaceVersions ns).getD 0 + 1),
          mset st.namespaceToClasses
            (ns ++ "-" ++ natDecimal ((mget st.namespaceVersions ns).getD 0 + 1))
            [normalizeClassString u]⟩)) := by
  refine ⟨by decide, ?_, ?_, ?_⟩
  · intro st u ns base hv hb hm
    simp [processClassValue, hv, hb, hm]
  · intro st u ns base v hv hb hm h1 h2 hmem hlow
    have hfind : (List.range' 1 ((mget st.namespaceVersions ns).getD 0)).find?
        (fun version => decide (normalizeClassString u ∈
          (mget st.namespaceToClasses
            (ns ++ "-" ++ natDecimal version)).getD [])) = some v := by
      apply findRangeSome _ _ _ h1 (by omega) (by simp [hmem])
      intro w hw1 hw2
      simp only [decide_eq_false_iff_not]
      exact hlow w hw1 hw2
    simp [processClassValue, hv, hb, hm, hfind]
  · intro st u ns base hv hb hm hnone
    have hfind : (List.range' 1 ((mget st.namespaceVersions ns).getD 0)).find?
        (fun version => decide (normalizeClassString u ∈
          (mget st.namespaceToClasses
            (ns ++ "-" ++ natDecimal version)).getD [])) = none := by
      rw [List.find?_eq_none]
      intro w hw
      rcases List.mem_range'_1.mp hw with ⟨hw1, hw2⟩
      simp only [decide_eq_true_eq]
      exact hnone w hw1 (by omega)
    simp [processClassValue, hv, hb, hm, hfind]

/-- **C1 witness**: in the state after the first two scenario calls,
re-resolving `"bg-red-500 p-2"` under `"btn"` is answered by existing
version 1, with the tables unchanged. -/
theorem c1_resolver_versioning_witness :
    processClassValue btnState2 "bg-red-500 p-2" (some "btn") =
      ("bg-red-500 p-2", "btn-1", btnState2) := by
  have h := c1_resolver_versioning.2.2.1 btnState2 "bg-red-500 p-2" "btn"
    ["bg-blue-500 p-2"] 1 (by decide) (by decide) (by decide) (by decide)
    (by decide) (by decide) (fun w hw1 hw2 => absurd (hw1.trans_lt hw2)
      (lt_irrefl 1))
  rw [h]
  decide

/-- **C10**: every generated class name produced by resolution — hash
based, bare namespace, or versioned — satisfies `isValidCssIdentifier`,
for every table state, class string, and hint. -/
theorem c10_generated_names_valid (st : RState) (v : String)
    (h : Option String) :
    isValidCssIdentifier (processClassValue st v h).2.1 = true := by
  cases h with
  | none =>
    show isValidCssIdentifier
      ("tw-" ++ strTake (md5Hex (normalizeClassString v)) 6) = true
    exact validIdentTwHash _ 6
  | some ns =>
    rcases hv : isValidCssIdentifier ns with _ | _
    · simp only [processClassValue, hv, Bool.not_false, if_true]
      exact validIdentTwHash _ 6
    · rcases hb : mget st.namespaceToClasses ns with _ | base
      · simp [processClassValue, hv, hb]
      · by_cases hm : normalizeClassString v ∈ base
        · simp [processClassValue, hv, hb, hm]
        · rcases hf : (List.range' 1 ((mget st.namespaceVersions ns).getD 0)).find?
              (fun version => decide (normalizeClassString v ∈
                (mget st.namespaceToClasses
                  (ns ++ "-" ++ natDecimal version)).getD [])) with _ | mv
          · simp only [processClassValue, hv, hb, hm, hf]
            simp only [Bool.not_true, Bool.false_eq_true, if_false]
            exact validIdentVersioned ns _ hv
          · simp only [processClassValue, hv, hb, hm, hf]
            simp only [Bool.not_true, Bool.false_eq_true, if_false]
            exact validIdentVersioned ns mv hv

set_option maxRecDepth 100000 in
/-- **C8 counterexample**: a reachable state (scans then an `unlink`,
whose handler runs the rebuild pass) in which the version counter for
`btn` is 2 while the versioned-namespace table has no `btn-1` entry —
versions are not dense — and one further deletion drops the counter from
2 to 0 — the counter is not monotone. -/
theorem c8_counterexample :
    ReachStore c8Trace ∧
    mget c8Trace.rs.namespaceVersions "btn" = some 2 ∧
    mget c8Trace.rs.namespaceToClasses ("btn" ++ "-" ++ natDecimal 1) = none ∧
    mget (unlinkOp c8Trace "f3").rs.namespaceVersions "btn" = some 0 := by
  refine ⟨?_, by decide, by decide, by decide⟩
  exact ReachStore.unlink _ _ (ReachStore.scan _ _ _ _
    (ReachStore.scan _ _ _ _ (ReachStore.scan _ _ _ _ ReachStore.init)))

/-- **C8 amended**: across resolver calls alone (no rebuild pass),
starting from empty tables, versions are assigned densely — whenever the
counter records highest version `h` for a base namespace, every version
`1..h` has a versioned-namespace table entry — and one further resolver
call never decreases a version counter.  (The rebuild pass breaks both
properties, as the counterexample shows: it keeps only versions backed by
live mappings, which may leave gaps, and it recomputes counters, which
may decrease them.) -/
theorem c8_resolver_versions_dense_monotone (st : RState)
    (hr : ReachResolver st) :
    denseProp st ∧
    (∀ (v : String) (h : Option String) (ns : String) (n : Nat),
      mget st.namespaceVersions ns = some n →
      ∃ n', mget (processClassValue st v h).2.2.namespaceVersions ns =
        some n' ∧ n ≤ n') := by
  have hi := reachResolverInv st hr
  exact ⟨hi.1, fun v h ns n hn =>
    (resolverStepInv st v h hi.1 hi.2).2.2 ns n hn⟩

/-- **C8 witness**: the invariant instantiated at a concrete reachable
state (after one resolver call from startup). -/
theorem c8_resolver_versions_dense_monotone_witness :
    denseProp (processClassValue emptyRState "bg-blue-500 p-2"
      (some "btn")).2.2 :=
  (c8_resolver_versions_dense_monotone _
    (ReachResolver.step _ _ _ ReachResolver.init)).1

/-- **C9**: immediately after the rebuild pass over the current
`FileMapping`s, every entry of the rebuilt tables is backed by at least
one `ClassMapping` of a currently-live `FileMapping`: every normalized
class string stored under a key of the class table comes from a live
mapping classified for that key (as base namespace, or as version `v` of
a base namespace for a key of the form `ns-v`), and every entry of the
version counter is backed by a live base-classified mapping of that
namespace.  Consequently a namespace version exclusively backed by
previously-removed mappings is absent from the rebuilt tables. -/
theorem c9_rebuild_backed (fms : List (String × FileMapping)) :
    (∀ key S,
      mget (cleanupNamespaceVersions fms).namespaceToClasses key = some S →
      ∀ nc ∈ S, backsBase fms key nc ∨
        ∃ ns v, key = ns ++ "-" ++ natDecimal v ∧ backsVer fms ns v nc) ∧
    (∀ ns h,
      mget (cleanupNamespaceVersions fms).namespaceVersions ns = some h →
      ∃ nc, backsBase fms ns nc) := by
  have hacc : accBacked fms (fms.foldl cleanupCollect ([], [])) :=
    cleanupCollectFold fms fms ([], []) (fun _ he => he)
      ⟨fun p hp => absurd hp (List.not_mem_nil p),
       fun p hp => absurd hp (List.not_mem_nil p)⟩
  have hst : stBacked fms (cleanupNamespaceVersions fms) := by
    show stBacked fms ((fms.foldl cleanupCollect ([], [])).1.foldl
      (cleanupRebuildStep (fms.foldl cleanupCollect ([], [])).2) ⟨[], []⟩)
    exact cleanupRebuildFold fms _ hacc.2 _ _ hacc.1
      ⟨fun p hp => absurd hp (List.not_mem_nil p),
       fun p hp => absurd hp (List.not_mem_nil p)⟩
  constructor
  · intro key S hkey nc hnc
    rcases hst.1 (key, S) (mgetMem _ _ _ hkey) with h | ⟨ns, v, hk, h⟩
    · exact Or.inl (h nc hnc)
    · exact Or.inr ⟨ns, v, hk, h nc hnc⟩
  · intro ns h hns
    exact hst.2 (ns, h) (mgetMem _ _ _ hns)

set_option maxRecDepth 40000 in
/-- **C3 counterexample**: a source text containing one framework
expression (`className`) occurrence whose class text is non-empty and
free of expression delimiters — the scanner's own matcher finds it — yet
`processFile` rewrites nothing and records no `ClassMapping`, because the
`className` loop only runs when the plain-class loop already rewrote an
occurrence. -/
theorem c3_counterexample :
    (jsxOccs " className=\x7b\"p-2\"\x7d".data).length = 1 ∧
    processFile emptyRState " className=\x7b\"p-2\"\x7d" "g.jsx" =
      (" className=\x7b\"p-2\"\x7d", false, [], emptyRState) := by
  constructor
  · decide
  · decide

/-- **C3 amended**: the scanner equals the spec-shaped pipeline over the
amended occurrence semantics: every plain class-attribute occurrence with
non-empty, brace-free class text is rewritten in source order — resolved
name spliced between the preserved delimiters, one `ClassMapping` each,
hints by the nearest-preceding rule over offsets in the original text —
but framework-expression (`className`) occurrences are processed only
when at least one plain occurrence was rewritten; they are skipped only
for whitespace-only class text (an expression delimiter does not skip
them), their offsets are taken in the once-rewritten text while hint
offsets still refer to the original text, and all namespace-hint
attributes are stripped at the end of a changed pass. -/
theorem c3_scan_rewrite_shape (st : RState) (code : String) (id : String) :
    processFile st code id = processFileSpecShape st code id :=
  processFileSpecEq st code id

set_option maxRecDepth 40000 in
/-- **C4 counterexample**: rewriting
`' tw-namespace="btn" class="bg-blue-500 p-2"'` yields
`' class="btn"'` with `changed = true`; scanning that rewritten text (its
namespace hints were stripped by the first pass) reports
`changed = true` again — not `false` as the round-trip property claims —
because the rewritten attribute is itself a processable occurrence. -/
theorem c4_counterexample :
    (processFile emptyRState
      " tw-namespace=\"btn\" class=\"bg-blue-500 p-2\"" "f").1 =
        " class=\"btn\"" ∧
    (processFile emptyRState
      " tw-namespace=\"btn\" class=\"bg-blue-500 p-2\"" "f").2.1 = true ∧
    (processFile emptyRState " class=\"btn\"" "f").2.1 = true := by
  refine ⟨by decide, by decide, by decide⟩

/-- **C4 amended**: re-scanning the rewritten text reports
`changed == false` exactly when the rewritten text contains no plain
class-attribute occurrence with non-empty, brace-free class text; since
each rewritten occurrence keeps its delimiters around a resolved name
(itself non-empty and brace-free), a rewrite that changed anything leaves
such occurrences, and the second pass reports `changed == true` (the
counterexample shows this concretely). -/
theorem c4_rescan_changed_iff (st st2 : RState) (code id id2 : String) :
    (processFile st2 (processFile st code id).1 id2).2.1 = false ↔
      plainOccs ((processFile st code id).1).data = [] := by
  rw [processFileChanged]
  simp [List.isEmpty_iff]

set_option maxRecDepth 40000 in
/-- **C9 witness**: a concrete instance — after rebuilding from one live
file whose mapping resolved `bg-blue-500 p-2` to `btn`, the `btn` table
entry is backed by that mapping. -/
theorem c9_rebuild_backed_witness :
    backsBase
      [("f1", ⟨"f1", "f1.css",
        [⟨"bg-blue-500 p-2", "bg-blue-500 p-2", "btn", some "btn", "f1"⟩]⟩)]
      "btn" "bg-blue-500 p-2" ∨
    ∃ ns v, "btn" = ns ++ "-" ++ natDecimal v ∧
      backsVer
        [("f1", ⟨"f1", "f1.css",
          [⟨"bg-blue-500 p-2", "bg-blue-500 p-2", "btn", some "btn", "f1"⟩]⟩)]
        ns v "bg-blue-500 p-2" :=
  (c9_rebuild_backed _).1 "btn" ["bg-blue-500 p-2"] (by decide)
    "bg-blue-500 p-2" (by decide)

/-- C7 (corrected): with every generated name a valid CSS identifier and
mappings that share a generated name agreeing on their utility token
list, the (generated name, utility) associations recoverable by parsing
the standard-mode stylesheet equal those recoverable from the
component-optimized stylesheet; without the agreement hypothesis the
claim fails (see the counterexample). -/
theorem c7_stylesheet_equivalence (m : FileMapping)
    (hvalid : ∀ cm ∈ m.mappings,
      isValidCssIdentifier cm.generatedClassName = true)
    (hcons : ∀ cm ∈ m.mappings, ∀ cm' ∈ m.mappings,
      cm.generatedClassName = cm'.generatedClassName →
      tokensOf cm.originalClasses = tokensOf cm'.originalClasses)
    (p : String × String) :
    (p ∈ parseApplyPairs (generateStandardCss m) ↔
      p ∈ parseApplyPairs (generateOptimizedCss m)) := by
  obtain ⟨c, u⟩ := p
  rw [stdParsePairs m hvalid hcons c u, optParsePairs m hvalid hcons c u]

set_option maxRecDepth 20000 in
/-- C7 counterexample: two mappings sharing the generated name `a` with
utilities `x` and `y` make the standard stylesheet apply `x` to `a`
(first occurrence wins) while the optimized stylesheet applies `y`
(its per-class map keeps the last occurrence), so the recovered
association sets differ. -/
theorem c7_counterexample :
    pairSetEqB (parseApplyPairs (generateStandardCss c7FmBad))
      (parseApplyPairs (generateOptimizedCss c7FmBad)) = false := by
  decide

set_option maxRecDepth 20000 in
/-- C7 witness: the equivalence applied to a concrete mapping whose two
names share the utility `a` (which the optimizer groups). -/
theorem c7_stylesheet_equivalence_witness :
    (∀ cm ∈ c7FmW.mappings,
      isValidCssIdentifier cm.generatedClassName = true) ∧
    (("x", "a") ∈ parseApplyPairs (generateStandardCss c7FmW) ↔
      ("x", "a") ∈ parseApplyPairs (generateOptimizedCss c7FmW)) :=
  ⟨by decide, c7_stylesheet_equivalence c7FmW (by decide) (by decide)
    ("x", "a")⟩

end TwNs
